import Mathlib

/-! # Readability content extractor (`internal/reader/readability/readability.go`)

A shallow embedding of the readability package of Miniflux and the properties
of its heuristics.

Conventions of the embedding:

* a Go `string` is its sequence of bytes (`GoString`), so `len` is `List.length`;
* `strings.ToLower` belongs to the Go standard library (it consults the Unicode
  tables), so every function that calls it takes the lowering function as its
  first argument `toLower`; `asciiToLower` is its behaviour on ASCII input and
  is used for concrete examples;
* an `*html.Node` is identified by its path from the document node
  (`Path`, the list of child indices), a `*goquery.Selection` is the list of the
  paths of its nodes;
* a `float32` is the rational (`ℚ`) it stands for, and every operation of the code
  on float32 values is the exact operation followed by the rounding `float32` to
  the nearest value of 24 significant bits, ties to even;
* the regular expressions `negativeRegexp` and `positiveRegexp` are unanchored
  alternations of literal words, so `MatchString` is "contains one of the words".
-/

namespace Readability

/-! ## Go strings -/

/-- A Go string: a sequence of bytes. -/
abbrev GoString := List UInt8

/-- The bytes of an ASCII string literal. -/
def str (s : String) : GoString := s.toList.map (fun c => c.toNat.toUInt8)

/-- Go `strings.HasPrefix s pre`. -/
def hasPrefix : GoString → GoString → Bool
  | _, [] => true
  | [], _ :: _ => false
  | c :: cs, p :: ps => c == p && hasPrefix cs ps

/-- Go `strings.Contains s substr`: `substr` occurs in `s` as a contiguous block. -/
def contains : GoString → GoString → Bool
  | [], substr => substr.isEmpty
  | c :: cs, substr => hasPrefix (c :: cs) substr || contains cs substr

/-- Go `strings.ToLower` restricted to ASCII input: `A`..`Z` become `a`..`z`. -/
def asciiToLower (s : GoString) : GoString :=
  s.map (fun b => if 65 ≤ b.toNat ∧ b.toNat ≤ 90 then (b.toNat + 32).toUInt8 else b)

/-! ## Term lists (lines 26-31 of readability.go) -/

def strongCandidates : List GoString := ["popupbody", "-ad", "g-plus"].map str

def maybeCandidate : List GoString :=
  ["and", "article", "body", "column", "main", "shadow"].map str

def unlikelyCandidate : List GoString :=
  ["banner", "breadcrumbs", "combx", "comment", "community", "cover-wrap", "disqus",
   "extra", "foot", "header", "legends", "menu", "modal", "related", "remark", "replies",
   "rss", "shoutbox", "sidebar", "skyscraper", "social", "sponsor", "supplemental",
   "ad-break", "agegate", "pagination", "pager", "popup", "yom-remote"].map str

/-- The alternatives of `negativeRegexp`. -/
def negativeTerms : List GoString :=
  ["hid", "banner", "combx", "comment", "com-", "contact", "foot", "masthead", "media",
   "meta", "modal", "outbrain", "promo", "related", "scroll", "share", "shoutbox",
   "sidebar", "skyscraper", "sponsor", "shopping", "tags", "tool", "widget", "byline",
   "author", "dateline", "writtenby"].map str

/-- The alternatives of `positiveRegexp`. -/
def positiveTerms : List GoString :=
  ["article", "body", "content", "entry", "hentry", "h-entry", "main", "page",
   "pagination", "post", "text", "blog", "story"].map str

/-- The method `MatchString` of a regular expression that is an unanchored alternation
of literal words: some word occurs in the subject. -/
def matchString (terms : List GoString) (s : GoString) : Bool :=
  terms.any (fun t => contains s t)

/-! ## shouldRemoveCandidate (lines 146-170) -/

/-- The inner loop of `shouldRemoveCandidate` over `maybeCandidate`: `true` when the
loop reaches `return false` (a false positive). -/
def maybeLoop (s : GoString) : List GoString → Bool
  | [] => false
  | maybe :: rest => if contains s maybe then true else maybeLoop s rest

/-- The second loop of `shouldRemoveCandidate`, over `unlikelyCandidate`. -/
def unlikelyLoop (s : GoString) : List GoString → Bool
  | [] => false
  | unlikely :: rest =>
    if contains s unlikely then
      if maybeLoop s maybeCandidate then false else true
    else unlikelyLoop s rest

/-- The first loop of `shouldRemoveCandidate`, over `strongCandidates`: `true` when the
loop reaches `return true`. -/
def strongLoop (s : GoString) : List GoString → Bool
  | [] => false
  | strong :: rest => if contains s strong then true else strongLoop s rest

def shouldRemoveCandidate (toLower : GoString → GoString) (s : GoString) : Bool :=
  let s := toLower s
  if strongLoop s strongCandidates then true
  else unlikelyLoop s unlikelyCandidate

/-! ## The parsed tree (package golang.org/x/net/html) -/

/-- The `NodeType` of an `html.Node`. -/
inductive NodeType where
  | ErrorNode | TextNode | DocumentNode | ElementNode | CommentNode | DoctypeNode | RawNode
  deriving DecidableEq

/-- An `html.Attribute`. -/
structure Attribute where
  Namespace : GoString
  Key : GoString
  Val : GoString

/-- An `html.Node` with its children in order. `dataAtom` is `DataAtom.String()`, the
name of the atom the parser recorded for the tag (empty for the zero atom); `data` is
`Data`, the tag name of an element or the content of a text node; `ns` is `Namespace`. -/
inductive Node where
  | mk (type : NodeType) (dataAtom : GoString) (data : GoString) (ns : GoString)
      (attr : List Attribute) (children : List Node)

namespace Node

def type : Node → NodeType
  | mk t _ _ _ _ _ => t

def dataAtom : Node → GoString
  | mk _ a _ _ _ _ => a

def data : Node → GoString
  | mk _ _ d _ _ _ => d

/-- The field `Namespace`, empty for an HTML element. -/
def ns : Node → GoString
  | mk _ _ _ ns _ _ => ns

def attr : Node → List Attribute
  | mk _ _ _ _ attrs _ => attrs

def children : Node → List Node
  | mk _ _ _ _ _ cs => cs

end Node

/-- The identity of a node of a document: the child indices on the way from the document
node down to it. The document node is `[]`; the parent of `p ++ [i]` is `p`. -/
abbrev Path := List Nat

/-- The node at a path, if the path leads to one. -/
def Node.get? : Node → Path → Option Node
  | n, [] => some n
  | n, i :: p =>
    match n.children.get? i with
    | none => none
    | some c => c.get? p

/-- A `*goquery.Selection`: the paths of its nodes, in order. -/
abbrev Selection := List Path

/-- An element with the given tag name (a cascadia tag selector compares `Data`). -/
def isTag (tag : GoString) (n : Node) : Bool :=
  n.type = NodeType.ElementNode && n.data = tag

/-- A selector group such as "pre, code": an element with one of the tag names. -/
def isTagIn (tags : List GoString) (n : Node) : Bool :=
  n.type = NodeType.ElementNode && tags.contains n.data

/-- The selector "*": any element. -/
def isElement (n : Node) : Bool :=
  n.type = NodeType.ElementNode

mutual
/-- The text a node contributes to `Selection.Text`: the data of the text nodes of its
subtree, in document order. -/
def nodeText : Node → GoString
  | .mk t _ d _ _ cs => (if t = NodeType.TextNode then d else []) ++ nodeTextList cs
def nodeTextList : List Node → GoString
  | [] => []
  | c :: cs => nodeText c ++ nodeTextList cs
end

mutual
/-- The method `MatchAll` of a cascadia selector: the nodes of the subtree of `n`, itself
included, that match, in document order. `p` is the path of `n`. -/
def matchAll (m : Node → Bool) : Node → Path → List Path
  | .mk t a d ns attrs cs, p =>
    (if m (.mk t a d ns attrs cs) then [p] else []) ++ matchAllChildren m cs p 0
def matchAllChildren (m : Node → Bool) : List Node → Path → Nat → List Path
  | [], _, _ => []
  | c :: cs, p, i => matchAll m c (p ++ [i]) ++ matchAllChildren m cs p (i + 1)
end

/-- The loop of goquery `findWithMatcher` over the children of one node: every element
child is searched with `MatchAll`. -/
def findChildren (m : Node → Bool) : List Node → Path → Nat → List Path
  | [], _, _ => []
  | c :: cs, p, i =>
    (if c.type = NodeType.ElementNode then matchAll m c (p ++ [i]) else []) ++
      findChildren m cs p (i + 1)

/-- The descendants of the node at `p` that match, in document order. -/
def findFrom (doc : Node) (m : Node → Bool) (p : Path) : List Path :=
  match doc.get? p with
  | none => []
  | some n => findChildren m n.children p 0

namespace Selection

/-- The method `Selection.Find`: the matching descendants of the nodes of the selection,
without duplicates. -/
def find (doc : Node) (m : Node → Bool) (s : Selection) : Selection :=
  (s.flatMap (findFrom doc m)).eraseDups

/-- The method `Selection.Text`. -/
def text (doc : Node) (s : Selection) : GoString :=
  s.flatMap (fun p => match doc.get? p with
    | none => []
    | some n => nodeText n)

/-- The method `Selection.Get(0)`; `none` stands for the index-out-of-range panic on an
empty selection. -/
def get0 (s : Selection) : Option Path := s.head?

/-- The parent of a node as goquery sees it: only an element counts. -/
def parentOf (doc : Node) (p : Path) : Option Path :=
  if p = [] then none
  else match doc.get? p.dropLast with
    | none => none
    | some n => if n.type = NodeType.ElementNode then some p.dropLast else none

/-- The method `Selection.Parent`. -/
def parent (doc : Node) (s : Selection) : Selection :=
  (s.filterMap (parentOf doc)).eraseDups

/-- The value of the first attribute of a node with the given key. -/
def attrOf (key : GoString) : List Attribute → Option GoString
  | [] => none
  | a :: rest => if a.Key = key then some a.Val else attrOf key rest

/-- The method `Selection.Attr`: the attribute of the first node of the selection; `none`
when the selection is empty or the attribute is absent (`exists == false`). -/
def attr (doc : Node) (s : Selection) (key : GoString) : Option GoString :=
  match s with
  | [] => none
  | p :: _ =>
    match doc.get? p with
    | none => none
    | some n => attrOf key n.attr

end Selection

/-- The method `document.Find`: a document is the selection of its document node. -/
def documentFind (doc : Node) (m : Node → Bool) : Selection :=
  Selection.find doc m [[]]

/-! ## removeUnlikelyCandidates (lines 172-189)

The pass mutates the tree while it walks a selection computed beforehand. The state of
the walk is the list of the nodes detached so far (`Remove` sets their `Parent` to nil);
the tree after the pass is the document without the detached subtrees. -/

/-- The walk of `Selection.Closest` from the node itself up through the `Parent` links:
the argument lists the node and its ancestors, nearest first. A detached node has no
parent, so the walk stops there. -/
def closestFrom (doc : Node) (removed : List Path) (m : Node → Bool) : List Path → Option Path
  | [] => none
  | q :: up =>
    match doc.get? q with
    | none => none
    | some n =>
      if m n then some q
      else if removed.contains q then none
      else closestFrom doc removed m up

/-- The method `Selection.Closest` on the one-node selection `p`, in the tree where the
nodes of `removed` are detached. -/
def closest (doc : Node) (removed : List Path) (m : Node → Bool) (p : Path) : Option Path :=
  closestFrom doc removed m p.inits.reverse

/-- The node `p` or one of its ancestors matches `m` in the document as parsed. -/
def InCode (doc : Node) (m : Node → Bool) (p : Path) : Prop :=
  ∃ q, q <+: p ∧ ∃ n, doc.get? q = some n ∧ m n = true

/-- The attribute is present and its value is to be removed. -/
def attrShouldRemove (toLower : GoString → GoString) (n : Node) (key : GoString) : Bool :=
  match Selection.attrOf key n.attr with
  | none => false
  | some v => shouldRemoveCandidate toLower v

/-- The callback of `Each` in `removeUnlikelyCandidates`, run on the node `p` with
`removed` the nodes detached so far. -/
def removeUnlikelyStep (toLower : GoString → GoString) (doc : Node) (removed : List Path)
    (p : Path) : List Path :=
  match doc.get? p with
  | none => removed
  | some n =>
    if n.data = str "html" ∨ n.data = str "body" then removed
    else if (closest doc removed (isTagIn [str "pre", str "code"]) p).isSome then removed
    else if attrShouldRemove toLower n (str "class") then p :: removed
    else if attrShouldRemove toLower n (str "id") then p :: removed
    else removed

/-- The nodes on which `removeUnlikelyCandidates` calls `Remove`. -/
def removedNodes (toLower : GoString → GoString) (doc : Node) : List Path :=
  (documentFind doc isElement).foldl (removeUnlikelyStep toLower doc) []

/-- A node is attached to the document tree: neither it nor an ancestor is detached. -/
def attached (removed : List Path) (p : Path) : Bool :=
  p.inits.all (fun q => !removed.contains q)

mutual
/-- The tree without the detached subtrees. -/
def pruneNode (removed : List Path) : Node → Path → Node
  | .mk t a d ns attrs cs, p => .mk t a d ns attrs (pruneChildren removed cs p 0)
def pruneChildren (removed : List Path) : List Node → Path → Nat → List Node
  | [], _, _ => []
  | c :: cs, p, i =>
    if removed.contains (p ++ [i]) then pruneChildren removed cs p (i + 1)
    else pruneNode removed c (p ++ [i]) :: pruneChildren removed cs p (i + 1)
end

/-- The document after `removeUnlikelyCandidates`. -/
def removeUnlikelyCandidates (toLower : GoString → GoString) (doc : Node) : Node :=
  pruneNode (removedNodes toLower doc) doc []

/-! ## Example documents -/

/-- A text node. -/
def textNode (s : String) : Node := .mk NodeType.TextNode [] (str s) [] [] []

/-- An HTML element as the parser builds it, for a tag name that has an atom: the atom is
the one of the tag name. -/
def elem (tag : String) (attrs : List (String × String)) (children : List Node) : Node :=
  .mk NodeType.ElementNode (str tag) (str tag) []
    (attrs.map (fun kv => ⟨[], str kv.1, str kv.2⟩)) children

/-- A document node with the given children. -/
def document (children : List Node) : Node :=
  .mk NodeType.DocumentNode [] [] [] [] children

/-- The parse of a page whose body holds a sidebar block with a code sample in it. -/
def docSidebarPre : Node :=
  document [elem "html" [] [elem "head" [] [], elem "body" [] [
    elem "div" [("class", "sidebar")] [
      elem "pre" [] [elem "span" [("class", "comment")] [textNode "x"]]]]]]

/-- The parse of a page whose body holds a code sample directly. -/
def docPre : Node :=
  document [elem "html" [] [elem "head" [] [], elem "body" [] [
    elem "pre" [] [elem "span" [("class", "comment")] [textNode "x"]]]]]

/-! ## The type float32 of Go -/

/-- The integer nearest to a rational that is not negative, the even one of the two when
it lies halfway. -/
def roundHalfEven (x : ℚ) : ℕ :=
  let f := ⌊x⌋₊
  if 2 * (x - f) < 1 then f
  else if 1 < 2 * (x - f) then f + 1
  else if f % 2 = 0 then f else f + 1

/-- The number of binary digits of `n`, counted with `fuel` steps at most. -/
def bitLength : ℕ → ℕ → ℕ
  | 0, _ => 0
  | fuel + 1, n => if n = 0 then 0 else bitLength fuel (n / 2) + 1

/-- The exponent of the unit in the last place of a positive rational in float32: the
`e` with `2 ^ (e + 23) ≤ x < 2 ^ (e + 24)`. -/
def ulpExponent (x : ℚ) : ℤ :=
  let k : ℤ := (bitLength x.num.natAbs x.num.natAbs : ℤ) - (bitLength x.den x.den : ℤ)
  (if (2 : ℚ) ^ k ≤ x then k else k - 1) - 23

/-- The conversion `float32(x)`: the float32 nearest to `x`, the one with the even
significand when two are as near (IEEE 754 binary32 with the rounding to nearest even of
Go). An operation of the code on float32 operands is the conversion of its exact result.
The exponent is not bounded: this is the value of the code while the magnitude stays in
the range of the normal float32 values, from `2 ^ -126` up to `2 ^ 128`, and the lengths
of the strings of a page keep the values computed here inside that range. -/
def float32 (x : ℚ) : ℚ :=
  if x = 0 then 0
  else
    let e := ulpExponent |x|
    (if x < 0 then -1 else 1) * (roundHalfEven (|x| / 2 ^ e) : ℚ) * 2 ^ e

/-- A value of the type float32 (in the range above): a significand under `2 ^ 24`
times a power of 2, with a sign. -/
def IsFloat32 (x : ℚ) : Prop :=
  ∃ (m : ℕ) (t : ℤ), m < 2 ^ 24 ∧ (x = m * 2 ^ t ∨ x = -(m * 2 ^ t))

/-! ## Candidates (lines 34-59) -/

/-- A `candidate`: a selection and its score. -/
structure candidate where
  selection : Selection
  score : ℚ

/-- The method `candidate.Node`: `c.selection.Get(0)`. -/
def candidate.Node (c : candidate) : Option Path := Selection.get0 c.selection

/-- A `candidateList`, the Go map from nodes to candidates, as the list of its entries.
The order of the list is one order in which the map may be iterated. -/
abbrev candidateList := List (Path × candidate)

namespace candidateList

/-- The lookup `candidates[node]`. -/
def lookup (node : Path) : candidateList → Option candidate
  | [] => none
  | (k, c) :: rest => if k = node then some c else lookup node rest

/-- The update `candidates[node].score += x`, an addition of float32 values. -/
def addScore (node : Path) (x : ℚ) (candidates : candidateList) : candidateList :=
  candidates.map (fun e =>
    if e.1 = node then (e.1, { e.2 with score := float32 (e.2.score + x) }) else e)

end candidateList

/-! ## getClassWeight (lines 300-324), scoreNode (268-284), getLinkDensity (286-298) -/

/-- The function `getClassWeight`: an `int` weight, converted to float32 on return. The
weight is between -50 and 50, so the conversion is exact. -/
def getClassWeight (toLower : GoString → GoString) (doc : Node) (s : Selection) : ℚ :=
  let weight : Int := 0
  let weight : Int :=
    match Selection.attr doc s (str "class") with
    | some cls =>
      let cls := toLower cls
      if matchString negativeTerms cls then weight - 25
      else if matchString positiveTerms cls then weight + 25
      else weight
    | none => weight
  let weight : Int :=
    match Selection.attr doc s (str "id") with
    | some id =>
      let id := toLower id
      if matchString negativeTerms id then weight - 25
      else if matchString positiveTerms id then weight + 25
      else weight
    | none => weight
  (weight : ℚ)

/-- The `switch` of `scoreNode` on `DataAtom.String()`: the score after it, starting
from 0. The values are whole numbers that float32 holds exactly. -/
def tagScore (atom : GoString) : ℚ :=
  if atom = str "div" then 0 + 5
  else if atom ∈ [str "pre", str "td", str "blockquote", str "img"] then 0 + 3
  else if atom ∈ [str "address", str "ol", str "ul", str "dl", str "dd", str "dt",
      str "li", str "form"] then 0 - 3
  else if atom ∈ [str "h1", str "h2", str "h3", str "h4", str "h5", str "h6",
      str "th"] then 0 - 5
  else 0

/-- The function `scoreNode`; `none` stands for the panic of `s.Get(0)` on a selection
without a node. The sum of the tag score and the class weight is a whole number between
-55 and 55, so the float32 addition is exact. -/
def scoreNode (toLower : GoString → GoString) (doc : Node) (s : Selection) :
    Option candidate :=
  match Selection.get0 s with
  | none => none
  | some p =>
    match doc.get? p with
    | none => none
    | some n => some ⟨s, tagScore n.dataAtom + getClassWeight toLower doc s⟩

/-- The function `getLinkDensity`: the quotient of two lengths converted to float32. -/
def getLinkDensity (doc : Node) (s : Selection) : ℚ :=
  let textLength := (Selection.text doc s).length
  if textLength = 0 then 0
  else
    let linkLength := (Selection.text doc (Selection.find doc (isTag (str "a")) s)).length
    float32 (float32 (linkLength : ℚ) / float32 (textLength : ℚ))

/-! ## getCandidates (lines 213-266) -/

/-- The tag names of `defaultTagsToScore`. -/
def defaultTagsToScore : List GoString :=
  ["section", "h2", "h3", "h4", "h5", "h6", "p", "td", "pre", "div"].map str

/-- The value of the local variable `contentScore`, a float32, for an element with the
given text: one point, one point per comma plus one, and one point per 100 bytes up to 3
(the division `len(text)/100.0` is an integer division, its operands being an `int` and
an untyped constant). Each `+=` adds a converted integer in float32. -/
def contentScore (text : GoString) : ℚ :=
  let contentScore : ℚ := float32 1
  let contentScore := float32 (contentScore + float32 ((text.count 44 + 1 : Nat) : ℚ))
  let contentScore :=
    float32 (contentScore + float32 ((min (text.length / 100) 3 : Nat) : ℚ))
  contentScore

/-- The statement `if _, found := candidates[node]; !found { candidates[node] =
scoreNode(sel) }`. -/
def ensureCandidate (toLower : GoString → GoString) (doc : Node)
    (candidates : candidateList) (node : Path) (sel : Selection) : Option candidateList :=
  match candidates.lookup node with
  | some _ => some candidates
  | none =>
    match scoreNode toLower doc sel with
    | none => none
    | some c => some (candidates ++ [(node, c)])

/-- The callback of `Each` in `getCandidates`, run on the element `s`; `none` stands for
a panic (`parent.Get(0)` when the element has no element as parent). -/
def getCandidatesStep (toLower : GoString → GoString) (doc : Node)
    (candidates : candidateList) (s : Path) : Option candidateList :=
  let text := Selection.text doc [s]
  if text.length < 25 then some candidates
  else
    let parent := Selection.parent doc [s]
    match Selection.get0 parent with
    | none => none
    | some parentNode =>
      let grandParent := Selection.parent doc parent
      let grandParentNode : Option Path :=
        if grandParent.length > 0 then Selection.get0 grandParent else none
      match ensureCandidate toLower doc candidates parentNode parent with
      | none => none
      | some candidates =>
        match (match grandParentNode with
            | some g => ensureCandidate toLower doc candidates g grandParent
            | none => some candidates) with
        | none => none
        | some candidates =>
          let candidates := candidates.addScore parentNode (contentScore text)
          match grandParentNode with
          | some g => some (candidates.addScore g (float32 (contentScore text / 2)))
          | none => some candidates

/-- The loop `Each` of `getCandidates` over the selection of the elements to score. -/
def getCandidatesLoop (toLower : GoString → GoString) (doc : Node) :
    candidateList → List Path → Option candidateList
  | candidates, [] => some candidates
  | candidates, s :: rest =>
    match getCandidatesStep toLower doc candidates s with
    | none => none
    | some candidates => getCandidatesLoop toLower doc candidates rest

/-- The candidates of `getCandidates` before the scaling by link density. -/
def accumulatedCandidates (toLower : GoString → GoString) (doc : Node) :
    Option candidateList :=
  getCandidatesLoop toLower doc [] (documentFind doc (isTagIn defaultTagsToScore))

/-- The last loop of `getCandidates`: every score is scaled by the link density of its
node, a subtraction and a multiplication of float32 values. Each entry is updated on its
own, so the order of iteration is immaterial. -/
def scaleByLinkDensity (doc : Node) (candidates : candidateList) : candidateList :=
  candidates.map (fun e =>
    (e.1, { e.2 with
      score := float32 (e.2.score * float32 (1 - getLinkDensity doc e.2.selection)) }))

def getCandidates (toLower : GoString → GoString) (doc : Node) : Option candidateList :=
  match accumulatedCandidates toLower doc with
  | none => none
  | some candidates => some (scaleByLinkDensity doc candidates)

/-! ## getTopCandidate (lines 191-207) -/

/-- The loop of `getTopCandidate` over the candidates in their order of iteration,
`best` being `none` for the nil pointer. -/
def getTopCandidateLoop : Option candidate → List candidate → Option candidate
  | best, [] => best
  | none, c :: rest => getTopCandidateLoop (some c) rest
  | some best, c :: rest =>
    if best.score < c.score then getTopCandidateLoop (some c) rest
    else getTopCandidateLoop (some best) rest

/-- The function `getTopCandidate`, the map being iterated in the order of the list. -/
def getTopCandidate (doc : Node) (candidates : candidateList) : candidate :=
  match getTopCandidateLoop none (candidates.map Prod.snd) with
  | some best => best
  | none => ⟨documentFind doc (isTag (str "body")), 0⟩

/-- The parse of a page whose paragraph has 25 bytes of text, 2 of them in a link. -/
def docShortLink : Node :=
  document [elem "html" [] [elem "head" [] [], elem "body" [] [
    elem "p" [] [textNode "Twenty-three bytes and ", elem "a" [] [textNode "2."]]]]]

/-- The parse of `<div><p>text</p></div>` for a text without markup. -/
def docParagraph (text : GoString) : Node :=
  document [elem "html" [] [elem "head" [] [], elem "body" [] [
    elem "div" [] [elem "p" [] [.mk NodeType.TextNode [] text [] [] []]]]]]

/-- The parse of a page with two blocks of the same shape. -/
def docTwoBlocks : Node :=
  document [elem "html" [] [elem "head" [] [], elem "body" [] [
    elem "div" [] [elem "p" [] [textNode "The first block of text with 25 bytes or more."]],
    elem "div" [] [elem "p" [] [textNode "The other block of text with 25 bytes or more."]]]]]

/-- The contribution of one attribute to the class weight as the specification words it:
0 when the attribute is absent; -25 when its lower-cased value contains a negative-signal
term; otherwise +25 when it contains a positive-signal term; otherwise 0. -/
def attrWeight (toLower : GoString → GoString) : Option GoString → Int
  | none => 0
  | some v =>
    if matchString negativeTerms (toLower v) then -25
    else if matchString positiveTerms (toLower v) then 25
    else 0

/-! ## The accumulated score of a candidate, as the specification words it -/

/-- The elements that `getCandidates` scores: the elements with a tag of
`defaultTagsToScore` whose text has 25 bytes or more, in document order. -/
def scoredElements (doc : Node) : List Path :=
  (documentFind doc (isTagIn defaultTagsToScore)).filter
    (fun s => 25 ≤ (Selection.text doc [s]).length)

/-- The sum of the content scores of the scored elements whose parent is `k`. -/
def childrenScore (doc : Node) (k : Path) : ℚ :=
  (((scoredElements doc).filter (fun s => Selection.parent doc [s] = [k])).map
    (fun s => contentScore (Selection.text doc [s]))).sum

/-- The sum of the content scores of the scored elements whose grandparent is `k`. -/
def grandChildrenScore (doc : Node) (k : Path) : ℚ :=
  (((scoredElements doc).filter
      (fun s => Selection.parent doc (Selection.parent doc [s]) = [k])).map
    (fun s => contentScore (Selection.text doc [s]))).sum

/-- What the element `s` adds to the score of the node `k`: its content score when `k`
is its parent, half of it when `k` is its grandparent, nothing when its text is short. -/
def share (doc : Node) (k s : Path) : ℚ :=
  if 25 ≤ (Selection.text doc [s]).length then
    (if Selection.parent doc [s] = [k] then contentScore (Selection.text doc [s]) else 0) +
      (if Selection.parent doc (Selection.parent doc [s]) = [k] then
        contentScore (Selection.text doc [s]) / 2 else 0)
  else 0

/-- The element `s` is scored and `k` is its parent or its grandparent. -/
def Related (doc : Node) (k s : Path) : Prop :=
  25 ≤ (Selection.text doc [s]).length ∧
    (Selection.parent doc [s] = [k] ∨ Selection.parent doc (Selection.parent doc [s]) = [k])

/-- The size of the scores that the loop of `getCandidates` can reach over the elements
`l`: 110 plus three times the sum of `commas + 5` over the elements of `l` whose text has
25 bytes or more. While it is under `2 ^ 24`, every score of the loop is half a whole
number under `2 ^ 24`, a float32, and no addition rounds. -/
def scoreBound (doc : Node) (l : List Path) : Nat :=
  110 + 3 * (l.map (fun s =>
    if 25 ≤ (Selection.text doc [s]).length then (Selection.text doc [s]).count 44 + 5
    else 0)).sum

/-- The state of the loop of `getCandidates` once the elements `done` are processed:
every candidate holds a float32, and while `scoreBound` is under `2 ^ 24` it holds the
score of its node plus the shares of the processed elements. -/
def ScoreInv (toLower : GoString → GoString) (doc : Node) (done : List Path)
    (candidates : candidateList) : Prop :=
  ∀ k c, (k, c) ∈ candidates → ∃ c0, scoreNode toLower doc [k] = some c0 ∧
    c.selection = c0.selection ∧ float32 c.score = c.score ∧
    (scoreBound doc done < 2 ^ 24 → c.score = c0.score + (done.map (share doc k)).sum)

/-- Every parent and grandparent of a processed scored element has a candidate. -/
def KeysInv (doc : Node) (done : List Path) (candidates : candidateList) : Prop :=
  ∀ s ∈ done, ∀ k, Related doc k s → ∃ c, (k, c) ∈ candidates

/-- Every candidate is the parent or grandparent of a processed scored element. -/
def OriginInv (doc : Node) (done : List Path) (candidates : candidateList) : Prop :=
  ∀ k c, (k, c) ∈ candidates → ∃ s ∈ done, Related doc k s

/-! ## Serialization (function `Render` of golang.org/x/net/html, method `Selection.Html`) -/

/-- The function `escape` of the html package: the bytes `&`, `'`, `<`, `>`, `"` and
carriage return are replaced by character references. -/
def escape (s : GoString) : GoString :=
  s.flatMap (fun b =>
    if b = 38 then str "&amp;"
    else if b = 39 then str "&#39;"
    else if b = 60 then str "&lt;"
    else if b = 62 then str "&gt;"
    else if b = 34 then str "&#34;"
    else if b = 13 then str "&#13;"
    else [b])

/-- The loop of `escapeComment`: `&` is escaped, and `>` is escaped at the start of the
comment and after `!` or `-`. `prev` is the byte before, if any. -/
def escapeCommentFrom (prev : Option UInt8) : GoString → GoString
  | [] => []
  | b :: rest =>
    (if b = 38 then str "&amp;"
     else if b = 62 then
      (match prev with
       | none => str "&gt;"
       | some q => if q ≠ 33 ∧ q ≠ 45 then [b] else str "&gt;")
     else [b]) ++ escapeCommentFrom (some b) rest

def escapeComment (s : GoString) : GoString := escapeCommentFrom none s

/-- The function `writeQuoted`: single quotes when the string holds a double quote. -/
def writeQuoted (s : GoString) : GoString :=
  if contains s [34] then [39] ++ s ++ [39] else [34] ++ s ++ [34]

/-- The table `voidElements`. -/
def voidElements : List GoString :=
  ["area", "base", "br", "col", "embed", "hr", "img", "input", "keygen", "link", "meta",
   "param", "source", "track", "wbr"].map str

/-- The function `childTextNodesAreLiteral`. -/
def childTextNodesAreLiteral (ns data : GoString) : Bool :=
  if ns ≠ [] then false
  else (["iframe", "noembed", "noframes", "noscript", "plaintext", "script", "style",
    "xmp"].map str).contains data

/-- The attributes of an opening tag. -/
def renderAttrs (attrs : List Attribute) : GoString :=
  attrs.flatMap (fun a =>
    [32] ++ (if a.Namespace ≠ [] then a.Namespace ++ [58] else []) ++ a.Key ++ str "=\"" ++
      escape a.Val ++ [34])

/-- The tail of a doctype: the public and system identifiers, the last attribute of each
key winning. -/
def renderDoctypeIds (attrs : List Attribute) : GoString :=
  let p := attrs.foldl (fun acc a => if a.Key = str "public" then a.Val else acc) []
  let s := attrs.foldl (fun acc a => if a.Key = str "system" then a.Val else acc) []
  if p ≠ [] then
    str " PUBLIC " ++ writeQuoted p ++ (if s ≠ [] then [32] ++ writeQuoted s else [])
  else if s ≠ [] then str " SYSTEM " ++ writeQuoted s
  else []

/-- How a call of `render1` ends: normally, with the sentinel `plaintextAbort`, or with
an error. -/
inductive RenderStatus where
  | ok | plaintextAbort | error
  deriving DecidableEq

/-- The newline written after the opening tag of `pre`, `listing` and `textarea` when
the first child is a text node that starts with a newline. -/
def initialNewline (data : GoString) : List Node → GoString
  | [] => []
  | c :: _ =>
    if c.type = NodeType.TextNode ∧ hasPrefix c.data [10] = true ∧
        ([str "pre", str "listing", str "textarea"].contains data) = true then [10]
    else []

mutual
/-- The function `render1`: the bytes written and how the call ended. -/
def render1 : Node → GoString × RenderStatus
  | .mk t _ d ns attrs cs =>
    match t with
    | NodeType.ErrorNode => ([], RenderStatus.error)
    | NodeType.TextNode => (escape d, RenderStatus.ok)
    | NodeType.DocumentNode => renderChildren cs
    | NodeType.CommentNode => (str "<!--" ++ escapeComment d ++ str "-->", RenderStatus.ok)
    | NodeType.DoctypeNode =>
      (str "<!DOCTYPE " ++ escape d ++ renderDoctypeIds attrs ++ [62], RenderStatus.ok)
    | NodeType.RawNode => (d, RenderStatus.ok)
    | NodeType.ElementNode =>
      let opening := [60] ++ d ++ renderAttrs attrs
      if voidElements.contains d then
        if cs.isEmpty then (opening ++ str "/>", RenderStatus.ok)
        else (opening, RenderStatus.error)
      else
        let opening := opening ++ [62] ++ initialNewline d cs
        if childTextNodesAreLiteral ns d then
          match renderChildrenLiteral cs with
          | (body, RenderStatus.ok) =>
            if d = str "plaintext" then (opening ++ body, RenderStatus.plaintextAbort)
            else (opening ++ body ++ str "</" ++ d ++ [62], RenderStatus.ok)
          | (body, st) => (opening ++ body, st)
        else
          match renderChildren cs with
          | (body, RenderStatus.ok) => (opening ++ body ++ str "</" ++ d ++ [62], RenderStatus.ok)
          | (body, st) => (opening ++ body, st)
/-- The loop of `render1` over the children of a node. -/
def renderChildren : List Node → GoString × RenderStatus
  | [] => ([], RenderStatus.ok)
  | c :: cs =>
    match render1 c with
    | (out, RenderStatus.ok) =>
      match renderChildren cs with
      | (rest, st) => (out ++ rest, st)
    | (out, st) => (out, st)
/-- The loop of `render1` over the children of an element whose text is literal: a
text child is written as it is. -/
def renderChildrenLiteral : List Node → GoString × RenderStatus
  | [] => ([], RenderStatus.ok)
  | c :: cs =>
    match (if c.type = NodeType.TextNode then (c.data, RenderStatus.ok) else render1 c) with
    | (out, RenderStatus.ok) =>
      match renderChildrenLiteral cs with
      | (rest, st) => (out ++ rest, st)
    | (out, st) => (out, st)
end

/-- The loop of `Selection.Html` over the children of the first node: each child is
rendered by `Render`, which turns `plaintextAbort` into success; `none` when a child
fails to render. -/
def htmlChildren : List Node → Option GoString
  | [] => some []
  | c :: cs =>
    match render1 c with
    | (_, RenderStatus.error) => none
    | (out, _) =>
      match htmlChildren cs with
      | none => none
      | some rest => some (out ++ rest)

/-- The method `Selection.Html` with its error dropped (`html, _ := s.Html()`): the inner
markup of the first node, the empty string when rendering fails. -/
def Selection.html (doc : Node) (s : Selection) : GoString :=
  match s with
  | [] => []
  | p :: _ =>
    match doc.get? p with
    | none => []
    | some n => (htmlChildren n.children).getD []

/-! ## transformMisusedDivsIntoParagraphs (lines 326-334) -/

/-- The tag names in the alternation of `divToPElementsRegexp`. -/
def divToPElements : List GoString :=
  ["a", "blockquote", "dl", "div", "img", "ol", "p", "pre", "table", "ul"].map str

/-- One lower-case letter of the pattern matched under the flag `(?i)` at the head of
the subject: the letter, its capital, and for `k` the Kelvin sign U+212A (which folds to
`k`). The result is the rest of the subject. -/
def foldLetter (c : UInt8) : GoString → Option GoString
  | [] => none
  | b :: rest =>
    if b = c ∨ b.toNat + 32 = c.toNat then some rest
    else if c = 107 then
      match b :: rest with
      | 226 :: 132 :: 170 :: rest' => some rest'
      | _ => none
    else none

/-- A word of the pattern matched under `(?i)` at the head of the subject. -/
def foldWord : GoString → GoString → Option GoString
  | [], s => some s
  | c :: w, s =>
    match foldLetter c s with
    | none => none
    | some rest => foldWord w rest

/-- The pattern `<(?:a|blockquote|...|ul)[ />]` matches at the head of the subject. -/
def divToPElementsAt (s : GoString) : Bool :=
  match s with
  | 60 :: rest =>
    divToPElements.any (fun w =>
      match foldWord w rest with
      | some (b :: _) => b = 32 || b = 47 || b = 62
      | _ => false)
  | _ => false

/-- The call `divToPElementsRegexp.MatchString`: the pattern matches somewhere. -/
def divToPElementsRegexpMatch : GoString → Bool
  | [] => false
  | b :: rest => divToPElementsAt (b :: rest) || divToPElementsRegexpMatch rest

mutual
/-- The assignment `node.Data = v` on the node at a path; `DataAtom` is left as it is. -/
def setData : Node → Path → GoString → Node
  | .mk t a _ ns attrs cs, [], v => .mk t a v ns attrs cs
  | .mk t a d ns attrs cs, i :: p, v => .mk t a d ns attrs (setDataChild cs i p v)
def setDataChild : List Node → Nat → Path → GoString → List Node
  | [], _, _, _ => []
  | c :: cs, 0, p, v => setData c p v :: cs
  | c :: cs, i + 1, p, v => c :: setDataChild cs i p v
end

/-- The callback of `Each` in `transformMisusedDivsIntoParagraphs`, run on the node `s`
of the current tree. -/
def transformStep (doc : Node) (s : Path) : Node :=
  let html := Selection.html doc [s]
  if !divToPElementsRegexpMatch html then setData doc s (str "p") else doc

def transformMisusedDivsIntoParagraphs (doc : Node) : Node :=
  (documentFind doc (isTag (str "div"))).foldl transformStep doc

/-- The parse of a page whose body holds a `div` around a heading. -/
def docDivHeading : Node :=
  document [elem "html" [] [elem "head" [] [], elem "body" [] [
    elem "div" [] [elem "h2" [] [textNode "A heading of more than 25 bytes"]]]]]

/-! ## The passes of ExtractContent before the scoring (lines 84-87) -/

/-- The statement `document.Find("script,style").Remove()`: the tree without its
`script` and `style` elements. -/
def removeScriptAndStyle (doc : Node) : Node :=
  pruneNode (documentFind doc (isTagIn [str "script", str "style"])) doc []

/-- The tree that `ExtractContent` hands to `getCandidates`. -/
def preprocess (toLower : GoString → GoString) (doc : Node) : Node :=
  removeUnlikelyCandidates toLower (transformMisusedDivsIntoParagraphs (removeScriptAndStyle doc))

/-! ## getArticle (lines 104-145) and containsSentence (336-338) -/

/-- Go `strings.HasSuffix s suffix`. -/
def hasSuffix (s suffix : GoString) : Bool := hasPrefix s.reverse suffix.reverse

def containsSentence (content : GoString) : Bool :=
  hasSuffix content (str ".") || contains content (str ". ")

/-- The loop of goquery `getChildrenWithSiblingType` for all the siblings: the element
children of the parent `p`, the node `skip` left out, in the order of the children. -/
def siblingsLoop (p skip : Path) : List Node → Nat → List Path
  | [], _ => []
  | c :: cs, i =>
    (if p ++ [i] ≠ skip ∧ c.type = NodeType.ElementNode then [p ++ [i]] else []) ++
      siblingsLoop p skip cs (i + 1)

/-- The sibling elements of one node; `none` stands for the nil dereference on a node
without a parent. -/
def siblingsOf (doc : Node) (t : Path) : Option (List Path) :=
  if t = [] then none
  else
    match doc.get? t.dropLast with
    | none => none
    | some parent => some (siblingsLoop t.dropLast t parent.children 0)

/-- The function `appendWithoutDuplicates` of goquery: the nodes not yet in the target
are appended to it. -/
def appendWithoutDuplicates (target nodes : List Path) : List Path :=
  nodes.foldl (fun t n => if t.contains n then t else t ++ [n]) target

namespace Selection

/-- The method `Selection.Siblings`: the siblings of each node, without duplicates. -/
def siblings (doc : Node) : Selection → Option Selection
  | [] => some []
  | t :: rest =>
    match siblingsOf doc t, siblings doc rest with
    | some a, some b => some (appendWithoutDuplicates a b)
    | _, _ => none

/-- The method `Selection.Union`: the nodes of the other selection are appended. -/
def union (s other : Selection) : Selection := appendWithoutDuplicates s other

/-- The method `Selection.Is` with the selector "p" on a one-node selection. -/
def isP (doc : Node) (node : Path) : Bool :=
  match doc.get? node with
  | none => false
  | some n => isTag (str "p") n

end Selection

/-- The value of `Data` of a node. -/
def dataOf (doc : Node) (node : Path) : GoString :=
  match doc.get? node with
  | none => []
  | some n => n.data

/-- The first half of the callback of `Each` in `getArticle`: the values of the local
variables `append` and `tag` once the three branches are through. -/
def appendAndTag (doc : Node) (topCandidate : candidate) (candidates : candidateList)
    (siblingScoreThreshold : ℚ) (node : Path) : Bool × GoString :=
  let tag := str "div"
  if some node = topCandidate.Node then (true, tag)
  else if (match candidates.lookup node with
      | some c => decide (c.score ≥ siblingScoreThreshold)
      | none => false) then (true, tag)
  else if Selection.isP doc node then
    let tag := dataOf doc node
    let linkDensity := getLinkDensity doc [node]
    let content := Selection.text doc [node]
    let contentLength := content.length
    if contentLength ≥ 80 then
      if linkDensity < 1 / 4 then (true, tag) else (false, tag)
    else
      if linkDensity = 0 then
        if containsSentence content then (true, tag) else (false, tag)
      else (false, tag)
  else (false, tag)

/-- What the callback of `Each` in `getArticle` writes for one node. -/
def articleFragment (doc : Node) (topCandidate : candidate) (candidates : candidateList)
    (siblingScoreThreshold : ℚ) (node : Path) : GoString :=
  match appendAndTag doc topCandidate candidates siblingScoreThreshold node with
  | (true, tag) =>
    [60] ++ tag ++ [62] ++ Selection.html doc [node] ++ str "</" ++ tag ++ [62]
  | (false, _) => []

/-- The nodes that `getArticle` visits, in the order of the visit:
`topCandidate.selection.Siblings().Union(topCandidate.selection)`. -/
def visitedNodes (doc : Node) (topCandidate : candidate) : Option Selection :=
  match Selection.siblings doc topCandidate.selection with
  | none => none
  | some sibs => some (Selection.union sibs topCandidate.selection)

/-- The value of `siblingScoreThreshold` (line 107): `max(10, topCandidate.score/5)`, the
quotient being a division of float32 values. -/
def siblingScoreThreshold (topCandidate : candidate) : ℚ :=
  max 10 (float32 (topCandidate.score / 5))

/-- The function `getArticle`; `none` stands for a panic. -/
def getArticle (doc : Node) (topCandidate : candidate) (candidates : candidateList) :
    Option GoString :=
  let siblingScoreThreshold := siblingScoreThreshold topCandidate
  match visitedNodes doc topCandidate with
  | none => none
  | some nodes =>
    some (str "<div>" ++
      nodes.flatMap (articleFragment doc topCandidate candidates siblingScoreThreshold) ++
      str "</div>")

/-! ## ExtractContent (lines 70-100) -/

/-- How a call of `ExtractContent` ends. -/
inductive ExtractResult where
  | ok (baseURL extractedContent : GoString)
  | err
  | panic
  deriving DecidableEq

/-- The value of `baseURL`: the `href` of the first `base` element under a `head`, with
its white space trimmed, when it is an absolute URL. `strings.TrimSpace` and
`urllib.IsAbsoluteURL` are arguments. -/
def baseURLOf (trimSpace : GoString → GoString) (isAbsoluteURL : GoString → Bool)
    (doc : Node) : GoString :=
  match Selection.attr doc
      ((Selection.find doc (isTag (str "base"))
        (documentFind doc (isTag (str "head")))).take 1) (str "href") with
  | none => []
  | some hrefValue =>
    let hrefValue := trimSpace hrefValue
    if isAbsoluteURL hrefValue then hrefValue else []

/-- The function `ExtractContent` on the outcome of the parser (`none` when
`NewDocumentFromReader` fails). `mapOrder` is the order in which the candidate map
happens to be iterated by `getTopCandidate`. -/
def ExtractContent (toLower trimSpace : GoString → GoString)
    (isAbsoluteURL : GoString → Bool) (mapOrder : candidateList → candidateList)
    (page : Option Node) : ExtractResult :=
  match page with
  | none => ExtractResult.err
  | some document =>
    let baseURL := baseURLOf trimSpace isAbsoluteURL document
    let document := removeScriptAndStyle document
    let document := transformMisusedDivsIntoParagraphs document
    let document := removeUnlikelyCandidates toLower document
    match getCandidates toLower document with
    | none => ExtractResult.panic
    | some candidates =>
      let topCandidate := getTopCandidate document (mapOrder candidates)
      match getArticle document topCandidate candidates with
      | none => ExtractResult.panic
      | some extractedContent => ExtractResult.ok baseURL extractedContent

/-- The parse of `<html><body><div>short</div></body></html>`. -/
def docShort : Node :=
  document [elem "html" [] [elem "head" [] [], elem "body" [] [
    elem "div" [] [textNode "short"]]]]

/-- The parse of a page with a block followed by a short paragraph. -/
def docBlockThenParagraph : Node :=
  document [elem "html" [] [elem "head" [] [], elem "body" [] [
    elem "div" [] [elem "p" [] [textNode "The first block of text with 25 bytes or more."]],
    elem "p" [] [textNode "After."]]]]

/-- The parse of a page with a block of class "post", whose paragraph has 19 commas, and
a sibling block whose paragraph has 4 commas and 55 bytes of text, 4 of them in a link. -/
def docSiblingAtThreshold : Node :=
  document [elem "html" [] [elem "head" [] [], elem "body" [] [
    elem "div" [("class", "post")] [
      elem "p" [] [textNode "a,b,c,d,e,f,g,h,i,j,k,l,m,n,o,p,q,r,s,t"]],
    elem "div" [] [
      elem "p" [] [textNode "One, two, three, four, and then the rest of it all ",
        elem "a" [] [textNode "link"]]]]]]

/-- The parse of a page with an anchor inside a table cell inside an anchor. -/
def docNestedAnchors : Node :=
  document [elem "html" [] [elem "head" [] [], elem "body" [] [
    elem "div" [] [
      elem "a" [] [textNode "x", elem "table" [] [elem "tbody" [] [elem "tr" [] [
        elem "td" [] [elem "a" [] [textNode "An inner link of forty bytes, as counted"]]]]]],
      elem "p" [] [textNode "Twenty-five bytes of text"]]]]]

/-! ## The decision of getArticle, as the specification words it -/

/-- The node is the top candidate. -/
def IsTopCandidate (topCandidate : candidate) (node : Path) : Prop :=
  topCandidate.Node = some node

/-- The node has a candidate entry whose score reaches `max(10, topCandidate.score / 5)`,
the quotient being the float32 quotient of line 107. -/
def HasQualifyingScore (topCandidate : candidate) (candidates : candidateList)
    (node : Path) : Prop :=
  ∃ c, candidates.lookup node = some c ∧ c.score ≥ max 10 (float32 (topCandidate.score / 5))

/-- The node is a `p` element that passes the paragraph heuristics: a text of 80 bytes or
more with a link density under 0.25, or a shorter text with a link density of exactly 0
that ends with "." or contains ". ". -/
def IsGoodParagraph (doc : Node) (node : Path) : Prop :=
  Selection.isP doc node = true ∧
    ((80 ≤ (Selection.text doc [node]).length ∧ getLinkDensity doc [node] < 1 / 4) ∨
      ((Selection.text doc [node]).length < 80 ∧ getLinkDensity doc [node] = 0 ∧
        (hasSuffix (Selection.text doc [node]) (str ".") = true ∨
          contains (Selection.text doc [node]) (str ". ") = true)))

/-- An emitted fragment: the inner markup of the node inside the tag. -/
def wrapped (doc : Node) (tag : GoString) (node : Path) : GoString :=
  [60] ++ tag ++ [62] ++ Selection.html doc [node] ++ str "</" ++ tag ++ [62]

/-- One sibling comes before another in the document: same parent, smaller index. -/
def SiblingBefore (p : Path) (a b : Path) : Prop :=
  ∃ i j, a = p ++ [i] ∧ b = p ++ [j] ∧ i < j

/-! ## The result of transformMisusedDivsIntoParagraphs, described node by node -/

/-- The node is a `div` element whose inner markup, as `Selection.Html` serializes its
children, has no match of `divToPElementsRegexp`. -/
def isMisusedDiv (t : NodeType) (d : GoString) (cs : List Node) : Bool :=
  t = NodeType.ElementNode && d = str "div" &&
    !divToPElementsRegexpMatch ((htmlChildren cs).getD [])

mutual
/-- The subtree of a node after the pass: every misused `div` of the subtree, the node
itself included, has the tag name "p"; nothing else changes. -/
def renameNode : Node → Node
  | .mk t a d ns attrs cs =>
    .mk t a (if isMisusedDiv t d cs then str "p" else d) ns attrs (renameChildren cs)
def renameChildren : List Node → List Node
  | [] => []
  | c :: cs => renameNode c :: renameChildren cs
end

/-- The children of the document node after the pass: `Find` enters the element
children only. -/
def renameTop : List Node → List Node
  | [] => []
  | c :: cs => (if c.type = NodeType.ElementNode then renameNode c else c) :: renameTop cs

/-- The document after the pass, described node by node. -/
def renameDivs : Node → Node
  | .mk t a d ns attrs cs => .mk t a d ns attrs (renameTop cs)

mutual
/-- The tree with the subtree at a path replaced. -/
def replaceAt : Node → Path → Node → Node
  | _, [], x => x
  | .mk t a d ns attrs cs, i :: p, x => .mk t a d ns attrs (replaceAtChild cs i p x)
def replaceAtChild : List Node → Nat → Path → Node → List Node
  | [], _, _, _ => []
  | c :: cs, 0, p, x => replaceAt c p x :: cs
  | c :: cs, i + 1, p, x => c :: replaceAtChild cs i p x
end

/-- Replacing a match by a rendering of the renamed tree keeps a match, in every context. -/
def KeepsMatch (x y : GoString) : Prop :=
  ∀ u w : GoString, divToPElementsRegexpMatch (u ++ x ++ w) = true →
    divToPElementsRegexpMatch (u ++ y ++ w) = true

/-- The parse of a page with the body `<div><noscript><img src=a.png></noscript></div>`:
the parser has scripting enabled, so the content of `noscript` is one text node. -/
def docRawText : Node :=
  document [elem "html" [] [elem "head" [] [], elem "body" [] [
    elem "div" [] [elem "noscript" [] [textNode "<img src=a.png>"]]]]]

/-- The parse of a page with a `div` of inline text and a `div` around a table. -/
def docInlineAndTable : Node :=
  document [elem "html" [] [elem "head" [] [], elem "body" [] [
    elem "div" [] [textNode "inline ", elem "em" [] [textNode "text"]],
    elem "div" [] [elem "table" [] [elem "tbody" [] [elem "tr" [] [
      elem "td" [] [textNode "cell"]]]]]]]]

/-! ## The renaming rule, as the specification words it -/

mutual
/-- A tree made of elements and text: every node of it is an element or a text node
without children. -/
def elementsAndText : Node → Bool
  | .mk t _ _ _ _ cs =>
    (t = NodeType.ElementNode && elementsAndTextList cs) ||
      (t = NodeType.TextNode && cs.isEmpty)
def elementsAndTextList : List Node → Bool
  | [] => true
  | c :: cs => elementsAndText c && elementsAndTextList cs
end

/-- The descendant elements, at any depth, of a node with the children `cs` that have a
tag of the list {a, blockquote, dl, div, img, ol, p, pre, table, ul}, as paths from the
node. -/
def blockDescendants (cs : List Node) : List Path :=
  matchAllChildren (isTagIn divToPElements) cs [] 0

/-- The parse of a page whose body holds a `div` around a `div` of text. -/
def docNestedDiv : Node :=
  document [elem "html" [] [elem "head" [] [], elem "body" [] [
    elem "div" [] [elem "div" [] [textNode "inner text"]]]]]

/-! # Properties -/

/-! ## The conversion to float32 -/

theorem bitLength_zero (fuel : ℕ) : bitLength fuel 0 = 0 := by
  cases fuel <;> simp [bitLength]

theorem bitLength_spec (fuel : ℕ) : ∀ n : ℕ, 0 < n → n ≤ fuel →
    2 ^ bitLength fuel n ≤ 2 * n ∧ n < 2 ^ bitLength fuel n := by
  induction fuel with
  | zero => intro n h1 h2; omega
  | succ fuel ih =>
    intro n h1 h2
    have hn : n ≠ 0 := by omega
    simp only [bitLength, hn, if_false]
    by_cases h : n = 1
    · subst h
      simp [bitLength_zero]
    · obtain ⟨ha, hb⟩ := ih (n / 2) (by omega) (by omega)
      rw [pow_succ]
      constructor <;> omega

theorem two_zpow_pos (e : ℤ) : (0 : ℚ) < 2 ^ e := zpow_pos (by norm_num) e

theorem ulpExponent_spec (x : ℚ) (hx : 0 < x) :
    (2 : ℚ) ^ (ulpExponent x + 23) ≤ x ∧ x < 2 ^ (ulpExponent x + 24) := by
  have hnum : 0 < x.num := Rat.num_pos.2 hx
  have hn : 0 < x.num.natAbs := Int.natAbs_pos.2 (ne_of_gt hnum)
  have hd : 0 < x.den := x.den_pos
  obtain ⟨ha1, ha2⟩ := bitLength_spec x.num.natAbs x.num.natAbs hn (le_refl _)
  obtain ⟨hb1, hb2⟩ := bitLength_spec x.den x.den hd (le_refl _)
  have hxeq : x = (x.num.natAbs : ℚ) / (x.den : ℚ) := by
    have h2 : ((x.num.natAbs : ℕ) : ℚ) = (x.num : ℚ) := by
      rw [Nat.cast_natAbs, abs_of_pos hnum]
    rw [h2]
    exact (Rat.num_div_den x).symm
  unfold ulpExponent
  simp only
  generalize bitLength x.num.natAbs x.num.natAbs = a at ha1 ha2 ⊢
  generalize bitLength x.den x.den = b at hb1 hb2 ⊢
  generalize x.num.natAbs = n at hn ha1 ha2 hxeq
  generalize x.den = d at hd hb1 hb2 hxeq
  have hdq : (0 : ℚ) < d := by exact_mod_cast hd
  have h2b : (0 : ℚ) < 2 ^ b := by positivity
  have ha1q : (2 : ℚ) ^ a ≤ 2 * n := by exact_mod_cast ha1
  have ha2q : (n : ℚ) < 2 ^ a := by exact_mod_cast ha2
  have hb1q : (2 : ℚ) ^ b ≤ 2 * d := by exact_mod_cast hb1
  have hb2q : (d : ℚ) < 2 ^ b := by exact_mod_cast hb2
  have hk : ∀ j : ℤ, (2 : ℚ) ^ ((a : ℤ) - (b : ℤ) + j) = 2 ^ a / 2 ^ b * 2 ^ j := by
    intro j
    rw [zpow_add₀ (by norm_num), zpow_sub₀ (by norm_num), zpow_natCast, zpow_natCast]
  have hup : x < 2 ^ ((a : ℤ) - (b : ℤ) + 1) := by
    rw [hk, hxeq, zpow_one, div_lt_iff₀ hdq]
    have : (2 : ℚ) ^ a / 2 ^ b * 2 * d = 2 ^ a * (2 * d) / 2 ^ b := by ring
    rw [this, lt_div_iff₀ h2b]
    nlinarith
  have hlow : (2 : ℚ) ^ ((a : ℤ) - (b : ℤ) + (-1)) < x := by
    rw [hk, hxeq, lt_div_iff₀ hdq, zpow_neg, zpow_one]
    have : (2 : ℚ) ^ a / 2 ^ b * 2⁻¹ * d = 2 ^ a * d / (2 * 2 ^ b) := by
      field_simp
      ring
    rw [this, div_lt_iff₀ (by positivity)]
    nlinarith
  split_ifs with h
  · constructor
    · have : (a : ℤ) - b - 23 + 23 = a - b := by ring
      rw [this]
      exact h
    · have : (a : ℤ) - b - 23 + 24 = a - b + 1 := by ring
      rw [this]
      exact hup
  · constructor
    · have : (a : ℤ) - b - 1 - 23 + 23 = a - b + (-1) := by ring
      rw [this]
      exact le_of_lt hlow
    · have : (a : ℤ) - b - 1 - 23 + 24 = a - b := by ring
      rw [this]
      exact not_le.1 h

theorem ulpExponent_unique (x : ℚ) (hx : 0 < x) (e : ℤ) (h1 : (2 : ℚ) ^ (e + 23) ≤ x)
    (h2 : x < 2 ^ (e + 24)) : ulpExponent x = e := by
  obtain ⟨h3, h4⟩ := ulpExponent_spec x hx
  have h5 : (2 : ℚ) ^ (e + 23) < 2 ^ (ulpExponent x + 24) := lt_of_le_of_lt h1 h4
  have h6 : (2 : ℚ) ^ (ulpExponent x + 23) < 2 ^ (e + 24) := lt_of_le_of_lt h3 h2
  rw [zpow_lt_zpow_iff_right₀ (by norm_num)] at h5 h6
  omega

theorem roundHalfEven_natCast (n : ℕ) : roundHalfEven (n : ℚ) = n := by
  simp [roundHalfEven]

theorem floor_le_roundHalfEven (x : ℚ) : ⌊x⌋₊ ≤ roundHalfEven x := by
  unfold roundHalfEven
  simp only
  split_ifs <;> omega

theorem roundHalfEven_le_floor_succ (x : ℚ) : roundHalfEven x ≤ ⌊x⌋₊ + 1 := by
  unfold roundHalfEven
  simp only
  split_ifs <;> omega

theorem natCast_le_roundHalfEven (a : ℕ) (x : ℚ) (h : (a : ℚ) ≤ x) :
    a ≤ roundHalfEven x :=
  le_trans (Nat.le_floor h) (floor_le_roundHalfEven x)

theorem roundHalfEven_le_natCast (b : ℕ) (x : ℚ) (hx : 0 ≤ x) (h : x ≤ (b : ℚ)) :
    roundHalfEven x ≤ b := by
  have hf : ⌊x⌋₊ ≤ b := Nat.floor_le_of_le h
  rcases Nat.lt_or_eq_of_le hf with h1 | h1
  · exact le_trans (roundHalfEven_le_floor_succ x) h1
  · have hxb : x = (b : ℚ) := by
      apply le_antisymm h
      rw [← h1]
      exact Nat.floor_le hx
    rw [hxb, roundHalfEven_natCast]

theorem roundHalfEven_mono (a b : ℚ) (hab : a ≤ b) :
    roundHalfEven a ≤ roundHalfEven b := by
  have hf : ⌊a⌋₊ ≤ ⌊b⌋₊ := Nat.floor_mono hab
  rcases Nat.lt_or_eq_of_le hf with h1 | h1
  · exact le_trans (roundHalfEven_le_floor_succ a) (le_trans h1 (floor_le_roundHalfEven b))
  · unfold roundHalfEven
    simp only
    rw [h1]
    split_ifs <;> first | omega | (exfalso; linarith)

theorem float32_zero : float32 0 = 0 := by
  simp [float32]

theorem float32_of_pos (x : ℚ) (hx : 0 < x) :
    float32 x = (roundHalfEven (x / 2 ^ ulpExponent x) : ℚ) * 2 ^ ulpExponent x := by
  unfold float32
  simp only [ne_of_gt hx, if_false, abs_of_pos hx, not_lt.2 (le_of_lt hx), one_mul]

theorem float32_neg (x : ℚ) : float32 (-x) = -float32 x := by
  unfold float32
  by_cases h0 : x = 0
  · simp [h0]
  · have h0' : -x ≠ 0 := neg_ne_zero.2 h0
    simp only [h0, h0', if_false, abs_neg]
    rcases lt_or_gt_of_ne h0 with h | h
    · have h' : ¬ (-x < 0) := by linarith
      simp only [h, h', if_true, if_false]
      ring
    · have h' : -x < 0 := by linarith
      have h'' : ¬ x < 0 := by linarith
      simp only [h', h'', if_true, if_false]
      ring

/-- The scaled value that `float32` rounds lies between `2 ^ 23` and `2 ^ 24`. -/
theorem scaled_bounds (x : ℚ) (hx : 0 < x) :
    (2 : ℚ) ^ 23 ≤ x / 2 ^ ulpExponent x ∧ x / 2 ^ ulpExponent x < 2 ^ 24 := by
  obtain ⟨h1, h2⟩ := ulpExponent_spec x hx
  have hp := two_zpow_pos (ulpExponent x)
  rw [zpow_add₀ (by norm_num)] at h1 h2
  constructor
  · rw [le_div_iff₀ hp]
    have : ((2 : ℚ) ^ (23 : ℤ)) = 2 ^ 23 := by norm_cast
    rw [this] at h1
    linarith
  · rw [div_lt_iff₀ hp]
    have : ((2 : ℚ) ^ (24 : ℤ)) = 2 ^ 24 := by norm_cast
    rw [this] at h2
    linarith

theorem mantissa_bounds (x : ℚ) (hx : 0 < x) :
    2 ^ 23 ≤ roundHalfEven (x / 2 ^ ulpExponent x) ∧
      roundHalfEven (x / 2 ^ ulpExponent x) ≤ 2 ^ 24 := by
  obtain ⟨h1, h2⟩ := scaled_bounds x hx
  constructor
  · exact natCast_le_roundHalfEven _ _ (by exact_mod_cast h1)
  · exact roundHalfEven_le_natCast _ _ (le_trans (by positivity) h1)
      (by exact_mod_cast le_of_lt h2)

theorem float32_pos (x : ℚ) (hx : 0 < x) : 0 < float32 x := by
  rw [float32_of_pos x hx]
  have h := (mantissa_bounds x hx).1
  have h' : (0 : ℚ) < (roundHalfEven (x / 2 ^ ulpExponent x) : ℚ) := by
    exact_mod_cast lt_of_lt_of_le (by norm_num) h
  exact mul_pos h' (two_zpow_pos _)

theorem float32_nonneg (x : ℚ) (hx : 0 ≤ x) : 0 ≤ float32 x := by
  rcases eq_or_lt_of_le hx with h | h
  · rw [← h, float32_zero]
  · exact le_of_lt (float32_pos x h)

/-- A positive value `m * 2 ^ t` with `m < 2 ^ 24` is a float32: the conversion leaves it
as it is. -/
theorem float32_exact_pos (m : ℕ) (t : ℤ) (hm : 0 < m) (hm' : m < 2 ^ 24) :
    float32 ((m : ℚ) * 2 ^ t) = (m : ℚ) * 2 ^ t := by
  have hmq : (0 : ℚ) < m := by exact_mod_cast hm
  have hx : (0 : ℚ) < (m : ℚ) * 2 ^ t := mul_pos hmq (two_zpow_pos t)
  obtain ⟨h1, h2⟩ := ulpExponent_spec _ hx
  have hlt : (m : ℚ) * 2 ^ t < 2 ^ (24 + t) := by
    rw [zpow_add₀ (by norm_num)]
    have : ((2 : ℚ) ^ (24 : ℤ)) = 2 ^ 24 := by norm_cast
    rw [this]
    have hm'' : (m : ℚ) < 2 ^ 24 := by exact_mod_cast hm'
    exact mul_lt_mul_of_pos_right hm'' (two_zpow_pos t)
  have hle : ulpExponent ((m : ℚ) * 2 ^ t) ≤ t := by
    have := lt_of_le_of_lt h1 hlt
    rw [zpow_lt_zpow_iff_right₀ (by norm_num)] at this
    omega
  rw [float32_of_pos _ hx]
  generalize ulpExponent ((m : ℚ) * 2 ^ t) = e at hle
  obtain ⟨k, hk⟩ := Int.eq_ofNat_of_zero_le (sub_nonneg.2 hle)
  have ht : t = e + k := by omega
  have hscaled : (m : ℚ) * 2 ^ t / 2 ^ e = ((m * 2 ^ k : ℕ) : ℚ) := by
    rw [ht, zpow_add₀ (by norm_num), zpow_natCast]
    push_cast
    field_simp
    ring
  rw [hscaled, roundHalfEven_natCast, ht, zpow_add₀ (by norm_num), zpow_natCast]
  push_cast
  ring

theorem float32_of_isFloat32 (x : ℚ) (h : IsFloat32 x) : float32 x = x := by
  obtain ⟨m, t, hm, hx | hx⟩ := h
  · rcases Nat.eq_zero_or_pos m with h0 | h0
    · subst h0
      simp [hx, float32_zero]
    · rw [hx]
      exact float32_exact_pos m t h0 hm
  · rcases Nat.eq_zero_or_pos m with h0 | h0
    · subst h0
      simp [hx, float32_zero]
    · rw [hx, float32_neg, float32_exact_pos m t h0 hm]

theorem isFloat32_float32 (x : ℚ) : IsFloat32 (float32 x) := by
  have hpos : ∀ y : ℚ, 0 < y → ∃ (m : ℕ) (t : ℤ), m < 2 ^ 24 ∧ float32 y = m * 2 ^ t := by
    intro y hy
    obtain ⟨h1, h2⟩ := mantissa_bounds y hy
    rcases Nat.lt_or_eq_of_le h2 with h | h
    · exact ⟨_, _, h, float32_of_pos y hy⟩
    · refine ⟨1, ulpExponent y + 24, by norm_num, ?_⟩
      rw [float32_of_pos y hy, h, zpow_add₀ (by norm_num)]
      have : ((2 : ℚ) ^ (24 : ℤ)) = 2 ^ 24 := by norm_cast
      rw [this]
      push_cast
      ring
  rcases lt_trichotomy x 0 with h | h | h
  · obtain ⟨m, t, hm, he⟩ := hpos (-x) (by linarith)
    refine ⟨m, t, hm, Or.inr ?_⟩
    rw [← he, float32_neg, neg_neg]
  · exact ⟨0, 0, by norm_num, Or.inl (by simp [h, float32_zero])⟩
  · obtain ⟨m, t, hm, he⟩ := hpos x h
    exact ⟨m, t, hm, Or.inl he⟩

/-- The conversion of a float32 is the float32 itself. -/
theorem float32_idem (x : ℚ) : float32 (float32 x) = float32 x :=
  float32_of_isFloat32 _ (isFloat32_float32 x)

theorem float32_natCast (n : ℕ) (h : n ≤ 2 ^ 24) : float32 (n : ℚ) = n := by
  apply float32_of_isFloat32
  rcases Nat.lt_or_eq_of_le h with h1 | h1
  · exact ⟨n, 0, h1, Or.inl (by simp)⟩
  · refine ⟨1, 24, by norm_num, Or.inl ?_⟩
    rw [h1]
    norm_num

theorem float32_intCast (n : ℤ) (h : n.natAbs ≤ 2 ^ 24) : float32 (n : ℚ) = n := by
  obtain ⟨m, hm | hm⟩ := Int.eq_nat_or_neg n
  · subst hm
    simp only [Int.natAbs_ofNat] at h
    rw [Int.cast_natCast]
    exact float32_natCast m h
  · subst hm
    simp only [Int.natAbs_neg, Int.natAbs_ofNat] at h
    rw [Int.cast_neg, Int.cast_natCast, float32_neg, float32_natCast m h]

/-- Half of a whole number under `2 ^ 24` in absolute value is a float32. -/
theorem isFloat32_half (k : ℤ) (h : k.natAbs < 2 ^ 24) : IsFloat32 ((k : ℚ) / 2) := by
  obtain ⟨m, hm | hm⟩ := Int.eq_nat_or_neg k
  · subst hm
    simp only [Int.natAbs_ofNat] at h
    refine ⟨m, -1, h, Or.inl ?_⟩
    rw [zpow_neg, zpow_one, Int.cast_natCast]
    ring
  · subst hm
    simp only [Int.natAbs_neg, Int.natAbs_ofNat] at h
    refine ⟨m, -1, h, Or.inr ?_⟩
    rw [zpow_neg, zpow_one, Int.cast_neg, Int.cast_natCast]
    ring

theorem float32_mono (x y : ℚ) (h : x ≤ y) : float32 x ≤ float32 y := by
  have hpos : ∀ a b : ℚ, 0 < a → a ≤ b → float32 a ≤ float32 b := by
    intro a b ha hab
    have hb : 0 < b := lt_of_lt_of_le ha hab
    obtain ⟨a1, a2⟩ := ulpExponent_spec a ha
    obtain ⟨b1, b2⟩ := ulpExponent_spec b hb
    have hle : ulpExponent a ≤ ulpExponent b := by
      have := lt_of_le_of_lt (le_trans a1 hab) b2
      rw [zpow_lt_zpow_iff_right₀ (by norm_num)] at this
      omega
    rw [float32_of_pos a ha, float32_of_pos b hb]
    rcases lt_or_eq_of_le hle with hlt | heq
    · have h1 : (roundHalfEven (a / 2 ^ ulpExponent a) : ℚ) ≤ 2 ^ 24 := by
        exact_mod_cast (mantissa_bounds a ha).2
      have h2 : (2 : ℚ) ^ 23 ≤ (roundHalfEven (b / 2 ^ ulpExponent b) : ℚ) := by
        exact_mod_cast (mantissa_bounds b hb).1
      calc (roundHalfEven (a / 2 ^ ulpExponent a) : ℚ) * 2 ^ ulpExponent a
          ≤ 2 ^ 24 * 2 ^ ulpExponent a :=
            mul_le_mul_of_nonneg_right h1 (le_of_lt (two_zpow_pos _))
        _ = 2 ^ (ulpExponent a + 24) := by
            rw [zpow_add₀ (by norm_num)]
            norm_cast
            ring
        _ ≤ 2 ^ (ulpExponent b + 23) := by
            rw [zpow_le_zpow_iff_right₀ (by norm_num)]
            omega
        _ = 2 ^ 23 * 2 ^ ulpExponent b := by
            rw [zpow_add₀ (by norm_num)]
            norm_cast
            ring
        _ ≤ (roundHalfEven (b / 2 ^ ulpExponent b) : ℚ) * 2 ^ ulpExponent b :=
            mul_le_mul_of_nonneg_right h2 (le_of_lt (two_zpow_pos _))
    · rw [heq]
      apply mul_le_mul_of_nonneg_right _ (le_of_lt (two_zpow_pos _))
      have hdiv : a / 2 ^ ulpExponent b ≤ b / 2 ^ ulpExponent b :=
        div_le_div_of_nonneg_right hab (le_of_lt (two_zpow_pos _))
      exact_mod_cast roundHalfEven_mono _ _ hdiv
  rcases lt_trichotomy x 0 with hx | hx | hx
  · rcases lt_trichotomy y 0 with hy | hy | hy
    · have := hpos (-y) (-x) (by linarith) (by linarith)
      rw [float32_neg, float32_neg] at this
      linarith
    · rw [hy, float32_zero]
      have := float32_pos (-x) (by linarith)
      rw [float32_neg] at this
      linarith
    · have h1 := float32_pos (-x) (by linarith)
      rw [float32_neg] at h1
      have h2 := float32_pos y hy
      linarith
  · rw [hx, float32_zero]
    exact float32_nonneg y (by linarith)
  · exact hpos x y hx h

/-! ## shouldRemoveCandidate: the three loops -/

theorem strongLoop_eq_true_iff (s : GoString) (l : List GoString) :
    strongLoop s l = true ↔ ∃ t ∈ l, contains s t = true := by
  induction l with
  | nil => simp [strongLoop]
  | cons a l ih =>
    by_cases h : contains s a = true
    · simp [strongLoop, h]
    · simp [strongLoop, h, ih]

theorem maybeLoop_eq_true_iff (s : GoString) (l : List GoString) :
    maybeLoop s l = true ↔ ∃ t ∈ l, contains s t = true := by
  induction l with
  | nil => simp [maybeLoop]
  | cons a l ih =>
    by_cases h : contains s a = true
    · simp [maybeLoop, h]
    · simp [maybeLoop, h, ih]

theorem unlikelyLoop_eq_true_iff (s : GoString) (l : List GoString) :
    unlikelyLoop s l = true ↔
      (∃ u ∈ l, contains s u = true) ∧ maybeLoop s maybeCandidate = false := by
  induction l with
  | nil => simp [unlikelyLoop]
  | cons a l ih =>
    by_cases h : contains s a = true
    · by_cases hm : maybeLoop s maybeCandidate = true
      · simp [unlikelyLoop, h, hm]
      · simp [unlikelyLoop, h, hm]
    · simp [unlikelyLoop, h, ih]

/-! ## shouldRemoveCandidate: precedence of the term lists -/

/-- C1: whenever the lower-cased attribute value contains a strong-negative term
("popupbody", "-ad" or "g-plus"), `shouldRemoveCandidate` returns true, whatever other
terms (unlikely or maybe-override) the value contains. -/
theorem shouldRemoveCandidate_strong (toLower : GoString → GoString) (s : GoString)
    (h : ∃ t ∈ strongCandidates, contains (toLower s) t = true) :
    shouldRemoveCandidate toLower s = true := by
  have hs : strongLoop (toLower s) strongCandidates = true :=
    (strongLoop_eq_true_iff _ _).2 h
  simp [shouldRemoveCandidate, hs]

/-- Witness of C1: the class "Article g-plus Main" mixes a strong-negative term with two
maybe-override terms and is removed. -/
theorem shouldRemoveCandidate_strong_witness :
    (∃ t ∈ strongCandidates, contains (asciiToLower (str "Article g-plus Main")) t = true) ∧
      shouldRemoveCandidate asciiToLower (str "Article g-plus Main") = true :=
  ⟨by decide, shouldRemoveCandidate_strong asciiToLower (str "Article g-plus Main") (by decide)⟩

/-- C2: when the lower-cased value contains no strong-negative term,
`shouldRemoveCandidate` returns true exactly when the lower-cased value contains some
term of `unlikelyCandidate` and no term of `maybeCandidate`; so an unlikely term
together with a maybe term is kept, and a value with no unlikely term is kept. -/
theorem shouldRemoveCandidate_unlikely (toLower : GoString → GoString) (s : GoString)
    (h : ∀ t ∈ strongCandidates, contains (toLower s) t = false) :
    (shouldRemoveCandidate toLower s = true ↔
        (∃ u ∈ unlikelyCandidate, contains (toLower s) u = true) ∧
          ∀ m ∈ maybeCandidate, contains (toLower s) m = false) ∧
      ((∃ u ∈ unlikelyCandidate, contains (toLower s) u = true) →
        (∃ m ∈ maybeCandidate, contains (toLower s) m = true) →
          shouldRemoveCandidate toLower s = false) ∧
      ((∀ u ∈ unlikelyCandidate, contains (toLower s) u = false) →
        shouldRemoveCandidate toLower s = false) := by
  have hs : strongLoop (toLower s) strongCandidates = false := by
    rw [← Bool.not_eq_true, strongLoop_eq_true_iff]
    rintro ⟨t, ht, hc⟩
    simp [h t ht] at hc
  have hm : maybeLoop (toLower s) maybeCandidate = false ↔
      ∀ m ∈ maybeCandidate, contains (toLower s) m = false := by
    rw [← Bool.not_eq_true, maybeLoop_eq_true_iff]
    simp
  have key : shouldRemoveCandidate toLower s = unlikelyLoop (toLower s) unlikelyCandidate := by
    simp [shouldRemoveCandidate, hs]
  refine ⟨?_, ?_, ?_⟩
  · rw [key, unlikelyLoop_eq_true_iff, hm]
  · intro _ hmay
    rw [← Bool.not_eq_true, key, unlikelyLoop_eq_true_iff, hm]
    rintro ⟨_, hno⟩
    obtain ⟨m, hmem, hc⟩ := hmay
    simp [hno m hmem] at hc
  · intro hno
    rw [← Bool.not_eq_true, key, unlikelyLoop_eq_true_iff]
    rintro ⟨⟨u, hu, hc⟩, _⟩
    simp [hno u hu] at hc

/-- Witness of C2 at the class "Sidebar": no strong term, so the equivalence applies. -/
theorem shouldRemoveCandidate_unlikely_witness :
    (∀ t ∈ strongCandidates, contains (asciiToLower (str "Sidebar")) t = false) ∧
      shouldRemoveCandidate asciiToLower (str "Sidebar") = true :=
  ⟨by decide,
   ((shouldRemoveCandidate_unlikely asciiToLower (str "Sidebar") (by decide)).1).2
     ⟨by decide, by decide⟩⟩

/-! ## removeUnlikelyCandidates: the code-block exemption -/

theorem get?_append (n : Node) (p q : Path) :
    n.get? (p ++ q) = (n.get? p).bind (fun c => c.get? q) := by
  induction p generalizing n with
  | nil => simp [Node.get?]
  | cons i p ih =>
    simp only [List.cons_append, Node.get?]
    cases n.children.get? i with
    | none => simp
    | some c => simpa using ih c

theorem get?_isSome_of_prefix (n : Node) {q p : Path} (h : q <+: p)
    (hp : (n.get? p).isSome) : (n.get? q).isSome := by
  obtain ⟨t, rfl⟩ := h
  rw [get?_append] at hp
  cases hq : n.get? q with
  | none => simp [hq] at hp
  | some c => simp


theorem closest_concat (doc : Node) (removed : List Path) (m : Node → Bool) (p : Path)
    (i : Nat) :
    closest doc removed m (p ++ [i]) =
      match doc.get? (p ++ [i]) with
      | none => none
      | some n =>
        if m n then some (p ++ [i])
        else if removed.contains (p ++ [i]) then none
        else closest doc removed m p := by
  simp [closest, List.inits_append, closestFrom, List.inits]

theorem closest_isSome_of_inCode (doc : Node) (removed : List Path) (m : Node → Bool)
    (hinv : ∀ r ∈ removed, ¬ InCode doc m r) (p : Path)
    (hp : (doc.get? p).isSome) (hc : InCode doc m p) :
    (closest doc removed m p).isSome := by
  induction p using List.reverseRecOn with
  | nil =>
    obtain ⟨q, hq, n, hn, hm⟩ := hc
    have : q = [] := List.prefix_nil.1 hq
    subst this
    simp [closest, closestFrom, hn, hm]
  | append_singleton p i ih =>
    rw [closest_concat]
    cases hn : doc.get? (p ++ [i]) with
    | none => simp [hn] at hp
    | some n =>
      by_cases hm : m n = true
      · simp [hm]
      · have hp' : (doc.get? p).isSome :=
          get?_isSome_of_prefix doc (List.prefix_append p [i]) hp
        have hc' : InCode doc m p := by
          obtain ⟨q, hq, n', hn', hm'⟩ := hc
          rcases List.prefix_concat_iff.1 (by simpa using hq) with h | h
          · subst h
            rw [hn] at hn'
            cases hn'
            exact absurd hm' hm
          · exact ⟨q, h, n', hn', hm'⟩
        by_cases hr : removed.contains (p ++ [i]) = true
        · have hmem : (p ++ [i]) ∈ removed := by simpa using hr
          exact absurd hc (hinv _ hmem)
        · have hmem : (p ++ [i]) ∉ removed := by simpa using hr
          simp [hm, hmem, ih hp' hc']

theorem removeUnlikelyStep_inv (toLower : GoString → GoString) (doc : Node)
    (removed : List Path)
    (hinv : ∀ r ∈ removed, ¬ InCode doc (isTagIn [str "pre", str "code"]) r) (p : Path) :
    ∀ r ∈ removeUnlikelyStep toLower doc removed p,
      ¬ InCode doc (isTagIn [str "pre", str "code"]) r := by
  have hnew : (closest doc removed (isTagIn [str "pre", str "code"]) p).isSome = false →
      (doc.get? p).isSome → ∀ r ∈ p :: removed,
        ¬ InCode doc (isTagIn [str "pre", str "code"]) r := by
    intro hcl hp r hr
    rcases List.mem_cons.1 hr with h | h
    · subst h
      intro hc
      rw [closest_isSome_of_inCode doc removed _ hinv r hp hc] at hcl
      cases hcl
    · exact hinv r h
  unfold removeUnlikelyStep
  cases hn : doc.get? p with
  | none => simpa using hinv
  | some n =>
    have hp : (doc.get? p).isSome := by simp [hn]
    simp only
    split_ifs with h1 h2 h3 h4
    · exact hinv
    · exact hinv
    · exact hnew (by simpa using h2) hp
    · exact hnew (by simpa using h2) hp
    · exact hinv

theorem removedNodes_inv (toLower : GoString → GoString) (doc : Node) :
    ∀ r ∈ removedNodes toLower doc, ¬ InCode doc (isTagIn [str "pre", str "code"]) r := by
  unfold removedNodes
  generalize documentFind doc isElement = l
  have key : ∀ (l : List Path) (removed : List Path),
      (∀ r ∈ removed, ¬ InCode doc (isTagIn [str "pre", str "code"]) r) →
      ∀ r ∈ l.foldl (removeUnlikelyStep toLower doc) removed,
        ¬ InCode doc (isTagIn [str "pre", str "code"]) r := by
    intro l
    induction l with
    | nil => intro removed h; simpa using h
    | cons p l ih =>
      intro removed h
      simp only [List.foldl_cons]
      exact ih _ (removeUnlikelyStep_inv toLower doc removed h p)
  exact key l [] (by simp)

theorem attached_iff (removed : List Path) (p : Path) :
    attached removed p = true ↔ ∀ q, q <+: p → q ∉ removed := by
  simp [attached, List.mem_inits]

/-- C3 (amended): a node with a `pre` or `code` ancestor is never detached, nor is any
node between it and that ancestor (the ancestor included); so after the pass it is
attached to the document tree exactly when that ancestor is. -/
theorem removeUnlikelyCandidates_code_exempt (toLower : GoString → GoString) (doc : Node)
    (a p : Path) (na : Node) (hap : a <+: p) (hna : doc.get? a = some na)
    (hcode : isTagIn [str "pre", str "code"] na = true) :
    (∀ q, a <+: q → q <+: p → q ∉ removedNodes toLower doc) ∧
      attached (removedNodes toLower doc) p = attached (removedNodes toLower doc) a := by
  have h1 : ∀ q, a <+: q → q ∉ removedNodes toLower doc := by
    intro q haq hq
    exact removedNodes_inv toLower doc q hq ⟨a, haq, na, hna, hcode⟩
  refine ⟨fun q haq _ => h1 q haq, ?_⟩
  rw [Bool.eq_iff_iff, attached_iff, attached_iff]
  constructor
  · intro h q hq
    exact h q (hq.trans hap)
  · intro h q hq
    rcases List.prefix_or_prefix_of_prefix hq hap with h' | h'
    · exact h q h'
    · exact h1 q h'

/-- C3 as stated fails: in `<body><div class="sidebar"><pre><span class="comment">`
the `span` has a class on the unlikely list and a `pre` parent, yet the pass detaches the
`div` around the `pre`, and the `span` leaves the document tree with it. -/
theorem removeUnlikelyCandidates_code_detached :
    (docSidebarPre.get? [0, 1, 0, 0]).map Node.data = some (str "pre") ∧
      ((docSidebarPre.get? [0, 1, 0, 0, 0]).map
        (fun n => attrShouldRemove asciiToLower n (str "class"))) = some true ∧
      removedNodes asciiToLower docSidebarPre = [[0, 1, 0]] ∧
      ((removeUnlikelyCandidates asciiToLower docSidebarPre).get? [0, 1]).map
        (fun n => n.children.length) = some 0 ∧
      attached (removedNodes asciiToLower docSidebarPre) [0, 1, 0, 0, 0] = false := by
  decide

/-- Witness of C3 (amended): the `span` of `<body><pre><span class="comment">` stays
attached. -/
theorem removeUnlikelyCandidates_code_exempt_witness :
    attached (removedNodes asciiToLower docPre) [0, 1, 0, 0] = true :=
  ((removeUnlikelyCandidates_code_exempt asciiToLower docPre [0, 1, 0] [0, 1, 0, 0]
      (elem "pre" [] [elem "span" [("class", "comment")] [textNode "x"]])
      (by decide) rfl (by decide)).2).trans (by decide)

/-! ## The content score -/

/-- The content score of a text whose commas, plus 5, stay within `2 ^ 24`: every float32
of the computation is a whole number under `2 ^ 24`, so no addition rounds. -/
theorem contentScore_exact (text : GoString) (h : text.count 44 + 5 ≤ 2 ^ 24) :
    contentScore text = ((2 + text.count 44 + min (text.length / 100) 3 : Nat) : ℚ) := by
  have h1 : float32 1 = 1 := by
    have := float32_natCast 1 (by norm_num)
    simpa using this
  have h2 : float32 ((text.count 44 + 1 : Nat) : ℚ) = ((text.count 44 + 1 : Nat) : ℚ) :=
    float32_natCast _ (by omega)
  have h3 : float32 ((min (text.length / 100) 3 : Nat) : ℚ) =
      ((min (text.length / 100) 3 : Nat) : ℚ) :=
    float32_natCast _ (by omega)
  have h4 : (1 : ℚ) + ((text.count 44 + 1 : Nat) : ℚ) = ((text.count 44 + 2 : Nat) : ℚ) := by
    push_cast
    ring
  have h5 : float32 ((text.count 44 + 2 : Nat) : ℚ) = ((text.count 44 + 2 : Nat) : ℚ) :=
    float32_natCast _ (by omega)
  have h6 : ((text.count 44 + 2 : Nat) : ℚ) + ((min (text.length / 100) 3 : Nat) : ℚ) =
      ((2 + text.count 44 + min (text.length / 100) 3 : Nat) : ℚ) := by
    push_cast
    ring
  simp only [contentScore, h1, h2, h3, h4, h5, h6]
  exact float32_natCast _ (by omega)

/-- The content score never decreases with the number of commas and with the length:
every conversion to float32 keeps the order. -/
theorem contentScore_le (a b : GoString) (hc : a.count 44 ≤ b.count 44)
    (hl : a.length ≤ b.length) : contentScore a ≤ contentScore b := by
  simp only [contentScore]
  apply float32_mono
  apply add_le_add
  · apply float32_mono
    apply add_le_add (le_refl _)
    apply float32_mono
    exact_mod_cast Nat.add_le_add_right hc 1
  · apply float32_mono
    have : a.length / 100 ≤ b.length / 100 := Nat.div_le_div_right hl
    exact_mod_cast (by omega : min (a.length / 100) 3 ≤ min (b.length / 100) 3)

/-- C4 as stated fails beyond the precision of float32: the content score is a sum of
float32 values. For a text of 16777214 commas the formula gives
`2 + 16777214 + 3 = 16777219`, which is not a float32; the code gives 16777220, a value
above `c + 5`. -/
theorem contentScore_rounded :
    25 ≤ (List.replicate 16777214 (44 : UInt8)).length ∧
      contentScore (List.replicate 16777214 44) = 16777220 ∧
      contentScore (List.replicate 16777214 44) ≠
        ((2 + (List.replicate 16777214 (44 : UInt8)).count 44 +
          min ((List.replicate 16777214 (44 : UInt8)).length / 100) 3 : Nat) : ℚ) ∧
      (((List.replicate 16777214 (44 : UInt8)).count 44 + 5 : Nat) : ℚ) <
        contentScore (List.replicate 16777214 44) := by
  simp only [contentScore, List.count_replicate_self, List.length_replicate]
  decide!

/-- C4 (amended): for a text of `n` bytes with `c` commas, `c + 5` not above `2 ^ 24`,
the content score is `2 + c + min (n / 100) 3` (integer division), a whole number between
`c + 2` and `c + 5`; `getCandidatesStep` computes it for the elements whose text has 25
bytes or more. -/
theorem contentScore_eq (text : GoString) (h : text.count 44 + 5 ≤ 2 ^ 24) :
    contentScore text = ((2 + text.count 44 + min (text.length / 100) 3 : Nat) : ℚ) ∧
      ((text.count 44 + 2 : Nat) : ℚ) ≤ contentScore text ∧
      contentScore text ≤ ((text.count 44 + 5 : Nat) : ℚ) := by
  have h' := contentScore_exact text h
  refine ⟨h', ?_, ?_⟩
  · rw [h']
    exact_mod_cast (by omega : text.count 44 + 2 ≤ 2 + text.count 44 + min (text.length / 100) 3)
  · rw [h']
    exact_mod_cast (by omega : 2 + text.count 44 + min (text.length / 100) 3 ≤ text.count 44 + 5)

/-- Witness of C4 (amended): a text of 25 bytes without a comma has the content score 2. -/
theorem contentScore_eq_witness :
    contentScore (str "Twenty-five bytes of text") = ((2 : Nat) : ℚ) :=
  (contentScore_eq (str "Twenty-five bytes of text") (by decide)).1

/-! ## The accumulated scores -/

theorem parentOf_some {doc : Node} {s q : Path} (h : Selection.parentOf doc s = some q) :
    Selection.parent doc [s] = [q] ∧ (doc.get? q).isSome := by
  have hq : (doc.get? q).isSome := by
    unfold Selection.parentOf at h
    split_ifs at h
    cases hn : doc.get? s.dropLast with
    | none => simp [hn] at h
    | some n =>
      simp only [hn] at h
      split_ifs at h
      cases h
      simp [hn]
  refine ⟨?_, hq⟩
  simp [Selection.parent, List.filterMap, h, List.eraseDups, List.eraseDups.loop]

theorem parentOf_none {doc : Node} {s : Path} (h : Selection.parentOf doc s = none) :
    Selection.parent doc [s] = [] := by
  simp [Selection.parent, List.filterMap, h, List.eraseDups, List.eraseDups.loop]

theorem parent_nil (doc : Node) : Selection.parent doc [] = [] := by
  simp [Selection.parent, List.eraseDups, List.eraseDups.loop]

theorem scoreNode_isSome (toLower : GoString → GoString) (doc : Node) (k : Path)
    (h : (doc.get? k).isSome) : ∃ c0, scoreNode toLower doc [k] = some c0 := by
  cases hn : doc.get? k with
  | none => simp [hn] at h
  | some n =>
    exact ⟨⟨[k], tagScore n.dataAtom + getClassWeight toLower doc [k]⟩,
      by simp [scoreNode, Selection.get0, hn]⟩

theorem lookup_eq_none {k : Path} {l : candidateList} :
    candidateList.lookup k l = none ↔ ∀ c, (k, c) ∉ l := by
  induction l with
  | nil => simp [candidateList.lookup]
  | cons e l ih =>
    obtain ⟨k', c'⟩ := e
    by_cases hk : k' = k
    · subst hk
      simp only [candidateList.lookup, if_true]
      constructor
      · intro h; cases h
      · intro h; exact absurd (List.mem_cons_self _ _) (h c')
    · simp only [candidateList.lookup, hk, if_false, ih]
      constructor
      · intro h c hc
        rcases List.mem_cons.1 hc with h' | h'
        · exact hk (by cases h'; rfl)
        · exact h c h'
      · intro h c hc
        exact h c (List.mem_cons_of_mem _ hc)

theorem mem_addScore {node : Path} {x : ℚ} {l : candidateList} {k : Path} {c : candidate}
    (h : (k, c) ∈ candidateList.addScore node x l) :
    ∃ c', (k, c') ∈ l ∧ c.selection = c'.selection ∧
      c.score = if k = node then float32 (c'.score + x) else c'.score := by
  simp only [candidateList.addScore, List.mem_map] at h
  obtain ⟨⟨k', c'⟩, hmem, heq⟩ := h
  by_cases hk : k' = node
  · simp only [hk, if_true, Prod.mk.injEq] at heq
    obtain ⟨rfl, rfl⟩ := heq
    exact ⟨c', by rw [← hk]; exact hmem, rfl, by simp⟩
  · simp only [hk, if_false, Prod.mk.injEq] at heq
    obtain ⟨rfl, rfl⟩ := heq
    exact ⟨c', hmem, rfl, by simp [hk]⟩

theorem addScore_mem (node : Path) (x : ℚ) {l : candidateList} {k : Path} {c : candidate}
    (h : (k, c) ∈ l) : ∃ c', (k, c') ∈ candidateList.addScore node x l := by
  by_cases hk : k = node
  · exact ⟨⟨c.selection, float32 (c.score + x)⟩, List.mem_map.2 ⟨(k, c), h, by simp [hk]⟩⟩
  · exact ⟨c, List.mem_map.2 ⟨(k, c), h, by simp [hk]⟩⟩

theorem tagScore_int (atom : GoString) : ∃ z : ℤ, tagScore atom = z ∧ z.natAbs ≤ 5 := by
  unfold tagScore
  split_ifs
  · exact ⟨5, by norm_num, by decide⟩
  · exact ⟨3, by norm_num, by decide⟩
  · exact ⟨-3, by norm_num, by decide⟩
  · exact ⟨-5, by norm_num, by decide⟩
  · exact ⟨0, by norm_num, by decide⟩

theorem getClassWeight_int (toLower : GoString → GoString) (doc : Node) (s : Selection) :
    ∃ w : ℤ, getClassWeight toLower doc s = w ∧ w.natAbs ≤ 50 := by
  unfold getClassWeight
  simp only
  refine ⟨_, rfl, ?_⟩
  cases Selection.attr doc s (str "class") <;> cases Selection.attr doc s (str "id") <;>
    simp only <;> (first | decide | (split_ifs <;> decide))

/-- The score that `scoreNode` gives is a whole number between -55 and 55. -/
theorem scoreNode_int (toLower : GoString → GoString) (doc : Node) (s : Selection)
    (c0 : candidate) (h : scoreNode toLower doc s = some c0) :
    ∃ z : ℤ, c0.score = z ∧ z.natAbs ≤ 55 := by
  unfold scoreNode at h
  cases hg : Selection.get0 s with
  | none => simp [hg] at h
  | some p =>
    simp only [hg] at h
    cases hn : doc.get? p with
    | none => simp [hn] at h
    | some n =>
      simp only [hn, Option.some.injEq] at h
      obtain ⟨z, hz, hz'⟩ := tagScore_int n.dataAtom
      obtain ⟨w, hw, hw'⟩ := getClassWeight_int toLower doc s
      refine ⟨z + w, ?_, by omega⟩
      rw [← h]
      simp only [hz, hw]
      push_cast
      rfl

/-- A whole number plus half a natural number, both small: a float32. -/
theorem float32_halves (z : ℤ) (n : ℕ) (h : 2 * z.natAbs + n < 2 ^ 24) :
    float32 ((z : ℚ) + (n : ℚ) / 2) = (z : ℚ) + (n : ℚ) / 2 := by
  apply float32_of_isFloat32
  have := isFloat32_half (2 * z + n) (by omega)
  have e : (((2 * z + n : ℤ)) : ℚ) / 2 = (z : ℚ) + (n : ℚ) / 2 := by
    push_cast
    ring
  rw [e] at this
  exact this

theorem scoreBound_nil (doc : Node) : scoreBound doc [] = 110 := by
  simp [scoreBound]

theorem scoreBound_append (doc : Node) (l : List Path) (s : Path) :
    scoreBound doc (l ++ [s]) = scoreBound doc l +
      3 * (if 25 ≤ (Selection.text doc [s]).length then (Selection.text doc [s]).count 44 + 5
        else 0) := by
  simp only [scoreBound, List.map_append, List.sum_append, List.map_cons, List.map_nil,
    List.sum_cons, List.sum_nil]
  ring

theorem scoreBound_cons (doc : Node) (l : List Path) (s : Path) :
    scoreBound doc (s :: l) = scoreBound doc l +
      3 * (if 25 ≤ (Selection.text doc [s]).length then (Selection.text doc [s]).count 44 + 5
        else 0) := by
  simp only [scoreBound, List.map_cons, List.sum_cons]
  ring

/-- Twice the share of an element is a natural number, three times `commas + 5` at most. -/
theorem share_half (doc : Node) (k s : Path)
    (hb : 25 ≤ (Selection.text doc [s]).length → (Selection.text doc [s]).count 44 + 5 ≤ 2 ^ 24) :
    ∃ n : ℕ, share doc k s = (n : ℚ) / 2 ∧
      n ≤ 3 * (if 25 ≤ (Selection.text doc [s]).length then
        (Selection.text doc [s]).count 44 + 5 else 0) := by
  unfold share
  by_cases hlen : 25 ≤ (Selection.text doc [s]).length
  · simp only [hlen, if_true]
    rw [contentScore_exact _ (hb hlen)]
    generalize hN : 2 + (Selection.text doc [s]).count 44 +
      min ((Selection.text doc [s]).length / 100) 3 = N
    have hN' : N ≤ (Selection.text doc [s]).count 44 + 5 := by omega
    by_cases h1 : Selection.parent doc [s] = [k] <;>
      by_cases h2 : Selection.parent doc (Selection.parent doc [s]) = [k]
    · refine ⟨3 * N, ?_, by omega⟩
      rw [if_pos h1, if_pos h2]
      push_cast
      ring
    · refine ⟨2 * N, ?_, by omega⟩
      rw [if_pos h1, if_neg h2]
      push_cast
      ring
    · refine ⟨N, ?_, by omega⟩
      rw [if_neg h1, if_pos h2]
      ring
    · refine ⟨0, ?_, by omega⟩
      rw [if_neg h1, if_neg h2]
      norm_num
  · refine ⟨0, ?_, by omega⟩
    simp [hlen]

/-- Twice the sum of the shares of the elements of `l` is a natural number, and with 110
it stays within `scoreBound`. -/
theorem share_sum_half (doc : Node) (k : Path) :
    ∀ l : List Path, scoreBound doc l < 2 ^ 24 →
      ∃ n : ℕ, (l.map (share doc k)).sum = (n : ℚ) / 2 ∧ 110 + n ≤ scoreBound doc l := by
  intro l
  induction l with
  | nil =>
    intro _
    exact ⟨0, by simp, by simp [scoreBound]⟩
  | cons s l ih =>
    intro hb
    rw [scoreBound_cons] at hb
    obtain ⟨n, hn, hn'⟩ := ih (by omega)
    obtain ⟨m, hm, hm'⟩ := share_half doc k s (by
      intro hlen
      simp only [hlen, if_true] at hb
      omega)
    refine ⟨m + n, ?_, ?_⟩
    · simp only [List.map_cons, List.sum_cons, hn, hm]
      push_cast
      ring
    · rw [scoreBound_cons]
      omega

theorem share_sum_zero (doc : Node) (done : List Path) (candidates : candidateList)
    (hkeys : KeysInv doc done candidates) (k : Path)
    (hk : candidateList.lookup k candidates = none) :
    (done.map (share doc k)).sum = 0 := by
  apply List.sum_eq_zero
  intro x hx
  obtain ⟨s, hs, rfl⟩ := List.mem_map.1 hx
  have hno : ¬ Related doc k s := by
    intro hr
    obtain ⟨c, hc⟩ := hkeys s hs k hr
    exact lookup_eq_none.1 hk c hc
  unfold share
  unfold Related at hno
  split_ifs with h1 h2 h3 h3
  · exact absurd ⟨h1, Or.inl h2⟩ hno
  · exact absurd ⟨h1, Or.inl h2⟩ hno
  · exact absurd ⟨h1, Or.inr h3⟩ hno
  · simp
  · rfl

theorem ensureCandidate_inv (toLower : GoString → GoString) (doc : Node) (done : List Path)
    (candidates : candidateList) (hscore : ScoreInv toLower doc done candidates)
    (hkeys : KeysInv doc done candidates) (k : Path) (hk : (doc.get? k).isSome) :
    ∃ l, ensureCandidate toLower doc candidates k [k] = some l ∧
      ScoreInv toLower doc done l ∧ KeysInv doc done l ∧ (∃ c, (k, c) ∈ l) ∧
      (∀ e ∈ l, e ∈ candidates ∨ e.1 = k) ∧ ∀ e ∈ candidates, e ∈ l := by
  unfold ensureCandidate
  cases hl : candidateList.lookup k candidates with
  | some c =>
    refine ⟨candidates, rfl, hscore, hkeys, ?_, fun e he => Or.inl he, fun e he => he⟩
    by_contra hno
    have : candidateList.lookup k candidates = none :=
      lookup_eq_none.2 (fun c hc => hno ⟨c, hc⟩)
    rw [this] at hl
    cases hl
  | none =>
    obtain ⟨c0, hc0⟩ := scoreNode_isSome toLower doc k hk
    refine ⟨candidates ++ [(k, c0)], by simp [hc0], ?_, ?_, ⟨c0, by simp⟩, ?_, ?_⟩
    · intro k' c' hmem
      rcases List.mem_append.1 hmem with h | h
      · exact hscore k' c' h
      · simp only [List.mem_singleton, Prod.mk.injEq] at h
        obtain ⟨rfl, rfl⟩ := h
        obtain ⟨z, hz, hz'⟩ := scoreNode_int toLower doc [k'] c' hc0
        refine ⟨c', hc0, rfl, ?_, fun _ => by
          rw [share_sum_zero doc done candidates hkeys k' hl]; simp⟩
        rw [hz]
        exact float32_intCast z (by omega)
    · intro s hs k' hr
      obtain ⟨c, hc⟩ := hkeys s hs k' hr
      exact ⟨c, List.mem_append_left _ hc⟩
    · intro e he
      rcases List.mem_append.1 he with h | h
      · exact Or.inl h
      · simp only [List.mem_singleton] at h
        exact Or.inr (by rw [h])
    · intro e he
      exact List.mem_append_left _ he

theorem share_eq (doc : Node) (k s pk : Path) (gp : Selection)
    (hlen : ¬ (Selection.text doc [s]).length < 25)
    (hpar : Selection.parent doc [s] = [pk]) (hgp : Selection.parent doc [pk] = gp) :
    share doc k s =
      (if k = pk then contentScore (Selection.text doc [s]) else 0) +
        (if gp = [k] then contentScore (Selection.text doc [s]) / 2 else 0) := by
  unfold share
  rw [hpar, hgp, if_pos (not_lt.1 hlen)]
  by_cases h : k = pk
  · simp [h]
  · have h' : ¬ [pk] = [k] := by
      intro e
      exact h (by cases e; rfl)
    simp [h, h']

/-- The additions of one step of the loop are exact while `scoreBound` is under
`2 ^ 24`. -/
theorem step_exact (doc : Node) (k s : Path) (done : List Path) (z : ℤ)
    (hz : z.natAbs ≤ 55) (hb : scoreBound doc (done ++ [s]) < 2 ^ 24)
    (hlen : 25 ≤ (Selection.text doc [s]).length) :
    float32 (contentScore (Selection.text doc [s]) / 2) =
        contentScore (Selection.text doc [s]) / 2 ∧
      float32 ((z : ℚ) + (done.map (share doc k)).sum +
          contentScore (Selection.text doc [s])) =
        (z : ℚ) + (done.map (share doc k)).sum + contentScore (Selection.text doc [s]) ∧
      float32 ((z : ℚ) + (done.map (share doc k)).sum +
          contentScore (Selection.text doc [s]) +
          contentScore (Selection.text doc [s]) / 2) =
        (z : ℚ) + (done.map (share doc k)).sum + contentScore (Selection.text doc [s]) +
          contentScore (Selection.text doc [s]) / 2 ∧
      float32 ((z : ℚ) + (done.map (share doc k)).sum +
          contentScore (Selection.text doc [s]) / 2) =
        (z : ℚ) + (done.map (share doc k)).sum +
          contentScore (Selection.text doc [s]) / 2 := by
  rw [scoreBound_append] at hb
  simp only [hlen, if_true] at hb
  obtain ⟨n, hn, hn'⟩ := share_sum_half doc k done (by omega)
  rw [hn, contentScore_exact _ (by omega)]
  generalize hN : 2 + (Selection.text doc [s]).count 44 +
    min ((Selection.text doc [s]).length / 100) 3 = N
  have hN' : N ≤ (Selection.text doc [s]).count 44 + 5 := by omega
  refine ⟨?_, ?_, ?_, ?_⟩
  · have := float32_halves 0 N (by simp; omega)
    simpa using this
  · have := float32_halves z (n + 2 * N) (by omega)
    have e : (z : ℚ) + (n : ℚ) / 2 + (N : ℚ) = (z : ℚ) + ((n + 2 * N : ℕ) : ℚ) / 2 := by
      push_cast
      ring
    rw [e]
    exact this
  · have := float32_halves z (n + 3 * N) (by omega)
    have e : (z : ℚ) + (n : ℚ) / 2 + (N : ℚ) + (N : ℚ) / 2 =
        (z : ℚ) + ((n + 3 * N : ℕ) : ℚ) / 2 := by
      push_cast
      ring
    rw [e]
    exact this
  · have := float32_halves z (n + N) (by omega)
    have e : (z : ℚ) + (n : ℚ) / 2 + (N : ℚ) / 2 = (z : ℚ) + ((n + N : ℕ) : ℚ) / 2 := by
      push_cast
      ring
    rw [e]
    exact this

theorem getCandidatesStep_inv (toLower : GoString → GoString) (doc : Node)
    (done : List Path) (candidates : candidateList)
    (hscore : ScoreInv toLower doc done candidates) (hkeys : KeysInv doc done candidates)
    (horigin : OriginInv doc done candidates) (s : Path)
    (hs : 25 ≤ (Selection.text doc [s]).length → Selection.parent doc [s] ≠ []) :
    ∃ l, getCandidatesStep toLower doc candidates s = some l ∧
      ScoreInv toLower doc (done ++ [s]) l ∧ KeysInv doc (done ++ [s]) l ∧
      OriginInv doc (done ++ [s]) l := by
  by_cases hlen : (Selection.text doc [s]).length < 25
  · have hsh : ∀ k, share doc k s = 0 := by
      intro k
      simp [share, hlen]
    have hrel : ∀ k, ¬ Related doc k s := by
      intro k hr
      exact absurd hr.1 (not_le.2 hlen)
    refine ⟨candidates, by simp [getCandidatesStep, hlen], ?_, ?_, ?_⟩
    · intro k c hc
      obtain ⟨c0, h0, hsel, hf, h1⟩ := hscore k c hc
      refine ⟨c0, h0, hsel, hf, fun hb => ?_⟩
      have hb' : scoreBound doc done < 2 ^ 24 := by
        rw [scoreBound_append] at hb
        omega
      rw [h1 hb']
      simp [List.map_append, List.sum_append, hsh]
    · intro s' hs' k hr
      rcases List.mem_append.1 hs' with h | h
      · exact hkeys s' h k hr
      · simp only [List.mem_singleton] at h
        subst h
        exact absurd hr (hrel k)
    · intro k c hc
      obtain ⟨s', hs', hr⟩ := horigin k c hc
      exact ⟨s', List.mem_append_left _ hs', hr⟩
  · have hlen' : 25 ≤ (Selection.text doc [s]).length := not_lt.1 hlen
    cases hpo : Selection.parentOf doc s with
    | none => exact absurd (parentOf_none hpo) (hs hlen')
    | some pk =>
      obtain ⟨hpar, hpk⟩ := parentOf_some hpo
      obtain ⟨l1, hl1, hs1, hk1, hmem1, hsub1, hsup1⟩ :=
        ensureCandidate_inv toLower doc done candidates hscore hkeys pk hpk
      cases hgo : Selection.parentOf doc pk with
      | none =>
        have hgp : Selection.parent doc [pk] = [] := parentOf_none hgo
        have hrel : ∀ k, Related doc k s → k = pk := by
          intro k hr
          rcases hr.2 with h | h
          · rw [hpar] at h
            cases h
            rfl
          · rw [hpar, hgp] at h
            cases h
        refine ⟨candidateList.addScore pk (contentScore (Selection.text doc [s])) l1,
          by simp [getCandidatesStep, hlen, hpar, hgp, Selection.get0, hl1], ?_, ?_, ?_⟩
        · intro k c hc
          obtain ⟨c1, hc1, hsel1, hsc⟩ := mem_addScore hc
          obtain ⟨c0, h0, hsel0, hf1, h1⟩ := hs1 k c1 hc1
          refine ⟨c0, h0, hsel1.trans hsel0, ?_, fun hb => ?_⟩
          · rw [hsc]
            split_ifs
            · exact float32_idem _
            · exact hf1
          · have hb' : scoreBound doc done < 2 ^ 24 := by
              rw [scoreBound_append] at hb
              omega
            obtain ⟨z, hz, hz'⟩ := scoreNode_int toLower doc [k] c0 h0
            obtain ⟨_, e1, _, _⟩ := step_exact doc k s done z hz' hb hlen'
            rw [hsc, h1 hb', hz]
            simp only [List.map_append, List.sum_append, List.map_cons, List.map_nil,
              List.sum_cons, List.sum_nil, add_zero]
            rw [share_eq doc k s pk [] hlen hpar hgp]
            have hnil : ¬ ([] : Selection) = [k] := by simp
            by_cases hkp : k = pk
            · rw [if_pos hkp, if_pos hkp, if_neg hnil, e1]
              ring
            · rw [if_neg hkp, if_neg hkp, if_neg hnil]
              ring
        · intro s' hs' k hr
          rcases List.mem_append.1 hs' with h | h
          · obtain ⟨c, hc⟩ := hk1 s' h k hr
            exact addScore_mem _ _ hc
          · simp only [List.mem_singleton] at h
            subst h
            rw [hrel k hr]
            obtain ⟨c, hc⟩ := hmem1
            exact addScore_mem _ _ hc
        · intro k c hc
          obtain ⟨c1, hc1, _⟩ := mem_addScore hc
          rcases hsub1 (k, c1) hc1 with h | h
          · obtain ⟨s', hs', hr⟩ := horigin k c1 h
            exact ⟨s', List.mem_append_left _ hs', hr⟩
          · simp only at h
            subst h
            exact ⟨s, by simp, hlen', Or.inl hpar⟩
      | some g =>
        obtain ⟨hgp, hg⟩ := parentOf_some hgo
        obtain ⟨l2, hl2, hs2, hk2, hmem2, hsub2, hsup2⟩ :=
          ensureCandidate_inv toLower doc done l1 hs1 hk1 g hg
        have hrel : ∀ k, Related doc k s → k = pk ∨ k = g := by
          intro k hr
          rcases hr.2 with h | h
          · rw [hpar] at h
            cases h
            exact Or.inl rfl
          · rw [hpar, hgp] at h
            cases h
            exact Or.inr rfl
        refine ⟨candidateList.addScore g (float32 (contentScore (Selection.text doc [s]) / 2))
            (candidateList.addScore pk (contentScore (Selection.text doc [s])) l2),
          by simp [getCandidatesStep, hlen, hpar, hgp, Selection.get0, hl1, hl2], ?_, ?_, ?_⟩
        · intro k c hc
          obtain ⟨c2, hc2, hsel2, hsc2⟩ := mem_addScore hc
          obtain ⟨c1, hc1, hsel1, hsc1⟩ := mem_addScore hc2
          obtain ⟨c0, h0, hsel0, hf1, h1⟩ := hs2 k c1 hc1
          refine ⟨c0, h0, (hsel2.trans hsel1).trans hsel0, ?_, fun hb => ?_⟩
          · rw [hsc2, hsc1]
            split_ifs
            · exact float32_idem _
            · exact float32_idem _
            · exact float32_idem _
            · exact hf1
          · have hb' : scoreBound doc done < 2 ^ 24 := by
              rw [scoreBound_append] at hb
              omega
            obtain ⟨z, hz, hz'⟩ := scoreNode_int toLower doc [k] c0 h0
            obtain ⟨e0, e1, e2, e3⟩ := step_exact doc k s done z hz' hb hlen'
            rw [hsc2, hsc1, h1 hb', hz]
            simp only [List.map_append, List.sum_append, List.map_cons, List.map_nil,
              List.sum_cons, List.sum_nil, add_zero]
            rw [share_eq doc k s pk [g] hlen hpar hgp]
            by_cases hkp : k = pk <;> by_cases hkg : k = g
            · have hkg' : [g] = [k] := by rw [hkg]
              rw [if_pos hkg, if_pos hkp, if_pos hkp, if_pos hkg', e1, e0, e2]
              ring
            · have hkg' : ¬ [g] = [k] := by
                intro e
                exact hkg (by cases e; rfl)
              rw [if_neg hkg, if_pos hkp, if_pos hkp, if_neg hkg', e1]
              ring
            · have hkg' : [g] = [k] := by rw [hkg]
              rw [if_pos hkg, if_neg hkp, if_neg hkp, if_pos hkg', e0, e3]
              ring
            · have hkg' : ¬ [g] = [k] := by
                intro e
                exact hkg (by cases e; rfl)
              rw [if_neg hkg, if_neg hkp, if_neg hkp, if_neg hkg']
              ring
        · intro s' hs' k hr
          rcases List.mem_append.1 hs' with h | h
          · obtain ⟨c, hc⟩ := hk2 s' h k hr
            obtain ⟨c', hc'⟩ := addScore_mem pk
              (contentScore (Selection.text doc [s])) hc
            exact addScore_mem _ _ hc'
          · simp only [List.mem_singleton] at h
            rw [h] at hr
            have hin : ∃ c, (k, c) ∈ l2 := by
              rcases hrel k hr with h | h
              · rw [h]
                obtain ⟨c, hc⟩ := hmem1
                exact ⟨c, hsup2 _ hc⟩
              · rw [h]
                exact hmem2
            obtain ⟨c, hc⟩ := hin
            obtain ⟨c', hc'⟩ := addScore_mem pk
              (contentScore (Selection.text doc [s])) hc
            exact addScore_mem _ _ hc'
        · intro k c hc
          obtain ⟨c2, hc2, _⟩ := mem_addScore hc
          obtain ⟨c1, hc1, _⟩ := mem_addScore hc2
          rcases hsub2 (k, c1) hc1 with h | h
          · rcases hsub1 (k, c1) h with h' | h'
            · obtain ⟨s', hs', hr⟩ := horigin k c1 h'
              exact ⟨s', List.mem_append_left _ hs', hr⟩
            · simp only at h'
              subst h'
              exact ⟨s, by simp, hlen', Or.inl hpar⟩
          · simp only at h
            subst h
            exact ⟨s, by simp, hlen', Or.inr (by rw [hpar, hgp])⟩

theorem getCandidatesLoop_inv (toLower : GoString → GoString) (doc : Node) :
    ∀ (rest done : List Path) (candidates : candidateList),
      ScoreInv toLower doc done candidates → KeysInv doc done candidates →
      OriginInv doc done candidates →
      (∀ s ∈ rest, 25 ≤ (Selection.text doc [s]).length → Selection.parent doc [s] ≠ []) →
      ∃ l, getCandidatesLoop toLower doc candidates rest = some l ∧
        ScoreInv toLower doc (done ++ rest) l ∧ KeysInv doc (done ++ rest) l ∧
        OriginInv doc (done ++ rest) l := by
  intro rest
  induction rest with
  | nil =>
    intro done candidates h1 h2 h3 _
    exact ⟨candidates, rfl, by simpa using h1, by simpa using h2, by simpa using h3⟩
  | cons s rest ih =>
    intro done candidates h1 h2 h3 hpar
    obtain ⟨l, hl, h1', h2', h3'⟩ := getCandidatesStep_inv toLower doc done candidates
      h1 h2 h3 s (hpar s (by simp))
    obtain ⟨l', hl', h1'', h2'', h3''⟩ := ih (done ++ [s]) l h1' h2' h3'
      (fun s' hs' => hpar s' (List.mem_cons_of_mem _ hs'))
    refine ⟨l', by simp [getCandidatesLoop, hl, hl'], ?_, ?_, ?_⟩
    · simpa using h1''
    · simpa using h2''
    · simpa using h3''

theorem sum_shares {α : Type} (e p g : α → Prop) [DecidablePred e] [DecidablePred p]
    [DecidablePred g] (f : α → ℚ) (l : List α) :
    (l.map (fun s => if e s then (if p s then f s else 0) + (if g s then f s / 2 else 0)
        else 0)).sum =
      (((l.filter (fun s => e s)).filter (fun s => p s)).map f).sum +
        (((l.filter (fun s => e s)).filter (fun s => g s)).map f).sum / 2 := by
  induction l with
  | nil => simp
  | cons s l ih =>
    by_cases he : e s <;> by_cases hp : p s <;> by_cases hg : g s <;>
      simp [List.filter_cons, he, hp, hg, ih] <;> ring

theorem share_sum (doc : Node) (k : Path) (l : List Path) :
    (l.map (share doc k)).sum =
      (((l.filter (fun s => 25 ≤ (Selection.text doc [s]).length)).filter
          (fun s => Selection.parent doc [s] = [k])).map
        (fun s => contentScore (Selection.text doc [s]))).sum +
      (((l.filter (fun s => 25 ≤ (Selection.text doc [s]).length)).filter
          (fun s => Selection.parent doc (Selection.parent doc [s]) = [k])).map
        (fun s => contentScore (Selection.text doc [s]))).sum / 2 :=
  sum_shares (fun s => 25 ≤ (Selection.text doc [s]).length)
    (fun s => Selection.parent doc [s] = [k])
    (fun s => Selection.parent doc (Selection.parent doc [s]) = [k])
    (fun s => contentScore (Selection.text doc [s])) l

theorem parent_eq_iff (doc : Node) (s k : Path) :
    Selection.parent doc [s] = [k] ↔
      (∃ i, s = k ++ [i]) ∧ ∃ n, doc.get? k = some n ∧ n.type = NodeType.ElementNode := by
  constructor
  · intro h
    cases hpo : Selection.parentOf doc s with
    | none =>
      rw [parentOf_none hpo] at h
      cases h
    | some q =>
      rw [(parentOf_some hpo).1] at h
      cases h
      unfold Selection.parentOf at hpo
      split_ifs at hpo with hs
      cases hn : doc.get? s.dropLast with
      | none => simp [hn] at hpo
      | some n =>
        simp only [hn] at hpo
        split_ifs at hpo with ht
        cases hpo
        refine ⟨⟨s.getLast hs, (List.dropLast_append_getLast hs).symm⟩, n, hn, ht⟩
  · rintro ⟨⟨i, rfl⟩, n, hn, ht⟩
    have hpo : Selection.parentOf doc (k ++ [i]) = some k := by
      simp [Selection.parentOf, hn, ht]
    exact (parentOf_some hpo).1

theorem addScore_keys (node : Path) (x : ℚ) (l : candidateList) :
    (candidateList.addScore node x l).map Prod.fst = l.map Prod.fst := by
  simp only [candidateList.addScore, List.map_map]
  apply List.map_congr_left
  intro e _
  by_cases h : e.1 = node <;> simp [h]

theorem ensureCandidate_nodup (toLower : GoString → GoString) (doc : Node)
    (l l' : candidateList) (k : Path) (sel : Selection)
    (h : ensureCandidate toLower doc l k sel = some l') (hn : (l.map Prod.fst).Nodup) :
    (l'.map Prod.fst).Nodup := by
  unfold ensureCandidate at h
  cases hl : candidateList.lookup k l with
  | some c =>
    simp only [hl, Option.some.injEq] at h
    rw [← h]
    exact hn
  | none =>
    simp only [hl] at h
    cases hc : scoreNode toLower doc sel with
    | none => simp [hc] at h
    | some c =>
      simp only [hc, Option.some.injEq] at h
      rw [← h, List.map_append, List.nodup_append]
      refine ⟨hn, by simp, ?_⟩
      intro a ha hb
      simp only [List.map_cons, List.map_nil, List.mem_singleton] at hb
      subst hb
      obtain ⟨e, he, hfst⟩ := List.mem_map.1 ha
      exact lookup_eq_none.1 hl e.2 (by rw [← hfst]; exact he)

theorem getCandidatesStep_nodup (toLower : GoString → GoString) (doc : Node)
    (l l' : candidateList) (s : Path)
    (h : getCandidatesStep toLower doc l s = some l') (hn : (l.map Prod.fst).Nodup) :
    (l'.map Prod.fst).Nodup := by
  unfold getCandidatesStep at h
  by_cases hlen : (Selection.text doc [s]).length < 25
  · simp only [hlen, if_true, Option.some.injEq] at h
    rw [← h]
    exact hn
  · simp only [hlen, if_false] at h
    generalize (if (Selection.parent doc (Selection.parent doc [s])).length > 0 then
      Selection.get0 (Selection.parent doc (Selection.parent doc [s])) else none) = gpn at h
    cases hp : Selection.get0 (Selection.parent doc [s]) with
    | none => simp [hp] at h
    | some pk =>
      simp only [hp] at h
      cases h1 : ensureCandidate toLower doc l pk (Selection.parent doc [s]) with
      | none => simp [h1] at h
      | some l1 =>
        have hn1 := ensureCandidate_nodup toLower doc l l1 pk _ h1 hn
        simp only [h1] at h
        cases gpn with
        | none =>
          simp only [Option.some.injEq] at h
          rw [← h, addScore_keys]
          exact hn1
        | some g =>
          simp only at h
          cases h2 : ensureCandidate toLower doc l1 g
              (Selection.parent doc (Selection.parent doc [s])) with
          | none => simp [h2] at h
          | some l2 =>
            have hn2 := ensureCandidate_nodup toLower doc l1 l2 g _ h2 hn1
            simp only [h2, Option.some.injEq] at h
            rw [← h, addScore_keys, addScore_keys]
            exact hn2

theorem getCandidatesLoop_nodup (toLower : GoString → GoString) (doc : Node) :
    ∀ (rest : List Path) (l l' : candidateList),
      getCandidatesLoop toLower doc l rest = some l' → (l.map Prod.fst).Nodup →
      (l'.map Prod.fst).Nodup := by
  intro rest
  induction rest with
  | nil =>
    intro l l' h hn
    simp only [getCandidatesLoop, Option.some.injEq] at h
    rw [← h]
    exact hn
  | cons s rest ih =>
    intro l l' h hn
    simp only [getCandidatesLoop] at h
    cases hs : getCandidatesStep toLower doc l s with
    | none => simp [hs] at h
    | some l1 =>
      simp only [hs] at h
      exact ih l1 l' h (getCandidatesStep_nodup toLower doc l l1 s hs hn)

theorem sum_map_if_eq_filter {α : Type} (p : α → Prop) [DecidablePred p] (f : α → ℕ)
    (l : List α) :
    (l.map (fun s => if p s then f s else 0)).sum = ((l.filter (fun s => p s)).map f).sum := by
  induction l with
  | nil => simp
  | cons s l ih =>
    by_cases h : p s <;> simp [List.filter_cons, h, ih]

theorem scoreBound_scored (doc : Node) :
    scoreBound doc (documentFind doc (isTagIn defaultTagsToScore)) =
      110 + 3 * ((scoredElements doc).map
        (fun s => (Selection.text doc [s]).count 44 + 5)).sum := by
  unfold scoreBound scoredElements
  rw [sum_map_if_eq_filter (fun s => 25 ≤ (Selection.text doc [s]).length)]

/-- The candidates of `getCandidates` before the scaling, whatever their size: no panic
when every scored element has an element as parent, one candidate per node at most, a
float32 as score, a scored child or grandchild behind every candidate, and the exact sum
while the scores stay small. -/
theorem accumulatedCandidates_inv (toLower : GoString → GoString) (doc : Node)
    (hdoc : ∀ s ∈ scoredElements doc, Selection.parent doc [s] ≠ []) :
    ∃ candidates, accumulatedCandidates toLower doc = some candidates ∧
      (candidates.map Prod.fst).Nodup ∧
      ∀ k c, (k, c) ∈ candidates →
        (∃ c0, scoreNode toLower doc [k] = some c0 ∧ c.selection = [k] ∧
          float32 c.score = c.score ∧
          (110 + 3 * ((scoredElements doc).map
              (fun s => (Selection.text doc [s]).count 44 + 5)).sum < 2 ^ 24 →
            c.score = c0.score + childrenScore doc k + grandChildrenScore doc k / 2)) ∧
        ∃ s ∈ scoredElements doc, Selection.parent doc [s] = [k] ∨
          Selection.parent doc (Selection.parent doc [s]) = [k] := by
  obtain ⟨l, hl, h1, _, h3⟩ := getCandidatesLoop_inv toLower doc
    (documentFind doc (isTagIn defaultTagsToScore)) [] []
    (fun k c hc => by simp at hc) (fun s hs => by simp at hs) (fun k c hc => by simp at hc)
    (fun s hs hlen => hdoc s (by simp [scoredElements, hs, hlen]))
  refine ⟨l, hl, getCandidatesLoop_nodup toLower doc _ [] l hl (by simp), ?_⟩
  intro k c hc
  constructor
  · obtain ⟨c0, h0, hsel, hf, hsc⟩ := h1 k c hc
    refine ⟨c0, h0, ?_, hf, ?_⟩
    · rw [hsel]
      unfold scoreNode at h0
      split at h0
      · cases h0
      · split at h0
        · cases h0
        · cases h0
          rfl
    · intro hb
      rw [← scoreBound_scored] at hb
      rw [hsc (by simpa using hb), List.nil_append, share_sum, add_assoc]
      rfl
  · obtain ⟨s, hs, hr⟩ := h3 k c hc
    refine ⟨s, ?_, hr.2⟩
    simp only [List.nil_append] at hs
    simp [scoredElements, hs, hr.1]

theorem docParagraph_find (t : GoString) :
    documentFind (docParagraph t) (isTagIn defaultTagsToScore) = [[0, 1, 0], [0, 1, 0, 0]] :=
  rfl

theorem docParagraph_text_div (t : GoString) :
    Selection.text (docParagraph t) [[0, 1, 0]] = t := by
  simp [Selection.text, docParagraph, document, elem, Node.get?, Node.children, nodeText,
    nodeTextList]

theorem docParagraph_text_p (t : GoString) :
    Selection.text (docParagraph t) [[0, 1, 0, 0]] = t := by
  simp [Selection.text, docParagraph, document, elem, Node.get?, Node.children, nodeText,
    nodeTextList]

theorem docParagraph_parent (t : GoString) :
    Selection.parent (docParagraph t) [[0, 1, 0, 0]] = [[0, 1, 0]] ∧
      Selection.parent (docParagraph t) [[0, 1, 0]] = [[0, 1]] ∧
      Selection.parent (docParagraph t) [[0, 1]] = [[0]] :=
  ⟨rfl, rfl, rfl⟩

theorem docParagraph_classWeight (t : GoString) (k : Path)
    (h1 : Selection.attr (docParagraph t) [k] (str "class") = none)
    (h2 : Selection.attr (docParagraph t) [k] (str "id") = none) :
    getClassWeight asciiToLower (docParagraph t) [k] = 0 := by
  simp [getClassWeight, h1, h2]

theorem docParagraph_scoreNode (t : GoString) :
    scoreNode asciiToLower (docParagraph t) [[0, 1, 0]] = some ⟨[[0, 1, 0]], 5⟩ ∧
      scoreNode asciiToLower (docParagraph t) [[0, 1]] = some ⟨[[0, 1]], 0⟩ ∧
      scoreNode asciiToLower (docParagraph t) [[0]] = some ⟨[[0]], 0⟩ := by
  have h5 : tagScore (str "div") = 5 := by decide!
  have hb : tagScore (str "body") = 0 := by decide!
  have hh : tagScore (str "html") = 0 := by decide!
  have g1 : (docParagraph t).get? [0, 1, 0] = some (elem "div" []
      [elem "p" [] [.mk NodeType.TextNode [] t [] [] []]]) := rfl
  have g2 : (docParagraph t).get? [0, 1] = some (elem "body" [] [elem "div" []
      [elem "p" [] [.mk NodeType.TextNode [] t [] [] []]]]) := rfl
  have g3 : (docParagraph t).get? [0] = some (elem "html" [] [elem "head" [] [],
      elem "body" [] [elem "div" []
      [elem "p" [] [.mk NodeType.TextNode [] t [] [] []]]]]) := rfl
  refine ⟨?_, ?_, ?_⟩
  · simp only [scoreNode, Selection.get0, List.head?, g1,
      docParagraph_classWeight t [0, 1, 0] rfl rfl, elem, Node.dataAtom, h5, add_zero]
  · simp only [scoreNode, Selection.get0, List.head?, g2,
      docParagraph_classWeight t [0, 1] rfl rfl, elem, Node.dataAtom, hb, add_zero]
  · simp only [scoreNode, Selection.get0, List.head?, g3,
      docParagraph_classWeight t [0] rfl rfl, elem, Node.dataAtom, hh, add_zero]

theorem docParagraph_accumulated (t : GoString) (h : 25 ≤ t.length) :
    accumulatedCandidates asciiToLower (docParagraph t) = some [
      ([0, 1], ⟨[[0, 1]], float32 (float32 (0 + contentScore t) +
        float32 (contentScore t / 2))⟩),
      ([0], ⟨[[0]], float32 (0 + float32 (contentScore t / 2))⟩),
      ([0, 1, 0], ⟨[[0, 1, 0]], float32 (5 + contentScore t)⟩)] := by
  have hlt : ¬ t.length < 25 := not_lt.mpr h
  obtain ⟨p1, p2, p3⟩ := docParagraph_parent t
  obtain ⟨s1, s2, s3⟩ := docParagraph_scoreNode t
  simp [accumulatedCandidates, docParagraph_find, getCandidatesLoop, getCandidatesStep,
    docParagraph_text_div, docParagraph_text_p, hlt, p1, p2, p3, s1, s2, s3,
    ensureCandidate, candidateList.lookup, candidateList.addScore, Selection.get0]

theorem docParagraph_scoredElements (t : GoString) (h : 25 ≤ t.length) :
    scoredElements (docParagraph t) = [[0, 1, 0], [0, 1, 0, 0]] := by
  simp [scoredElements, docParagraph_find, docParagraph_text_div, docParagraph_text_p, h]

theorem docParagraph_childrenScore (t : GoString) (h : 25 ≤ t.length) :
    childrenScore (docParagraph t) [0, 1, 0] = contentScore t ∧
      grandChildrenScore (docParagraph t) [0, 1, 0] = 0 := by
  obtain ⟨p1, p2, p3⟩ := docParagraph_parent t
  constructor
  · simp [childrenScore, docParagraph_scoredElements t h, p1, p2, docParagraph_text_p,
      List.filter]
  · simp [grandChildrenScore, docParagraph_scoredElements t h, p1, p2, p3, List.filter]

/-- C5 as stated fails beyond the precision of float32: in the parse of
`<div><p>(16777215 commas)</p></div>` the paragraph has the content score 16777220 and
the `div`, whose score of `scoreNode` is 5, has no other scored child and no scored
grandchild; the code leaves it the score 16777224, the float32 sum, not 16777225. -/
theorem accumulatedCandidates_rounded :
    scoredElements (docParagraph (List.replicate 16777215 44)) = [[0, 1, 0], [0, 1, 0, 0]] ∧
      (accumulatedCandidates asciiToLower (docParagraph (List.replicate 16777215 44))).map
        (fun l => (candidateList.lookup [0, 1, 0] l).map (fun c => c.score)) =
          some (some 16777224) ∧
      (scoreNode asciiToLower (docParagraph (List.replicate 16777215 44)) [[0, 1, 0]]).map
        (fun c => c.score) = some 5 ∧
      childrenScore (docParagraph (List.replicate 16777215 44)) [0, 1, 0] = 16777220 ∧
      grandChildrenScore (docParagraph (List.replicate 16777215 44)) [0, 1, 0] = 0 ∧
      (16777224 : ℚ) ≠ 5 + 16777220 + 0 / 2 := by
  have key : ∀ t : GoString, t.count 44 = 16777215 → t.length = 16777215 →
      contentScore t = 16777220 := by
    intro t hc hl
    simp only [contentScore, hc, hl]
    decide!
  have hcs := key (List.replicate 16777215 44) (List.count_replicate_self _ _)
    (List.length_replicate _ _)
  have hlen : 25 ≤ (List.replicate 16777215 (44 : UInt8)).length := by
    rw [List.length_replicate]
    decide
  have hsum : float32 (5 + 16777220) = 16777224 := by decide!
  refine ⟨docParagraph_scoredElements _ hlen, ?_, ?_,
    (docParagraph_childrenScore _ hlen).1.trans hcs, (docParagraph_childrenScore _ hlen).2,
    by norm_num⟩
  · rw [docParagraph_accumulated _ hlen, hcs]
    simp [candidateList.lookup, hsum]
  · rw [(docParagraph_scoreNode _).1]
    rfl

/-- C5 (amended): when every scored element has an element as parent (as in every parsed
document), `getCandidates` builds its candidate set without a panic; a node has at most
one candidate, and it is the parent or the grandparent of at least one scored element.
Before the scaling by link density the score of a candidate is a float32, the result of
float32 additions; when 110 plus three times the sum of `commas + 5` over the scored
elements is under `2 ^ 24`, no addition rounds and the candidate of a node `k` holds the
score of `scoreNode` on `k` (counted once) plus the content scores of the scored elements
whose parent is `k` plus half the content scores of those whose grandparent is `k`. -/
theorem accumulatedCandidates_score (toLower : GoString → GoString) (doc : Node)
    (hdoc : ∀ s ∈ scoredElements doc, Selection.parent doc [s] ≠ []) :
    ∃ candidates, accumulatedCandidates toLower doc = some candidates ∧
      (candidates.map Prod.fst).Nodup ∧
      ∀ k c, (k, c) ∈ candidates →
        (∃ c0, scoreNode toLower doc [k] = some c0 ∧ c.selection = [k] ∧
          float32 c.score = c.score ∧
          (110 + 3 * ((scoredElements doc).map
              (fun s => (Selection.text doc [s]).count 44 + 5)).sum < 2 ^ 24 →
            c.score = c0.score + childrenScore doc k + grandChildrenScore doc k / 2)) ∧
        ∃ s ∈ scoredElements doc, Selection.parent doc [s] = [k] ∨
          Selection.parent doc (Selection.parent doc [s]) = [k] :=
  accumulatedCandidates_inv toLower doc hdoc

/-- Witness of C5 (amended) on the page with two blocks, where the scores are small. -/
theorem accumulatedCandidates_score_witness :
    (∀ s ∈ scoredElements docTwoBlocks, Selection.parent docTwoBlocks [s] ≠ []) ∧
      110 + 3 * ((scoredElements docTwoBlocks).map
        (fun s => (Selection.text docTwoBlocks [s]).count 44 + 5)).sum < 2 ^ 24 ∧
      ∃ candidates, accumulatedCandidates asciiToLower docTwoBlocks = some candidates ∧
        (candidates.map Prod.fst).Nodup ∧
        ∀ k c, (k, c) ∈ candidates →
          (∃ c0, scoreNode asciiToLower docTwoBlocks [k] = some c0 ∧ c.selection = [k] ∧
            float32 c.score = c.score ∧
            (110 + 3 * ((scoredElements docTwoBlocks).map
                (fun s => (Selection.text docTwoBlocks [s]).count 44 + 5)).sum < 2 ^ 24 →
              c.score = c0.score + childrenScore docTwoBlocks k +
                grandChildrenScore docTwoBlocks k / 2)) ∧
          ∃ s ∈ scoredElements docTwoBlocks, Selection.parent docTwoBlocks [s] = [k] ∨
            Selection.parent docTwoBlocks (Selection.parent docTwoBlocks [s]) = [k] :=
  ⟨by decide, by decide, accumulatedCandidates_score asciiToLower docTwoBlocks (by decide)⟩

/-! ## scoreNode and the renamed `div` elements -/

theorem scoreNode_eq (toLower : GoString → GoString) (doc : Node) (k : Path) (n : Node)
    (h : doc.get? k = some n) :
    scoreNode toLower doc [k] =
      some ⟨[k], tagScore n.dataAtom + getClassWeight toLower doc [k]⟩ := by
  simp [scoreNode, Selection.get0, h]

theorem tagScore_table :
    tagScore (str "div") = 5 ∧
      (∀ t ∈ [str "pre", str "td", str "blockquote", str "img"], tagScore t = 3) ∧
      (∀ t ∈ [str "address", str "ol", str "ul", str "dl", str "dd", str "dt", str "li",
        str "form"], tagScore t = -3) ∧
      (∀ t ∈ [str "h1", str "h2", str "h3", str "h4", str "h5", str "h6", str "th"],
        tagScore t = -5) ∧
      tagScore (str "p") = 0 ∧ tagScore (str "span") = 0 ∧ tagScore [] = 0 := by
  decide!

/-- C6 fails on the code: in `<body><div><h2>A heading of more than 25 bytes</h2></div>`
the pass `transformMisusedDivsIntoParagraphs` renames the `div` (its `Data` becomes "p",
its `DataAtom` stays "div"), it has no class and no id, and `scoreNode` gives it the
base score 5 of a `div` where a `p` has the base score 0; with the heading under it, its
accumulated score is 7 instead of 2. -/
theorem scoreNode_renamed_div :
    ((preprocess asciiToLower docDivHeading).get? [0, 1, 0]).map
        (fun n => (n.data, n.dataAtom)) = some (str "p", str "div") ∧
      getClassWeight asciiToLower (preprocess asciiToLower docDivHeading) [[0, 1, 0]] = 0 ∧
      (scoreNode asciiToLower (preprocess asciiToLower docDivHeading) [[0, 1, 0]]).map
        (fun c => c.score) = some 5 ∧
      tagScore (str "p") = 0 ∧
      (accumulatedCandidates asciiToLower (preprocess asciiToLower docDivHeading)).map
        (fun l => (candidateList.lookup [0, 1, 0] l).map (fun c => c.score)) =
          some (some 7) := by
  decide!

/-! ## The class and id weight -/

/-- C7: `getClassWeight` is the sum of the contribution of the class attribute and the
contribution of the id attribute, each being `attrWeight`: 0 when absent, -25 when the
lower-cased value contains a negative term, else +25 when it contains a positive term,
else 0. The value "article-footer" matches both lists and contributes -25; the result is
one of -50, -25, 0, 25, 50. -/
theorem getClassWeight_eq (toLower : GoString → GoString) (doc : Node) (s : Selection) :
    getClassWeight toLower doc s =
        ((attrWeight toLower (Selection.attr doc s (str "class")) +
          attrWeight toLower (Selection.attr doc s (str "id")) : Int) : ℚ) ∧
      attrWeight asciiToLower (some (str "article-footer")) = -25 ∧
      (matchString negativeTerms (str "article-footer") = true ∧
        matchString positiveTerms (str "article-footer") = true) ∧
      getClassWeight toLower doc s ∈ ({-50, -25, 0, 25, 50} : Set ℚ) := by
  have h : getClassWeight toLower doc s =
      ((attrWeight toLower (Selection.attr doc s (str "class")) +
        attrWeight toLower (Selection.attr doc s (str "id")) : Int) : ℚ) := by
    unfold getClassWeight attrWeight
    cases Selection.attr doc s (str "class") <;> cases Selection.attr doc s (str "id") <;>
      simp
    all_goals (split_ifs <;> norm_num)
  refine ⟨h, by decide, by decide, ?_⟩
  have hc : ∀ v, attrWeight toLower v = -25 ∨ attrWeight toLower v = 0 ∨
      attrWeight toLower v = 25 := by
    intro v
    cases v with
    | none => simp [attrWeight]
    | some v =>
      simp only [attrWeight]
      split_ifs <;> simp
  rw [h]
  rcases hc (Selection.attr doc s (str "class")) with h1 | h1 | h1 <;>
    rcases hc (Selection.attr doc s (str "id")) with h2 | h2 | h2 <;>
    rw [h1, h2] <;> norm_num

/-! ## Link density -/

theorem text_length (doc : Node) (s : Selection) :
    (Selection.text doc s).length = (s.map (fun p => (Selection.text doc [p]).length)).sum := by
  induction s with
  | nil => simp [Selection.text]
  | cons p s ih =>
    simp only [Selection.text, List.flatMap_cons, List.length_append, List.map_cons,
      List.sum_cons, List.flatMap_nil, List.append_nil] at ih ⊢
    rw [ih]

/-- C8 as stated fails by the rounding of float32: in `<p>Twenty-three bytes and
<a>2.</a></p>` the text has 25 bytes, 2 of them in the link, and `getLinkDensity`
returns 5368709/67108864, the float32 nearest to 2/25, not 2/25. -/
theorem getLinkDensity_rounded :
    (Selection.text docShortLink [[0, 1, 0]]).length = 25 ∧
      (Selection.text docShortLink
        (Selection.find docShortLink (isTag (str "a")) [[0, 1, 0]])).length = 2 ∧
      getLinkDensity docShortLink [[0, 1, 0]] = 5368709 / 67108864 ∧
      getLinkDensity docShortLink [[0, 1, 0]] ≠ 2 / 25 := by
  decide!

/-- C8 (amended): the link density of a selection without text is exactly 0; otherwise
it is the float32 quotient of the total text length of the descendant `a` elements by the
text length, both converted to float32: the float32 nearest to the exact quotient when
the lengths are within `2 ^ 24`. The last loop of `getCandidates` replaces every
accumulated score, once, by its float32 product with the float32 difference of 1 and the
density of its node; a candidate of density 0, its score being a float32 as every
accumulated score is, is left as it is. -/
theorem getLinkDensity_eq (toLower : GoString → GoString) (doc : Node) (s : Selection) :
    (getLinkDensity doc s =
        if (Selection.text doc s).length = 0 then 0
        else float32 (float32 (((Selection.find doc (isTag (str "a")) s).map
            (fun a => (Selection.text doc [a]).length)).sum : ℚ) /
          float32 ((Selection.text doc s).length : ℚ))) ∧
      ((Selection.text doc s).length ≠ 0 →
        (Selection.text doc (Selection.find doc (isTag (str "a")) s)).length ≤ 2 ^ 24 →
        (Selection.text doc s).length ≤ 2 ^ 24 →
        getLinkDensity doc s =
          float32 (((Selection.text doc (Selection.find doc (isTag (str "a")) s)).length : ℚ) /
            ((Selection.text doc s).length : ℚ))) ∧
      getCandidates toLower doc = (accumulatedCandidates toLower doc).map
        (fun acc => acc.map (fun e =>
          (e.1, ⟨e.2.selection,
            float32 (e.2.score * float32 (1 - getLinkDensity doc e.2.selection))⟩))) ∧
      (∀ c : candidate, float32 c.score = c.score → getLinkDensity doc c.selection = 0 →
        (⟨c.selection,
          float32 (c.score * float32 (1 - getLinkDensity doc c.selection))⟩ : candidate) = c) ∧
      ((∀ s ∈ scoredElements doc, Selection.parent doc [s] ≠ []) →
        ∃ acc, accumulatedCandidates toLower doc = some acc ∧
          ∀ e ∈ acc, float32 e.2.score = e.2.score) := by
  refine ⟨?_, ?_, ?_, ?_, ?_⟩
  · unfold getLinkDensity
    simp only
    split_ifs with h
    · rfl
    · rw [text_length doc (Selection.find doc (isTag (str "a")) s)]
  · intro h0 hl ht
    unfold getLinkDensity
    simp only [h0, if_false]
    rw [float32_natCast _ hl, float32_natCast _ ht]
  · unfold getCandidates scaleByLinkDensity
    cases accumulatedCandidates toLower doc <;> rfl
  · intro c hf h
    have h1 : float32 1 = 1 := by
      have := float32_natCast 1 (by norm_num)
      simpa using this
    rw [h]
    simp only [sub_zero, h1, mul_one, hf]
  · intro hdoc
    obtain ⟨acc, hacc, _, hall⟩ := accumulatedCandidates_inv toLower doc hdoc
    refine ⟨acc, hacc, ?_⟩
    intro e he
    obtain ⟨⟨c0, _, _, hf, _⟩, _⟩ := hall e.1 e.2 he
    exact hf

/-! ## The top candidate -/

theorem getTopCandidateLoop_some (b : candidate) (l : List candidate) :
    ∃ r, getTopCandidateLoop (some b) l = some r ∧ (r = b ∨ r ∈ l) ∧
      b.score ≤ r.score ∧ ∀ c ∈ l, c.score ≤ r.score := by
  induction l generalizing b with
  | nil => exact ⟨b, rfl, Or.inl rfl, le_refl _, by simp⟩
  | cons c l ih =>
    simp only [getTopCandidateLoop]
    split_ifs with h
    · obtain ⟨r, hr, hmem, hle, hall⟩ := ih c
      refine ⟨r, hr, Or.inr ?_, le_trans (le_of_lt h) hle, ?_⟩
      · rcases hmem with h' | h'
        · simp [h']
        · simp [h']
      · intro c' hc'
        rcases List.mem_cons.1 hc' with h' | h'
        · rw [h']; exact hle
        · exact hall c' h'
    · obtain ⟨r, hr, hmem, hle, hall⟩ := ih b
      refine ⟨r, hr, ?_, hle, ?_⟩
      · rcases hmem with h' | h'
        · exact Or.inl h'
        · exact Or.inr (by simp [h'])
      · intro c' hc'
        rcases List.mem_cons.1 hc' with h' | h'
        · rw [h']; exact le_trans (not_lt.1 h) hle
        · exact hall c' h'

theorem getTopCandidate_mem_max (doc : Node) (candidates : candidateList)
    (h : candidates ≠ []) :
    (∃ e ∈ candidates, getTopCandidate doc candidates = e.2) ∧
      ∀ e ∈ candidates, e.2.score ≤ (getTopCandidate doc candidates).score := by
  cases candidates with
  | nil => exact absurd rfl h
  | cons e rest =>
    obtain ⟨r, hr, hmem, hle, hall⟩ := getTopCandidateLoop_some e.2 (rest.map Prod.snd)
    have htop : getTopCandidate doc (e :: rest) = r := by
      simp [getTopCandidate, getTopCandidateLoop, hr]
    rw [htop]
    constructor
    · rcases hmem with h' | h'
      · exact ⟨e, by simp, h'⟩
      · obtain ⟨e', he', rfl⟩ := List.mem_map.1 h'
        exact ⟨e', by simp [he'], rfl⟩
    · intro e' he'
      rcases List.mem_cons.1 he' with h' | h'
      · rw [h']; exact hle
      · exact hall _ (List.mem_map.2 ⟨e', h', rfl⟩)

/-- C9: on a candidate set that is not empty, in whatever order it is iterated,
`getTopCandidate` returns one of its candidates, and no candidate has a greater score;
on the empty set it returns the selection of the `body` elements of the document with
score 0. -/
theorem getTopCandidate_max (doc : Node) (candidates : candidateList)
    (h : candidates ≠ []) :
    (∃ e ∈ candidates, getTopCandidate doc candidates = e.2) ∧
      (∀ e ∈ candidates, e.2.score ≤ (getTopCandidate doc candidates).score) ∧
      getTopCandidate doc [] = ⟨documentFind doc (isTag (str "body")), 0⟩ := by
  obtain ⟨hmem, hmax⟩ := getTopCandidate_mem_max doc candidates h
  exact ⟨hmem, hmax, rfl⟩

/-- Witness of C9 on a set of two candidates with the scores 1 and 2. -/
theorem getTopCandidate_max_witness :
    (getTopCandidate (document []) [([0], ⟨[[0]], 1⟩), ([0, 0], ⟨[[0, 0]], 2⟩)]).score = 2 := by
  obtain ⟨⟨e, he, heq⟩, hmax, _⟩ := getTopCandidate_max (document [])
    [([0], ⟨[[0]], 1⟩), ([0, 0], ⟨[[0, 0]], 2⟩)] (by simp)
  have h2 := hmax ([0, 0], ⟨[[0, 0]], 2⟩) (by simp)
  rw [heq] at h2 ⊢
  simp only [List.mem_cons, List.mem_singleton, List.not_mem_nil, or_false] at he
  rcases he with rfl | rfl
  · norm_num at h2
  · rfl

/-! ## The order of iteration of the candidate map -/

/-- C10 as stated fails: on the page with two blocks of the same shape the two `div`
candidates share the maximum score 7; iterating the candidate map in one order returns the
first `div`, iterating it in the reverse order, another order of the same map, returns the
second, and the extracted markup differs with the order. -/
theorem getTopCandidate_order_dependent :
    (getCandidates asciiToLower (preprocess asciiToLower docTwoBlocks)).map
        (fun l => ((getTopCandidate (preprocess asciiToLower docTwoBlocks) l).selection,
          (getTopCandidate (preprocess asciiToLower docTwoBlocks) l).score)) =
        some ([[0, 1, 0]], 7) ∧
      (getCandidates asciiToLower (preprocess asciiToLower docTwoBlocks)).map
        (fun l =>
          ((getTopCandidate (preprocess asciiToLower docTwoBlocks) l.reverse).selection,
            (getTopCandidate (preprocess asciiToLower docTwoBlocks) l.reverse).score)) =
        some ([[0, 1, 1]], 7) ∧
      ExtractContent asciiToLower (fun s => s) (fun _ => false) (fun l => l)
          (some docTwoBlocks) =
        ExtractResult.ok []
          (str "<div><div><p>The first block of text with 25 bytes or more.</p></div></div>") ∧
      ExtractContent asciiToLower (fun s => s) (fun _ => false) List.reverse
          (some docTwoBlocks) =
        ExtractResult.ok []
          (str "<div><div><p>The other block of text with 25 bytes or more.</p></div></div>") := by
  decide!

theorem getTopCandidateLoop_first (b : candidate) (l : candidateList) :
    (getTopCandidateLoop (some b) (l.map Prod.snd) = some b ∧
        ∀ x ∈ l, x.2.score ≤ b.score) ∨
      ∃ pre e post, l = pre ++ e :: post ∧
        getTopCandidateLoop (some b) (l.map Prod.snd) = some e.2 ∧ b.score < e.2.score ∧
        (∀ x ∈ pre, x.2.score < e.2.score) ∧ ∀ x ∈ post, x.2.score ≤ e.2.score := by
  induction l generalizing b with
  | nil => exact Or.inl ⟨rfl, by simp⟩
  | cons c l ih =>
    simp only [List.map, getTopCandidateLoop]
    by_cases h : b.score < c.2.score
    · rw [if_pos h]
      rcases ih c.2 with ⟨hr, hall⟩ | ⟨pre, e, post, hl, hr, hlt, hpre, hpost⟩
      · exact Or.inr ⟨[], c, l, rfl, hr, h, by simp, hall⟩
      · refine Or.inr ⟨c :: pre, e, post, by rw [hl]; rfl, hr, lt_trans h hlt, ?_, hpost⟩
        intro x hx
        rcases List.mem_cons.1 hx with rfl | hx
        · exact hlt
        · exact hpre x hx
    · rw [if_neg h]
      rcases ih b with ⟨hr, hall⟩ | ⟨pre, e, post, hl, hr, hlt, hpre, hpost⟩
      · refine Or.inl ⟨hr, ?_⟩
        intro x hx
        rcases List.mem_cons.1 hx with rfl | hx
        · exact not_lt.1 h
        · exact hall x hx
      · refine Or.inr ⟨c :: pre, e, post, by rw [hl]; rfl, hr, hlt, ?_, hpost⟩
        intro x hx
        rcases List.mem_cons.1 hx with rfl | hx
        · exact lt_of_le_of_lt (not_lt.1 h) hlt
        · exact hpre x hx

/-- On a candidate set that is not empty `getTopCandidate` returns the first entry, in the
order of iteration, that attains the maximum score. -/
theorem getTopCandidate_first (doc : Node) (l : candidateList) (h : l ≠ []) :
    ∃ pre e post, l = pre ++ e :: post ∧ getTopCandidate doc l = e.2 ∧
      (∀ x ∈ pre, x.2.score < e.2.score) ∧ ∀ x ∈ post, x.2.score ≤ e.2.score := by
  cases l with
  | nil => exact absurd rfl h
  | cons e0 rest =>
    have htop : ∀ r, getTopCandidateLoop (some e0.2) (rest.map Prod.snd) = some r →
        getTopCandidate doc (e0 :: rest) = r := by
      intro r hr
      simp [getTopCandidate, getTopCandidateLoop, hr]
    rcases getTopCandidateLoop_first e0.2 rest with
      ⟨hr, hall⟩ | ⟨pre, e, post, hl, hr, hlt, hpre, hpost⟩
    · exact ⟨[], e0, rest, rfl, htop _ hr, by simp, hall⟩
    · refine ⟨e0 :: pre, e, post, by rw [hl]; rfl, htop _ hr, ?_, hpost⟩
      intro x hx
      rcases List.mem_cons.1 hx with rfl | hx
      · exact hlt
      · exact hpre x hx

/-- Two orders of iteration of the same candidate map give candidates of the same score,
and the same candidate when a single entry attains the maximum. -/
theorem getTopCandidate_of_perm (doc : Node) (l₁ l₂ : candidateList) (hperm : l₁.Perm l₂) :
    (getTopCandidate doc l₁).score = (getTopCandidate doc l₂).score ∧
      ((∃ e ∈ l₁, ∀ e' ∈ l₁, e' ≠ e → e'.2.score < e.2.score) →
        getTopCandidate doc l₁ = getTopCandidate doc l₂) := by
  by_cases h1 : l₁ = []
  · subst h1
    have h2 : l₂ = [] := List.Perm.eq_nil (hperm.symm)
    subst h2
    exact ⟨rfl, fun _ => rfl⟩
  · have h2 : l₂ ≠ [] := by
      intro h
      subst h
      exact h1 (List.Perm.eq_nil hperm)
    obtain ⟨⟨e1, he1, hr1⟩, hmax1⟩ := getTopCandidate_mem_max doc l₁ h1
    obtain ⟨⟨e2, he2, hr2⟩, hmax2⟩ := getTopCandidate_mem_max doc l₂ h2
    constructor
    · apply le_antisymm
      · rw [hr1]
        exact hmax2 e1 (hperm.subset he1)
      · rw [hr2]
        exact hmax1 e2 (hperm.symm.subset he2)
    · rintro ⟨e, he, huniq⟩
      have h1e : e1 = e := by
        by_contra hne
        have hlt := huniq e1 he1 hne
        have hle := hmax1 e he
        rw [hr1] at hle
        exact absurd hlt (not_lt.2 hle)
      have h2e : e2 = e := by
        by_contra hne
        have hlt := huniq e2 (hperm.symm.subset he2) hne
        have hle := hmax2 e (hperm.subset he)
        rw [hr2] at hle
        exact absurd hlt (not_lt.2 hle)
      rw [hr1, hr2, h1e, h2e]

/-- When the candidate set of a page is empty or a single entry of it attains the maximum
score, `ExtractContent` returns the same result for every two orders of iteration of the
candidate map. -/
theorem ExtractContent_of_perm (toLower trimSpace : GoString → GoString)
    (isAbsoluteURL : GoString → Bool) (mapOrder₁ mapOrder₂ : candidateList → candidateList)
    (page : Option Node) (h₁ : ∀ l, (mapOrder₁ l).Perm l) (h₂ : ∀ l, (mapOrder₂ l).Perm l)
    (huniq : ∀ document candidates, page = some document →
      getCandidates toLower (preprocess toLower document) = some candidates →
      candidates = [] ∨ ∃ e ∈ candidates, ∀ e' ∈ candidates, e' ≠ e → e'.2.score < e.2.score) :
    ExtractContent toLower trimSpace isAbsoluteURL mapOrder₁ page =
      ExtractContent toLower trimSpace isAbsoluteURL mapOrder₂ page := by
  cases page with
  | none => rfl
  | some document =>
    cases hc : getCandidates toLower (preprocess toLower document) with
    | none =>
      have hc' := hc
      unfold preprocess at hc'
      simp only [ExtractContent, hc']
    | some candidates =>
      have htop : getTopCandidate (preprocess toLower document) (mapOrder₁ candidates) =
          getTopCandidate (preprocess toLower document) (mapOrder₂ candidates) := by
        have hperm : (mapOrder₁ candidates).Perm (mapOrder₂ candidates) :=
          (h₁ candidates).trans (h₂ candidates).symm
        rcases huniq document candidates rfl hc with hnil | ⟨e, he, hlt⟩
        · subst hnil
          rw [List.Perm.eq_nil (h₁ []), List.Perm.eq_nil (h₂ [])]
        · refine (getTopCandidate_of_perm _ _ _ hperm).2 ⟨e, (h₁ candidates).symm.subset he, ?_⟩
          intro e' he' hne
          exact hlt e' ((h₁ candidates).subset he') hne
      have hc' := hc
      have htop' := htop
      unfold preprocess at hc' htop'
      simp only [ExtractContent, hc', htop']

/-- C10 (amended): for two orders of iteration of the same candidate map,
`getTopCandidate` returns candidates of the same score, the maximum; it returns the same
candidate when a single entry attains the maximum; on a map that is not empty it returns
the first entry, in the order of iteration, that attains the maximum: the entries before
it have a smaller score and no entry after it has a greater one. And when the candidate
set of a page is empty or a single entry of it attains the maximum, `ExtractContent`
returns the same result, the same error or the same pair of `baseURL` and extracted
markup, for every two orders of iteration of the candidate map. -/
theorem getTopCandidate_perm (doc : Node) (l₁ l₂ : candidateList) (hperm : l₁.Perm l₂) :
    (getTopCandidate doc l₁).score = (getTopCandidate doc l₂).score ∧
      ((∃ e ∈ l₁, ∀ e' ∈ l₁, e' ≠ e → e'.2.score < e.2.score) →
        getTopCandidate doc l₁ = getTopCandidate doc l₂) ∧
      (l₁ ≠ [] → ∃ pre e post, l₁ = pre ++ e :: post ∧ getTopCandidate doc l₁ = e.2 ∧
        (∀ x ∈ pre, x.2.score < e.2.score) ∧ ∀ x ∈ post, x.2.score ≤ e.2.score) ∧
      ∀ (toLower trimSpace : GoString → GoString) (isAbsoluteURL : GoString → Bool)
        (mapOrder₁ mapOrder₂ : candidateList → candidateList) (page : Option Node),
        (∀ l, (mapOrder₁ l).Perm l) → (∀ l, (mapOrder₂ l).Perm l) →
        (∀ document candidates, page = some document →
          getCandidates toLower (preprocess toLower document) = some candidates →
          candidates = [] ∨
            ∃ e ∈ candidates, ∀ e' ∈ candidates, e' ≠ e → e'.2.score < e.2.score) →
        ExtractContent toLower trimSpace isAbsoluteURL mapOrder₁ page =
          ExtractContent toLower trimSpace isAbsoluteURL mapOrder₂ page :=
  ⟨(getTopCandidate_of_perm doc l₁ l₂ hperm).1, (getTopCandidate_of_perm doc l₁ l₂ hperm).2,
    getTopCandidate_first doc l₁,
    fun toLower trimSpace isAbsoluteURL mapOrder₁ mapOrder₂ page h₁ h₂ huniq =>
      ExtractContent_of_perm toLower trimSpace isAbsoluteURL mapOrder₁ mapOrder₂ page
        h₁ h₂ huniq⟩

/-- Witness of C10 (amended): two orders of a map with the scores 1 and 2. -/
theorem getTopCandidate_perm_witness :
    getTopCandidate (document []) [([0], ⟨[[0]], 1⟩), ([1], ⟨[[1]], 2⟩)] =
      getTopCandidate (document []) [([1], ⟨[[1]], 2⟩), ([0], ⟨[[0]], 1⟩)] :=
  (getTopCandidate_perm (document []) [([0], ⟨[[0]], 1⟩), ([1], ⟨[[1]], 2⟩)]
    [([1], ⟨[[1]], 2⟩), ([0], ⟨[[0]], 1⟩)] (List.Perm.swap _ _ [])).2.1
    ⟨([1], ⟨[[1]], 2⟩), by simp, by
      intro e' he' hne
      simp only [List.mem_cons, List.mem_singleton, List.not_mem_nil, or_false] at he'
      rcases he' with rfl | rfl
      · norm_num
      · exact absurd rfl hne⟩

/-! ## getArticle: which nodes are emitted -/

theorem isP_data {doc : Node} {node : Path} (h : Selection.isP doc node = true) :
    dataOf doc node = str "p" := by
  unfold Selection.isP at h
  unfold dataOf
  cases hn : doc.get? node with
  | none => simp [hn] at h
  | some n =>
    simp only [hn, isTag, Bool.and_eq_true, decide_eq_true_eq] at h
    exact h.2

theorem appendAndTag_top (doc : Node) (topCandidate : candidate)
    (candidates : candidateList) (threshold : ℚ) (node : Path)
    (h : IsTopCandidate topCandidate node) :
    appendAndTag doc topCandidate candidates threshold node = (true, str "div") := by
  unfold IsTopCandidate at h
  simp [appendAndTag, h]

theorem appendAndTag_score (doc : Node) (topCandidate : candidate)
    (candidates : candidateList) (node : Path)
    (h : HasQualifyingScore topCandidate candidates node) :
    appendAndTag doc topCandidate candidates (siblingScoreThreshold topCandidate) node =
      (true, str "div") := by
  obtain ⟨c, hc, hs⟩ := h
  have hs : c.score ≥ siblingScoreThreshold topCandidate := hs
  unfold appendAndTag
  by_cases h1 : some node = topCandidate.Node
  · simp [h1]
  · simp only [h1, if_false, hc, decide_eq_true_eq, hs, if_true]

theorem appendAndTag_rest (doc : Node) (topCandidate : candidate)
    (candidates : candidateList) (node : Path)
    (h1 : ¬ IsTopCandidate topCandidate node)
    (h2 : ¬ HasQualifyingScore topCandidate candidates node) :
    appendAndTag doc topCandidate candidates (siblingScoreThreshold topCandidate) node =
      if Selection.isP doc node then
        if (Selection.text doc [node]).length ≥ 80 then
          if getLinkDensity doc [node] < 1 / 4 then (true, dataOf doc node)
          else (false, dataOf doc node)
        else if getLinkDensity doc [node] = 0 then
          if containsSentence (Selection.text doc [node]) then (true, dataOf doc node)
          else (false, dataOf doc node)
        else (false, dataOf doc node)
      else (false, str "div") := by
  have h1' : ¬ some node = topCandidate.Node := fun e => h1 e.symm
  have h2' : (match candidates.lookup node with
      | some c => decide (c.score ≥ siblingScoreThreshold topCandidate)
      | none => false) = false := by
    cases hl : candidates.lookup node with
    | none => rfl
    | some c =>
      simp only [decide_eq_false_iff_not]
      intro hs
      exact h2 ⟨c, hl, hs⟩
  unfold appendAndTag
  simp only [h1', if_false, h2', Bool.false_eq_true]

theorem appendAndTag_paragraph (doc : Node) (topCandidate : candidate)
    (candidates : candidateList) (node : Path)
    (h1 : ¬ IsTopCandidate topCandidate node)
    (h2 : ¬ HasQualifyingScore topCandidate candidates node)
    (h3 : IsGoodParagraph doc node) :
    appendAndTag doc topCandidate candidates (siblingScoreThreshold topCandidate) node =
      (true, str "p") := by
  rw [appendAndTag_rest doc topCandidate candidates node h1 h2]
  obtain ⟨hp, hcase⟩ := h3
  rw [isP_data hp]
  simp only [hp, if_true]
  rcases hcase with ⟨hlen, hd⟩ | ⟨hlen, hd, hsent⟩
  · simp only [ge_iff_le, hlen, if_true, hd]
  · have hlen' : ¬ (Selection.text doc [node]).length ≥ 80 := not_le.2 hlen
    have hs : containsSentence (Selection.text doc [node]) = true := by
      simp only [containsSentence, Bool.or_eq_true]
      exact hsent
    simp only [hlen', if_false, hd, if_true, hs]

theorem appendAndTag_dropped (doc : Node) (topCandidate : candidate)
    (candidates : candidateList) (node : Path)
    (h1 : ¬ IsTopCandidate topCandidate node)
    (h2 : ¬ HasQualifyingScore topCandidate candidates node)
    (h3 : ¬ IsGoodParagraph doc node) :
    (appendAndTag doc topCandidate candidates (siblingScoreThreshold topCandidate) node).1 =
      false := by
  rw [appendAndTag_rest doc topCandidate candidates node h1 h2]
  unfold IsGoodParagraph at h3
  by_cases hp : Selection.isP doc node = true
  · simp only [hp, if_true]
    by_cases hlen : (Selection.text doc [node]).length ≥ 80
    · by_cases hd : getLinkDensity doc [node] < 1 / 4
      · exact absurd ⟨hp, Or.inl ⟨hlen, hd⟩⟩ h3
      · simp only [hlen, if_true, hd, if_false]
    · by_cases hd : getLinkDensity doc [node] = 0
      · by_cases hs : containsSentence (Selection.text doc [node]) = true
        · have hs' := hs
          simp only [containsSentence, Bool.or_eq_true] at hs'
          exact absurd ⟨hp, Or.inr ⟨not_le.1 hlen, hd, hs'⟩⟩ h3
        · simp [hlen, hd, hs]
      · simp only [hlen, if_false, hd]
  · simp only [hp, if_false, Bool.false_eq_true]

/-- C11 as stated fails by the rounding of float32: on the page of
`docSiblingAtThreshold` the first block is the top candidate with the score 51 and its
sibling block has the score 10695475/1048576, the float32 nearest to 10.2 and below it.
The sibling is no `p`, and its score is below `max(10, 51 / 5) = 10.2`; yet the code,
which divides in float32, finds it at the threshold and emits it. -/
theorem getArticle_threshold_rounded :
    (getCandidates asciiToLower (preprocess asciiToLower docSiblingAtThreshold)).map
        (fun l => l.map (fun e => (e.1, e.2.score))) =
        some [([0, 1], 2541263 / 65536), ([0], 13553403 / 1048576), ([0, 1, 0], 51),
          ([0, 1, 1], 10695475 / 1048576)] ∧
      (getCandidates asciiToLower (preprocess asciiToLower docSiblingAtThreshold)).map
        (fun l => ((getTopCandidate (preprocess asciiToLower docSiblingAtThreshold) l).selection,
          (getTopCandidate (preprocess asciiToLower docSiblingAtThreshold) l).score)) =
        some ([[0, 1, 0]], 51) ∧
      (10695475 / 1048576 : ℚ) < max 10 (51 / 5) ∧
      Selection.isP (preprocess asciiToLower docSiblingAtThreshold) [0, 1, 1] = false ∧
      ExtractContent asciiToLower (fun s => s) (fun _ => false) (fun l => l)
          (some docSiblingAtThreshold) =
        ExtractResult.ok [] (str ("<div><div><p>One, two, three, four, and then the rest " ++
          "of it all <a>link</a></p></div>" ++
          "<div><p>a,b,c,d,e,f,g,h,i,j,k,l,m,n,o,p,q,r,s,t</p></div></div>")) := by
  decide!

/-- C11 (amended): the threshold of the second case is `max(10, topCandidate.score / 5)`
with the quotient rounded to float32. For every node, the callback of `getArticle` emits
it exactly when it is the top candidate, or it has a candidate entry with a score of at
least that threshold, or it is a `p` element that passes the paragraph heuristics; the
wrapper tag is "div" in the first two cases and "p" in the third; a node in none of the
cases writes nothing; the output of `getArticle` is the concatenation of what the visited
nodes write, inside `<div>`. When the score of the top candidate is at most 50, or a
fifth of it is a float32, the threshold is the exact `max(10, topCandidate.score / 5)`. -/
theorem getArticle_emits (doc : Node) (topCandidate : candidate)
    (candidates : candidateList) (node : Path) :
    ((appendAndTag doc topCandidate candidates
          (max 10 (float32 (topCandidate.score / 5))) node).1 = true ↔
        IsTopCandidate topCandidate node ∨
          HasQualifyingScore topCandidate candidates node ∨ IsGoodParagraph doc node) ∧
      (IsTopCandidate topCandidate node ∨ HasQualifyingScore topCandidate candidates node →
        articleFragment doc topCandidate candidates
            (max 10 (float32 (topCandidate.score / 5))) node =
          wrapped doc (str "div") node) ∧
      (¬ IsTopCandidate topCandidate node →
        ¬ HasQualifyingScore topCandidate candidates node → IsGoodParagraph doc node →
        articleFragment doc topCandidate candidates
            (max 10 (float32 (topCandidate.score / 5))) node =
          wrapped doc (str "p") node) ∧
      (¬ IsTopCandidate topCandidate node →
        ¬ HasQualifyingScore topCandidate candidates node → ¬ IsGoodParagraph doc node →
        articleFragment doc topCandidate candidates
            (max 10 (float32 (topCandidate.score / 5))) node =
          []) ∧
      getArticle doc topCandidate candidates =
        (visitedNodes doc topCandidate).map (fun nodes =>
          str "<div>" ++ nodes.flatMap
            (articleFragment doc topCandidate candidates
              (max 10 (float32 (topCandidate.score / 5)))) ++
            str "</div>") ∧
      (topCandidate.score ≤ 50 ∨ IsFloat32 (topCandidate.score / 5) →
        (HasQualifyingScore topCandidate candidates node ↔
          ∃ c, candidates.lookup node = some c ∧ c.score ≥ max 10 (topCandidate.score / 5))) := by
  have hthreshold : max 10 (float32 (topCandidate.score / 5)) =
      siblingScoreThreshold topCandidate := rfl
  rw [hthreshold]
  refine ⟨?_, ?_, ?_, ?_, ?_, ?_⟩
  · by_cases h1 : IsTopCandidate topCandidate node
    · simp [appendAndTag_top doc topCandidate candidates _ node h1, h1]
    · by_cases h2 : HasQualifyingScore topCandidate candidates node
      · simp [appendAndTag_score doc topCandidate candidates node h2, h2]
      · by_cases h3 : IsGoodParagraph doc node
        · simp [appendAndTag_paragraph doc topCandidate candidates node h1 h2 h3, h3]
        · simp [appendAndTag_dropped doc topCandidate candidates node h1 h2 h3, h1, h2, h3]
  · intro h
    unfold articleFragment
    rcases h with h | h
    · rw [appendAndTag_top doc topCandidate candidates _ node h]
      rfl
    · rw [appendAndTag_score doc topCandidate candidates node h]
      rfl
  · intro h1 h2 h3
    unfold articleFragment
    rw [appendAndTag_paragraph doc topCandidate candidates node h1 h2 h3]
    rfl
  · intro h1 h2 h3
    have h := appendAndTag_dropped doc topCandidate candidates node h1 h2 h3
    unfold articleFragment
    cases hx : appendAndTag doc topCandidate candidates (siblingScoreThreshold topCandidate)
      node with
    | mk a t =>
      rw [hx] at h
      simp only at h
      subst h
      rfl
  · unfold getArticle
    cases visitedNodes doc topCandidate <;> rfl
  · intro h
    have hthr : max 10 (float32 (topCandidate.score / 5)) = max 10 (topCandidate.score / 5) := by
      rcases h with h | h
      · have h10 : float32 10 = 10 := by
          have := float32_natCast 10 (by norm_num)
          simpa using this
        have h1 : topCandidate.score / 5 ≤ 10 := by linarith
        have h2 : float32 (topCandidate.score / 5) ≤ 10 := by
          rw [← h10]
          exact float32_mono _ _ h1
        rw [max_eq_left h1, max_eq_left h2]
      · rw [float32_of_isFloat32 _ h]
    unfold HasQualifyingScore
    rw [hthr]

/-! ## getArticle: the order of the fragments -/

theorem siblingsLoop_mem (p skip : Path) (cs : List Node) (i : Nat) :
    ∀ x ∈ siblingsLoop p skip cs i, x ≠ skip ∧ ∃ k, i ≤ k ∧ x = p ++ [k] := by
  induction cs generalizing i with
  | nil => simp [siblingsLoop]
  | cons c cs ih =>
    intro x hx
    simp only [siblingsLoop, List.mem_append] at hx
    rcases hx with h | h
    · split_ifs at h with hc
      · simp only [List.mem_singleton] at h
        subst h
        exact ⟨hc.1, i, le_refl _, rfl⟩
      · simp at h
    · obtain ⟨hne, k, hk, hx⟩ := ih (i + 1) x h
      exact ⟨hne, k, by omega, hx⟩

theorem siblingsLoop_pairwise (p skip : Path) (cs : List Node) (i : Nat) :
    (siblingsLoop p skip cs i).Pairwise (SiblingBefore p) := by
  induction cs generalizing i with
  | nil => simp [siblingsLoop]
  | cons c cs ih =>
    simp only [siblingsLoop]
    split_ifs with hc
    · simp only [List.singleton_append, List.pairwise_cons]
      refine ⟨?_, ih (i + 1)⟩
      intro x hx
      obtain ⟨_, k, hk, hx⟩ := siblingsLoop_mem p skip cs (i + 1) x hx
      exact ⟨i, k, rfl, hx, by omega⟩
    · simpa using ih (i + 1)

theorem appendWithoutDuplicates_nil (a : List Path) : appendWithoutDuplicates a [] = a := rfl

theorem appendWithoutDuplicates_singleton (a : List Path) (t : Path) (h : t ∉ a) :
    appendWithoutDuplicates a [t] = a ++ [t] := by
  simp [appendWithoutDuplicates, h]

theorem visitedNodes_single (doc : Node) (topCandidate : candidate) (t : Path)
    (sibs : List Path) (hsel : topCandidate.selection = [t])
    (hsib : siblingsOf doc t = some sibs) :
    visitedNodes doc topCandidate = some (sibs ++ [t]) ∧ t ∉ sibs ∧
      sibs.Pairwise (SiblingBefore t.dropLast) := by
  unfold siblingsOf at hsib
  split_ifs at hsib with ht
  cases hn : doc.get? t.dropLast with
  | none => simp [hn] at hsib
  | some parent =>
    simp only [hn, Option.some.injEq] at hsib
    have hnot : t ∉ sibs := by
      intro hmem
      rw [← hsib] at hmem
      exact (siblingsLoop_mem _ _ _ _ t hmem).1 rfl
    refine ⟨?_, hnot, ?_⟩
    · have hs : siblingsOf doc t = some sibs := by
        simp [siblingsOf, ht, hn, hsib]
      simp only [visitedNodes, hsel, Selection.siblings, hs, appendWithoutDuplicates_nil,
        Selection.union, appendWithoutDuplicates_singleton sibs t hnot]
    · rw [← hsib]
      exact siblingsLoop_pairwise _ _ _ _

/-- C12 as stated fails: in `<body><div><p>The first block...</p></div><p>After.</p>`
the `div` is the top candidate and the paragraph that follows it in the document is
emitted, yet its fragment comes before the fragment of the top candidate in the output. -/
theorem getArticle_sibling_before_top :
    (getCandidates asciiToLower (preprocess asciiToLower docBlockThenParagraph)).map
        (fun l => (getTopCandidate (preprocess asciiToLower docBlockThenParagraph) l).selection) =
        some [[0, 1, 0]] ∧
      (getCandidates asciiToLower (preprocess asciiToLower docBlockThenParagraph)).map
        (fun l => visitedNodes (preprocess asciiToLower docBlockThenParagraph)
          (getTopCandidate (preprocess asciiToLower docBlockThenParagraph) l)) =
        some (some [[0, 1, 1], [0, 1, 0]]) ∧
      ExtractContent asciiToLower (fun s => s) (fun _ => false) (fun l => l)
          (some docBlockThenParagraph) =
        ExtractResult.ok [] (str ("<div><p>After.</p>" ++
          "<div><p>The first block of text with 25 bytes or more.</p></div></div>")) := by
  decide!

/-- C12 (amended): for a top candidate of one node, `getArticle` visits the sibling
elements of the top candidate in document order and the top candidate itself after them,
and concatenates the fragments in that order: the output is `<div>`, what the siblings
write in document order, the fragment of the top candidate as a `div`, and `</div>`. -/
theorem getArticle_order (doc : Node) (topCandidate : candidate)
    (candidates : candidateList) (t : Path) (sibs : List Path)
    (hsel : topCandidate.selection = [t]) (hsib : siblingsOf doc t = some sibs) :
    sibs.Pairwise (SiblingBefore t.dropLast) ∧ t ∉ sibs ∧
      getArticle doc topCandidate candidates =
        some (str "<div>" ++
          sibs.flatMap
            (articleFragment doc topCandidate candidates
              (max 10 (float32 (topCandidate.score / 5)))) ++
          wrapped doc (str "div") t ++ str "</div>") := by
  obtain ⟨hv, hnot, hpair⟩ := visitedNodes_single doc topCandidate t sibs hsel hsib
  refine ⟨hpair, hnot, ?_⟩
  have htop : IsTopCandidate topCandidate t := by
    simp [IsTopCandidate, candidate.Node, Selection.get0, hsel]
  have hfrag : articleFragment doc topCandidate candidates
      (max 10 (float32 (topCandidate.score / 5))) t = wrapped doc (str "div") t := by
    unfold articleFragment
    rw [appendAndTag_top doc topCandidate candidates _ t htop]
    rfl
  simp only [getArticle, siblingScoreThreshold, hv, List.flatMap_append, List.flatMap_cons, List.flatMap_nil,
    List.append_nil, hfrag, List.append_assoc]

/-- Witness of C12 (amended) on the page with a block followed by a short paragraph. -/
theorem getArticle_order_witness :
    getArticle docBlockThenParagraph ⟨[[0, 1, 0]], 7⟩ [] =
      some (str "<div>" ++
        [[0, 1, 1]].flatMap (articleFragment docBlockThenParagraph ⟨[[0, 1, 0]], 7⟩ []
          (max 10 (float32 ((7 : ℚ) / 5)))) ++
        wrapped docBlockThenParagraph (str "div") [0, 1, 0] ++ str "</div>") :=
  (getArticle_order docBlockThenParagraph ⟨[[0, 1, 0]], 7⟩ [] [0, 1, 0] [[0, 1, 1]] rfl
    (by decide)).2.2

/-! ## ExtractContent on a page without a scored element -/

/-- C13 as stated fails: on the parse of `<html><body><div>short</div></body></html>`
the extracted content is not `<div></div>`: the `body`, taken as top candidate, is always
emitted, with the renamed `div` inside. -/
theorem ExtractContent_short_not_empty :
    ExtractContent asciiToLower (fun s => s) (fun _ => false) (fun l => l) (some docShort) ≠
        ExtractResult.ok [] (str "<div></div>") ∧
      ExtractContent asciiToLower (fun s => s) (fun _ => false) (fun l => l) (some docShort) =
        ExtractResult.ok [] (str "<div><div><p>short</p></div></div>") := by
  decide!

/-- C13 (amended): on the parse of `<html><body><div>short</div></body></html>`,
whatever the order of iteration of the (empty) candidate map, `ExtractContent` returns
no error, an empty base URL and the content `<div><div><p>short</p></div></div>`. -/
theorem ExtractContent_short (toLower trimSpace : GoString → GoString)
    (isAbsoluteURL : GoString → Bool) (mapOrder : candidateList → candidateList)
    (h : ∀ l, (mapOrder l).Perm l) :
    ExtractContent toLower trimSpace isAbsoluteURL mapOrder (some docShort) =
      ExtractResult.ok [] (str "<div><div><p>short</p></div></div>") := by
  have hnil : mapOrder [] = [] := List.Perm.eq_nil (h [])
  have hpre : removeUnlikelyCandidates toLower
      (transformMisusedDivsIntoParagraphs (removeScriptAndStyle docShort)) =
      transformMisusedDivsIntoParagraphs docShort := by
    rfl
  have hcand : getCandidates toLower (transformMisusedDivsIntoParagraphs docShort) =
      some [] := by
    rfl
  have hbase : baseURLOf trimSpace isAbsoluteURL docShort = [] := by
    rfl
  simp only [ExtractContent, hpre, hcand, hnil, hbase]
  rfl

/-- Witness of C13 (amended) with the map iterated in the order of the list. -/
theorem ExtractContent_short_witness :
    ExtractContent asciiToLower (fun s => s) (fun _ => false) (fun l => l) (some docShort) =
      ExtractResult.ok [] (str "<div><div><p>short</p></div></div>") :=
  ExtractContent_short asciiToLower (fun s => s) (fun _ => false) (fun l => l)
    (fun l => List.Perm.refl l)

/-! ## Monotonicity of the content score -/

/-- C16 as stated fails beyond the precision of float32: a text of 16777215 commas and
the same text followed by one more comma both have the content score 16777220, so the
extra comma does not increase what the element adds to the score of its parent; and for
a text of 16777214 commas the score exceeds the base point and the comma points by 4,
more than the cap 3 of the length part. -/
theorem contentScore_not_strict :
    25 ≤ (List.replicate 16777215 (44 : UInt8)).length ∧
      0 < ([44] : GoString).count 44 ∧
      contentScore (List.replicate 16777215 44) = 16777220 ∧
      contentScore (List.replicate 16777215 44 ++ [44]) = 16777220 ∧
      ¬ contentScore (List.replicate 16777215 44) <
        contentScore (List.replicate 16777215 44 ++ [44]) ∧
      contentScore (List.replicate 16777214 44) -
        (1 + (((List.replicate 16777214 (44 : UInt8)).count 44 + 1 : Nat) : ℚ)) = 4 := by
  have key : ∀ t : GoString, t.count 44 = 16777215 → t.length = 16777215 →
      contentScore t = 16777220 ∧ contentScore (t ++ [44]) = 16777220 := by
    intro t hc hl
    simp only [contentScore, List.count_append, List.length_append, hc, hl,
      List.count_cons_self, List.count_nil, List.length_cons, List.length_nil]
    decide!
  have h := key (List.replicate 16777215 44) (List.count_replicate_self _ _)
    (List.length_replicate _ _)
  refine ⟨?_, by decide, h.1, h.2, ?_, ?_⟩
  · rw [List.length_replicate]
    decide
  · rw [h.1, h.2]
    exact lt_irrefl _
  · simp only [contentScore, List.count_replicate_self, List.length_replicate]
    decide!

/-- C16 (amended): when the number of commas of the extended text plus 5 is not above
`2 ^ 24`, appending to a text an extra text with at least one comma strictly increases
the content score (what the element adds to the score of its parent). Without a bound,
of two texts the one with no fewer commas and no fewer bytes never has the smaller
content score; the length operand of the sum never exceeds 3; and within the bound the
score exceeds the base point and the comma points by at most 3. -/
theorem contentScore_mono (t u : GoString) (ht : 25 ≤ t.length) (hu : 0 < u.count 44)
    (hb : (t ++ u).count 44 + 5 ≤ 2 ^ 24) :
    contentScore t < contentScore (t ++ u) ∧
      (∀ a b : GoString, a.count 44 ≤ b.count 44 → a.length ≤ b.length →
        contentScore a ≤ contentScore b) ∧
      (∀ a : GoString, float32 ((min (a.length / 100) 3 : Nat) : ℚ) ≤ 3) ∧
      ∀ a : GoString, a.count 44 + 5 ≤ 2 ^ 24 →
        contentScore a - (1 + ((a.count 44 + 1 : Nat) : ℚ)) ≤ 3 := by
  have hcount : (t ++ u).count 44 = t.count 44 + u.count 44 := List.count_append _ _ _
  refine ⟨?_, ?_, ?_, ?_⟩
  · rw [contentScore_exact t (by omega), contentScore_exact (t ++ u) hb]
    have hlen : t.length / 100 ≤ (t ++ u).length / 100 := by
      apply Nat.div_le_div_right
      simp
    exact_mod_cast (by omega :
      2 + t.count 44 + min (t.length / 100) 3 <
        2 + (t ++ u).count 44 + min ((t ++ u).length / 100) 3)
  · intro a b hc hl
    exact contentScore_le a b hc hl
  · intro a
    rw [float32_natCast _ (by omega)]
    exact_mod_cast (Nat.min_le_right _ _)
  · intro a ha
    rw [contentScore_exact a ha]
    have h3 : ((min (a.length / 100) 3 : Nat) : ℚ) ≤ 3 := by
      exact_mod_cast (Nat.min_le_right _ _)
    push_cast at h3 ⊢
    linarith

/-- Witness of C16 (amended): a text of 25 bytes and an extra text with one comma. -/
theorem contentScore_mono_witness :
    contentScore (str "Twenty-five bytes of text") <
      contentScore (str "Twenty-five bytes of text" ++ str ", more") :=
  (contentScore_mono (str "Twenty-five bytes of text") (str ", more")
    (by decide) (by decide) (by decide)).1

/-! ## The range of the link density -/

theorem getLinkDensity_nonneg (doc : Node) (s : Selection) : 0 ≤ getLinkDensity doc s := by
  unfold getLinkDensity
  simp only
  split_ifs
  · exact le_refl _
  · exact float32_nonneg _
      (div_nonneg (float32_nonneg _ (Nat.cast_nonneg _)) (float32_nonneg _ (Nat.cast_nonneg _)))

/-- C17 fails on the code: in `<div><a>x<table><tr><td><a>(40 bytes)</a></td></tr></table>
</a><p>(25 bytes)</p></div>` the text of the inner anchor is counted once for each of
the two anchors around it, the link density of the `div` is the float32 quotient of 81
by 66, 5147555/4194304, above 1, and the scaling turns its accumulated score 7 into the
negative score -6672757/4194304. -/
theorem getLinkDensity_above_one :
    getLinkDensity (preprocess asciiToLower docNestedAnchors) [[0, 1, 0]] =
        5147555 / 4194304 ∧
      (1 : ℚ) < 5147555 / 4194304 ∧
      (accumulatedCandidates asciiToLower (preprocess asciiToLower docNestedAnchors)).map
        (fun l => (candidateList.lookup [0, 1, 0] l).map (fun c => c.score)) =
          some (some 7) ∧
      (getCandidates asciiToLower (preprocess asciiToLower docNestedAnchors)).map
        (fun l => (candidateList.lookup [0, 1, 0] l).map (fun c => c.score)) =
          some (some (-6672757 / 4194304)) ∧
      (-6672757 / 4194304 : ℚ) < 0 := by
  decide!

/-! ## transformMisusedDivsIntoParagraphs: the pass node by node -/

theorem get?_cons (t : NodeType) (a d ns : GoString) (attrs : List Attribute)
    (cs : List Node) (i : Nat) (p : Path) :
    (Node.mk t a d ns attrs cs).get? (i :: p) = (cs[i]?).bind (fun c => c.get? p) := by
  simp only [Node.get?, Node.children, List.get?_eq_getElem?]
  cases cs[i]? <;> rfl

theorem replaceAtChild_eq (cs : List Node) (i : Nat) (p : Path) (x c : Node)
    (h : cs[i]? = some c) :
    replaceAtChild cs i p x = cs.set i (replaceAt c p x) := by
  induction cs generalizing i with
  | nil => simp at h
  | cons c' cs ih =>
    cases i with
    | zero =>
      simp only [List.getElem?_cons_zero, Option.some.injEq] at h
      subst h
      simp [replaceAtChild]
    | succ i =>
      simp only [List.getElem?_cons_succ] at h
      simp [replaceAtChild, ih i h]

theorem setDataChild_eq (cs : List Node) (i : Nat) (p : Path) (v : GoString) (c : Node)
    (h : cs[i]? = some c) :
    setDataChild cs i p v = cs.set i (setData c p v) := by
  induction cs generalizing i with
  | nil => simp at h
  | cons c' cs ih =>
    cases i with
    | zero =>
      simp only [List.getElem?_cons_zero, Option.some.injEq] at h
      subst h
      simp [setDataChild]
    | succ i =>
      simp only [List.getElem?_cons_succ] at h
      simp [setDataChild, ih i h]

/-- The node with its tag name replaced. -/
theorem setData_eq_replaceAt (doc : Node) (p : Path) (v : GoString) (t : NodeType)
    (a d ns : GoString) (attrs : List Attribute) (cs : List Node)
    (h : doc.get? p = some (.mk t a d ns attrs cs)) :
    setData doc p v = replaceAt doc p (.mk t a v ns attrs cs) := by
  induction p generalizing doc with
  | nil =>
    simp only [Node.get?, Option.some.injEq] at h
    subst h
    simp [setData, replaceAt]
  | cons i p ih =>
    obtain ⟨t', a', d', ns', attrs', cs'⟩ := doc
    rw [get?_cons] at h
    cases hc : cs'[i]? with
    | none => simp [hc] at h
    | some c =>
      simp only [hc, Option.some_bind] at h
      simp only [setData, replaceAt, setDataChild_eq cs' i p v c hc,
        replaceAtChild_eq cs' i p _ c hc, ih c h]

theorem get?_replaceAt (doc : Node) (p : Path) (x : Node) (h : (doc.get? p).isSome) :
    (replaceAt doc p x).get? p = some x := by
  induction p generalizing doc with
  | nil => simp [replaceAt, Node.get?]
  | cons i p ih =>
    obtain ⟨t', a', d', ns', attrs', cs'⟩ := doc
    rw [get?_cons] at h
    cases hc : cs'[i]? with
    | none => simp [hc] at h
    | some c =>
      simp only [hc, Option.some_bind] at h
      have hi : i < cs'.length := (List.getElem?_eq_some_iff.1 hc).1
      simp only [replaceAt, replaceAtChild_eq cs' i p x c hc]
      rw [get?_cons]
      simp [List.getElem?_set, hi, ih c h]

theorem replaceAt_replaceAt (doc : Node) (p : Path) (x y : Node) (h : (doc.get? p).isSome) :
    replaceAt (replaceAt doc p x) p y = replaceAt doc p y := by
  induction p generalizing doc with
  | nil => simp [replaceAt]
  | cons i p ih =>
    obtain ⟨t', a', d', ns', attrs', cs'⟩ := doc
    rw [get?_cons] at h
    cases hc : cs'[i]? with
    | none => simp [hc] at h
    | some c =>
      simp only [hc, Option.some_bind] at h
      have hi : i < cs'.length := (List.getElem?_eq_some_iff.1 hc).1
      have hc' : (cs'.set i (replaceAt c p x))[i]? = some (replaceAt c p x) := by
        simp [List.getElem?_set, hi]
      simp only [replaceAt, replaceAtChild_eq cs' i p x c hc,
        replaceAtChild_eq _ i p y _ hc', replaceAtChild_eq cs' i p y c hc, ih c h,
        List.set_set]

/-- Replacing the child `i` of the node at `p`. -/
theorem replaceAt_snoc (doc : Node) (p : Path) (i : Nat) (x : Node) (t : NodeType)
    (a d ns : GoString) (attrs : List Attribute) (cs : List Node)
    (h : doc.get? p = some (.mk t a d ns attrs cs)) (hi : i < cs.length) :
    replaceAt doc (p ++ [i]) x = replaceAt doc p (.mk t a d ns attrs (cs.set i x)) := by
  induction p generalizing doc with
  | nil =>
    simp only [Node.get?, Option.some.injEq] at h
    subst h
    have hc : cs[i]? = some cs[i] := List.getElem?_eq_getElem hi
    simp [replaceAt, replaceAtChild_eq cs i [] x _ hc]
  | cons j p ih =>
    obtain ⟨t', a', d', ns', attrs', cs'⟩ := doc
    rw [get?_cons] at h
    cases hc : cs'[j]? with
    | none => simp [hc] at h
    | some c =>
      simp only [hc, Option.some_bind] at h
      simp only [List.cons_append, replaceAt, replaceAtChild_eq cs' j _ x c hc,
        replaceAtChild_eq cs' j p _ c hc, ih c h]

theorem set_getElem_same {α : Type} (l : List α) (i : Nat) (h : i < l.length) :
    l.set i l[i] = l := by
  apply List.ext_getElem (by simp)
  intro j h1 h2
  by_cases hij : i = j
  · subst hij
    simp
  · simp [List.getElem_set, hij]

theorem replaceAt_self (doc : Node) (p : Path) (n : Node) (h : doc.get? p = some n) :
    replaceAt doc p n = doc := by
  induction p generalizing doc with
  | nil =>
    simp only [Node.get?, Option.some.injEq] at h
    subst h
    simp [replaceAt]
  | cons i p ih =>
    obtain ⟨t', a', d', ns', attrs', cs'⟩ := doc
    rw [get?_cons] at h
    cases hc : cs'[i]? with
    | none => simp [hc] at h
    | some c =>
      simp only [hc, Option.some_bind] at h
      have hi : i < cs'.length := (List.getElem?_eq_some_iff.1 hc).1
      have hci : cs'[i] = c := (List.getElem?_eq_some_iff.1 hc).2
      simp only [replaceAt, replaceAtChild_eq cs' i p n c hc, ih c h]
      rw [← hci, set_getElem_same cs' i hi]

theorem html_eq (doc : Node) (p : Path) (n : Node) (h : doc.get? p = some n) :
    Selection.html doc [p] = (htmlChildren n.children).getD [] := by
  simp [Selection.html, h]

/-- One step of the pass on a node whose subtree is still as parsed. -/
theorem transformStep_eq (doc : Node) (p : Path) (t : NodeType) (a d ns : GoString)
    (attrs : List Attribute) (cs : List Node)
    (h : doc.get? p = some (.mk t a d ns attrs cs))
    (hdiv : isTag (str "div") (.mk t a d ns attrs cs) = true) :
    transformStep doc p =
      replaceAt doc p (.mk t a (if isMisusedDiv t d cs then str "p" else d) ns attrs cs) := by
  have hd : t = NodeType.ElementNode ∧ d = str "div" := by
    simpa [isTag, Node.type, Node.data] using hdiv
  unfold transformStep
  simp only [html_eq doc p _ h, Node.children]
  by_cases hm : divToPElementsRegexpMatch ((htmlChildren cs).getD []) = true
  · have hmis : isMisusedDiv t d cs = false := by simp [isMisusedDiv, hm]
    simp only [hm, hmis, Bool.not_true, Bool.false_eq_true, if_false]
    exact (replaceAt_self doc p _ h).symm
  · have hm' : divToPElementsRegexpMatch ((htmlChildren cs).getD []) = false := by
      simpa using hm
    have hmis : isMisusedDiv t d cs = true := by simp [isMisusedDiv, hm', hd.1, hd.2]
    simp only [hm', hmis, Bool.not_false, if_true]
    exact setData_eq_replaceAt doc p (str "p") t a d ns attrs cs h

theorem isMisusedDiv_false_of_not_div (t : NodeType) (a d ns : GoString)
    (attrs : List Attribute) (cs : List Node)
    (hdiv : ¬ isTag (str "div") (.mk t a d ns attrs cs) = true) :
    isMisusedDiv t d cs = false := by
  simp only [isTag, Node.type, Node.data, Bool.and_eq_true, decide_eq_true_eq] at hdiv
  simp only [isMisusedDiv, Bool.and_eq_false_imp, Bool.and_eq_true, decide_eq_true_eq]
  intro h
  exact absurd h hdiv

mutual
theorem fold_matchAll : ∀ (n doc : Node) (p : Path), doc.get? p = some n →
    (matchAll (isTag (str "div")) n p).foldl transformStep doc =
      replaceAt doc p (renameNode n)
  | .mk t a d ns attrs cs, doc, p, h => by
    have hstep : (if isTag (str "div") (.mk t a d ns attrs cs) = true then [p]
        else []).foldl transformStep doc =
        replaceAt doc p (.mk t a (if isMisusedDiv t d cs then str "p" else d) ns attrs cs) := by
      by_cases hdiv : isTag (str "div") (.mk t a d ns attrs cs) = true
      · simp only [hdiv, if_true, List.foldl_cons, List.foldl_nil]
        exact transformStep_eq doc p t a d ns attrs cs h hdiv
      · simp only [hdiv, if_false, List.foldl_nil,
          isMisusedDiv_false_of_not_div t a d ns attrs cs hdiv, Bool.false_eq_true]
        exact (replaceAt_self doc p _ h).symm
    have hp : (doc.get? p).isSome := by simp [h]
    simp only [matchAll, List.foldl_append, hstep]
    have h1 := fold_matchAllChildren cs
      (replaceAt doc p (.mk t a (if isMisusedDiv t d cs then str "p" else d) ns attrs cs))
      p t a (if isMisusedDiv t d cs then str "p" else d) ns attrs []
      (by simpa using get?_replaceAt doc p _ hp)
    simp only [List.length_nil, List.nil_append] at h1
    rw [h1, replaceAt_replaceAt doc p _ _ hp]
    simp [renameNode]
theorem fold_matchAllChildren : ∀ (cs : List Node) (doc : Node) (p : Path) (t : NodeType)
    (a d ns : GoString) (attrs : List Attribute) (pre : List Node),
    doc.get? p = some (.mk t a d ns attrs (pre ++ cs)) →
    (matchAllChildren (isTag (str "div")) cs p pre.length).foldl transformStep doc =
      replaceAt doc p (.mk t a d ns attrs (pre ++ renameChildren cs))
  | [], doc, p, t, a, d, ns, attrs, pre, h => by
    simp only [matchAllChildren, List.foldl_nil, renameChildren]
    exact (replaceAt_self doc p _ h).symm
  | c :: rest, doc, p, t, a, d, ns, attrs, pre, h => by
    have hp : (doc.get? p).isSome := by simp [h]
    have hc : doc.get? (p ++ [pre.length]) = some c := by
      rw [get?_append, h]
      simp only [Option.some_bind]
      rw [get?_cons]
      have hlen : pre.length < (pre ++ c :: rest).length := by simp
      rw [List.getElem?_eq_getElem hlen, List.getElem_append_right (le_refl _)]
      simp [Node.get?]
    have h1 := fold_matchAll c doc (p ++ [pre.length]) hc
    have hset : (pre ++ c :: rest).set pre.length (renameNode c) =
        (pre ++ [renameNode c]) ++ rest := by
      simp [List.set_append_right]
    rw [replaceAt_snoc doc p pre.length _ t a d ns attrs (pre ++ c :: rest) h (by simp),
      hset] at h1
    have h2 := fold_matchAllChildren rest
      (replaceAt doc p (.mk t a d ns attrs ((pre ++ [renameNode c]) ++ rest))) p t a d ns attrs
      (pre ++ [renameNode c]) (get?_replaceAt doc p _ hp)
    simp only [List.length_append, List.length_singleton] at h2
    simp only [matchAllChildren, List.foldl_append, h1, h2,
      replaceAt_replaceAt doc p _ _ hp, renameChildren]
    simp
end

theorem snoc_prefix_unique {p x : Path} {i k : Nat} (h1 : (p ++ [i]) <+: x)
    (h2 : (p ++ [k]) <+: x) : i = k := by
  have hlen : (p ++ [i]).length ≤ (p ++ [k]).length := by simp
  have hpre := List.prefix_of_prefix_length_le h1 h2 hlen
  have heq := hpre.eq_of_length (by simp)
  simpa using heq

mutual
theorem mem_matchAll (m : Node → Bool) : ∀ (n : Node) (p x : Path),
    x ∈ matchAll m n p → p <+: x
  | .mk t a d ns attrs cs, p, x, h => by
    simp only [matchAll, List.mem_append] at h
    rcases h with h | h
    · split_ifs at h
      · simp only [List.mem_singleton] at h
        rw [h]
      · simp at h
    · obtain ⟨k, _, hk⟩ := mem_matchAllChildren m cs p 0 x h
      exact (List.prefix_append p [k]).trans hk
theorem mem_matchAllChildren (m : Node → Bool) : ∀ (cs : List Node) (p : Path) (i : Nat)
    (x : Path), x ∈ matchAllChildren m cs p i → ∃ k, i ≤ k ∧ (p ++ [k]) <+: x
  | [], p, i, x, h => by simp [matchAllChildren] at h
  | c :: rest, p, i, x, h => by
    simp only [matchAllChildren, List.mem_append] at h
    rcases h with h | h
    · exact ⟨i, le_refl _, mem_matchAll m c (p ++ [i]) x h⟩
    · obtain ⟨k, hk, hx⟩ := mem_matchAllChildren m rest p (i + 1) x h
      exact ⟨k, by omega, hx⟩
end

mutual
theorem nodup_matchAll (m : Node → Bool) : ∀ (n : Node) (p : Path),
    (matchAll m n p).Nodup
  | .mk t a d ns attrs cs, p => by
    simp only [matchAll]
    rw [List.nodup_append]
    refine ⟨by split_ifs <;> simp, nodup_matchAllChildren m cs p 0, ?_⟩
    intro x hx hx'
    split_ifs at hx
    · simp only [List.mem_singleton] at hx
      subst hx
      obtain ⟨k, _, hk⟩ := mem_matchAllChildren m cs x 0 x hx'
      have := hk.length_le
      simp at this
    · simp at hx
theorem nodup_matchAllChildren (m : Node → Bool) : ∀ (cs : List Node) (p : Path) (i : Nat),
    (matchAllChildren m cs p i).Nodup
  | [], p, i => by simp [matchAllChildren]
  | c :: rest, p, i => by
    simp only [matchAllChildren]
    rw [List.nodup_append]
    refine ⟨nodup_matchAll m c (p ++ [i]), nodup_matchAllChildren m rest p (i + 1), ?_⟩
    intro x hx hx'
    have h1 := mem_matchAll m c (p ++ [i]) x hx
    obtain ⟨k, hk, h2⟩ := mem_matchAllChildren m rest p (i + 1) x hx'
    have := snoc_prefix_unique h1 h2
    omega
end

theorem mem_findChildren (m : Node → Bool) (cs : List Node) (p : Path) (i : Nat) (x : Path)
    (h : x ∈ findChildren m cs p i) : ∃ k, i ≤ k ∧ (p ++ [k]) <+: x := by
  induction cs generalizing i with
  | nil => simp [findChildren] at h
  | cons c rest ih =>
    simp only [findChildren, List.mem_append] at h
    rcases h with h | h
    · split_ifs at h
      · exact ⟨i, le_refl _, mem_matchAll m c (p ++ [i]) x h⟩
      · simp at h
    · obtain ⟨k, hk, hx⟩ := ih (i + 1) h
      exact ⟨k, by omega, hx⟩

theorem nodup_findChildren (m : Node → Bool) (cs : List Node) (p : Path) (i : Nat) :
    (findChildren m cs p i).Nodup := by
  induction cs generalizing i with
  | nil => simp [findChildren]
  | cons c rest ih =>
    simp only [findChildren]
    rw [List.nodup_append]
    refine ⟨?_, ih (i + 1), ?_⟩
    · split_ifs
      · exact nodup_matchAll m c (p ++ [i])
      · simp
    · intro x hx hx'
      split_ifs at hx
      · have h1 := mem_matchAll m c (p ++ [i]) x hx
        obtain ⟨k, hk, h2⟩ := mem_findChildren m rest p (i + 1) x hx'
        have := snoc_prefix_unique h1 h2
        omega
      · simp at hx

theorem eraseDups_loop_of_nodup (l acc : List Path) (h : (acc.reverse ++ l).Nodup) :
    List.eraseDups.loop l acc = acc.reverse ++ l := by
  induction l generalizing acc with
  | nil => simp [List.eraseDups.loop]
  | cons x l ih =>
    have hx : x ∉ acc := by
      intro hmem
      rw [List.nodup_append] at h
      exact h.2.2 (List.mem_reverse.2 hmem) (List.mem_cons_self _ _)
    have helem : acc.elem x = false := by
      simpa using hx
    rw [List.eraseDups.loop]
    simp only [helem]
    rw [ih (x :: acc) (by simpa using h)]
    simp

theorem eraseDups_of_nodup (l : List Path) (h : l.Nodup) : l.eraseDups = l := by
  simpa [List.eraseDups] using eraseDups_loop_of_nodup l [] (by simpa using h)

theorem documentFind_eq (doc : Node) (m : Node → Bool) :
    documentFind doc m = findChildren m doc.children [] 0 := by
  simp only [documentFind, Selection.find, List.flatMap_cons, List.flatMap_nil,
    List.append_nil, findFrom, Node.get?]
  exact eraseDups_of_nodup _ (nodup_findChildren m doc.children [] 0)

theorem fold_findChildren (t : NodeType) (a d ns : GoString) (attrs : List Attribute) :
    ∀ (cs pre : List Node),
      (findChildren (isTag (str "div")) cs [] pre.length).foldl transformStep
          (.mk t a d ns attrs (pre ++ cs)) =
        .mk t a d ns attrs (pre ++ renameTop cs) := by
  intro cs
  induction cs with
  | nil => intro pre; simp [findChildren, renameTop]
  | cons c rest ih =>
    intro pre
    have hlen : pre.length < (pre ++ c :: rest).length := by simp
    have hc : (Node.mk t a d ns attrs (pre ++ c :: rest)).get? ([] ++ [pre.length]) =
        some c := by
      simp only [List.nil_append]
      rw [get?_cons, List.getElem?_eq_getElem hlen, List.getElem_append_right (le_refl _)]
      simp [Node.get?]
    simp only [findChildren, List.foldl_append, renameTop]
    by_cases helem : c.type = NodeType.ElementNode
    · simp only [helem, if_true]
      rw [fold_matchAll c _ _ hc,
        replaceAt_snoc _ [] pre.length _ t a d ns attrs (pre ++ c :: rest) rfl hlen]
      have hset : (pre ++ c :: rest).set pre.length (renameNode c) =
          (pre ++ [renameNode c]) ++ rest := by
        simp [List.set_append_right]
      rw [hset]
      have := ih (pre ++ [renameNode c])
      simp only [List.length_append, List.length_singleton] at this
      simp only [replaceAt, this]
      simp
    · simp only [helem, if_false, List.foldl_nil]
      have := ih (pre ++ [c])
      simp only [List.length_append, List.length_singleton, List.append_assoc,
        List.singleton_append] at this
      simp only [this]

/-- The pass, a loop over a selection that rewrites the tree as it goes, gives the tree
described node by node: each step reads a subtree that no earlier step has touched. -/
theorem transformMisusedDivsIntoParagraphs_eq (doc : Node) :
    transformMisusedDivsIntoParagraphs doc = renameDivs doc := by
  obtain ⟨t, a, d, ns, attrs, cs⟩ := doc
  unfold transformMisusedDivsIntoParagraphs
  rw [documentFind_eq]
  have := fold_findChildren t a d ns attrs cs []
  simpa [renameDivs, Node.children] using this

/-! ## transformMisusedDivsIntoParagraphs: a second pass -/

theorem foldLetter_append (c : UInt8) (s r x : GoString) (h : foldLetter c s = some r) :
    foldLetter c (s ++ x) = some (r ++ x) := by
  cases s with
  | nil => simp [foldLetter] at h
  | cons b rest =>
    simp only [foldLetter, List.cons_append] at h ⊢
    by_cases h1 : b = c ∨ b.toNat + 32 = c.toNat
    · simp only [h1, if_true, Option.some.injEq] at h ⊢
      rw [h]
    · simp only [h1, if_false] at h ⊢
      by_cases h2 : c = 107
      · simp only [h2, if_true] at h ⊢
        split at h
        · rename_i rest' heq
          simp only [List.cons.injEq] at heq
          obtain ⟨hb, hrest⟩ := heq
          simp only [Option.some.injEq] at h
          subst hb
          subst hrest
          subst h
          rfl
        · simp at h
      · simp [h2] at h

theorem foldWord_append (w s r x : GoString) (h : foldWord w s = some r) :
    foldWord w (s ++ x) = some (r ++ x) := by
  induction w generalizing s with
  | nil =>
    simp only [foldWord, Option.some.injEq] at h ⊢
    rw [h]
  | cons c w ih =>
    simp only [foldWord] at h ⊢
    cases hl : foldLetter c s with
    | none => simp [hl] at h
    | some r' =>
      simp only [hl] at h
      simp only [foldLetter_append c s r' x hl]
      exact ih r' h

theorem divToPElementsAt_append (s x : GoString) (h : divToPElementsAt s = true) :
    divToPElementsAt (s ++ x) = true := by
  unfold divToPElementsAt at h ⊢
  split at h
  · rename_i rest
    simp only [List.cons_append, List.any_eq_true] at h ⊢
    obtain ⟨w, hw, hm⟩ := h
    refine ⟨w, hw, ?_⟩
    cases hf : foldWord w rest with
    | none => simp [hf] at hm
    | some r =>
      cases r with
      | nil => simp [hf] at hm
      | cons b r =>
        simp only [hf] at hm
        simp only [foldWord_append w rest (b :: r) x hf, List.cons_append]
        exact hm
  · simp at h

theorem match_append_left (a b : GoString) (h : divToPElementsRegexpMatch a = true) :
    divToPElementsRegexpMatch (a ++ b) = true := by
  induction a with
  | nil => simp [divToPElementsRegexpMatch] at h
  | cons x a ih =>
    simp only [divToPElementsRegexpMatch, List.cons_append, Bool.or_eq_true] at h ⊢
    rcases h with h | h
    · exact Or.inl (by simpa using divToPElementsAt_append (x :: a) b h)
    · exact Or.inr (ih h)

theorem match_append_right (a b : GoString) (h : divToPElementsRegexpMatch b = true) :
    divToPElementsRegexpMatch (a ++ b) = true := by
  induction a with
  | nil => simpa using h
  | cons x a ih =>
    simp only [divToPElementsRegexpMatch, List.cons_append, Bool.or_eq_true]
    exact Or.inr ih

theorem match_middle (u x w : GoString) (h : divToPElementsRegexpMatch x = true) :
    divToPElementsRegexpMatch (u ++ x ++ w) = true :=
  match_append_left _ _ (match_append_right _ _ h)

theorem KeepsMatch.refl (x : GoString) : KeepsMatch x x := fun _ _ h => h

theorem KeepsMatch.append {a a' b b' : GoString} (h1 : KeepsMatch a a')
    (h2 : KeepsMatch b b') : KeepsMatch (a ++ b) (a' ++ b') := by
  intro u w h
  have e1 : u ++ (a ++ b) ++ w = u ++ a ++ (b ++ w) := by simp
  have e2 : u ++ (a' ++ b') ++ w = (u ++ a') ++ b' ++ w := by simp
  have e3 : u ++ a' ++ (b ++ w) = (u ++ a') ++ b ++ w := by simp
  rw [e1] at h
  rw [e2]
  exact h2 _ _ (e3 ▸ h1 _ _ h)

theorem KeepsMatch.of_match (x y : GoString) (h : divToPElementsRegexpMatch y = true) :
    KeepsMatch x y := fun u w _ => match_middle u y w h

theorem foldLetter_self (c : UInt8) (rest : GoString) :
    foldLetter c (c :: rest) = some rest := by
  simp [foldLetter]

theorem foldWord_self (w rest : GoString) : foldWord w (w ++ rest) = some rest := by
  induction w with
  | nil => rfl
  | cons c w ih => simp only [List.cons_append, foldWord, foldLetter_self, ih]

/-- The pattern matches `<`, a listed tag name and one of the bytes ` `, `/`, `>`. -/
theorem match_open (w : GoString) (b : UInt8) (rest : GoString) (hw : w ∈ divToPElements)
    (hb : b = 32 ∨ b = 47 ∨ b = 62) :
    divToPElementsRegexpMatch ([60] ++ w ++ b :: rest) = true := by
  have e : [60] ++ w ++ b :: rest = 60 :: (w ++ b :: rest) := by simp
  rw [e]
  simp only [divToPElementsRegexpMatch, Bool.or_eq_true]
  refine Or.inl ?_
  simp only [divToPElementsAt, List.any_eq_true]
  refine ⟨w, hw, ?_⟩
  rw [foldWord_self]
  rcases hb with h | h | h <;> simp [h]

/-- The attributes of an opening tag and the `>` after them start with a space or `>`. -/
theorem renderAttrs_head (attrs : List Attribute) (rest : GoString) :
    ∃ b tail, (b = 32 ∨ b = 47 ∨ b = 62) ∧ renderAttrs attrs ++ [62] ++ rest = b :: tail := by
  cases attrs with
  | nil => exact ⟨62, rest, by simp, by simp [renderAttrs]⟩
  | cons x xs => exact ⟨32, _, by simp, by simp [renderAttrs]; rfl⟩

/-- The opening tag of an element with a listed tag name is a match of the pattern,
whatever follows. -/
theorem match_open_tag (w : GoString) (attrs : List Attribute) (rest : GoString)
    (hw : w ∈ divToPElements) :
    divToPElementsRegexpMatch ([60] ++ w ++ renderAttrs attrs ++ [62] ++ rest) = true := by
  obtain ⟨b, tail, hb, he⟩ := renderAttrs_head attrs rest
  have e : [60] ++ w ++ renderAttrs attrs ++ [62] ++ rest =
      [60] ++ w ++ (renderAttrs attrs ++ [62] ++ rest) := by simp
  rw [e, he]
  exact match_open w b tail hw hb

theorem renameNode_type (n : Node) : (renameNode n).type = n.type := by
  cases n; rfl

theorem renameNode_data (n : Node) (h : n.type ≠ NodeType.ElementNode) :
    (renameNode n).data = n.data := by
  obtain ⟨t, a, d, ns, attrs, cs⟩ := n
  have ht : t ≠ NodeType.ElementNode := h
  simp [renameNode, isMisusedDiv, Node.data, ht]

theorem renameChildren_isEmpty (cs : List Node) :
    (renameChildren cs).isEmpty = cs.isEmpty := by
  cases cs <;> rfl

theorem initialNewline_rename (d : GoString) (cs : List Node) :
    initialNewline d (renameChildren cs) = initialNewline d cs := by
  cases cs with
  | nil => rfl
  | cons c cs =>
    simp only [renameChildren, initialNewline, renameNode_type]
    by_cases ht : c.type = NodeType.TextNode
    · have hne : c.type ≠ NodeType.ElementNode := by rw [ht]; decide
      rw [renameNode_data c hne]
    · simp [ht]

theorem isMisusedDiv_data (t : NodeType) (d : GoString) (cs : List Node)
    (h : isMisusedDiv t d cs = true) : t = NodeType.ElementNode ∧ d = str "div" := by
  simp only [isMisusedDiv, Bool.and_eq_true, decide_eq_true_eq] at h
  exact h.1

/-- The rendering of an element `div` or `p`: neither is void, neither holds literal
text, neither takes the newline of `pre`. -/
theorem render1_block (d : GoString) (hd : d = str "div" ∨ d = str "p") (a ns : GoString)
    (attrs : List Attribute) (cs : List Node) :
    render1 (.mk NodeType.ElementNode a d ns attrs cs) =
      (match renderChildren cs with
       | (body, RenderStatus.ok) =>
         ([60] ++ d ++ renderAttrs attrs ++ [62] ++ body ++ str "</" ++ d ++ [62],
           RenderStatus.ok)
       | (body, st) => ([60] ++ d ++ renderAttrs attrs ++ [62] ++ body, st)) := by
  have hv : voidElements.contains d = false := by
    rcases hd with h | h <;> rw [h] <;> decide
  have hl : childTextNodesAreLiteral ns d = false := by
    unfold childTextNodesAreLiteral
    split_ifs
    · rfl
    · rcases hd with h | h <;> rw [h] <;> decide
  have hn : initialNewline d cs = [] := by
    cases cs with
    | nil => rfl
    | cons c cs =>
      have : ([str "pre", str "listing", str "textarea"].contains d) = false := by
        rcases hd with h | h <;> rw [h] <;> decide
      simp only [initialNewline, this, Bool.false_eq_true, and_false, if_false]
  simp only [render1, hv, hl, hn, List.append_nil, Bool.false_eq_true, if_false]

mutual
/-- The rendering of a subtree after the pass ends as the rendering before the pass, and
a match of the pattern in the former gives one in the latter. -/
theorem render1_rename : ∀ n : Node,
    (render1 (renameNode n)).2 = (render1 n).2 ∧
      KeepsMatch (render1 n).1 (render1 (renameNode n)).1
  | .mk t a d ns attrs cs => by
    have hc := renderChildren_rename cs
    have hl := renderChildrenLiteral_rename cs
    by_cases hm : isMisusedDiv t d cs = true
    · obtain ⟨ht, hd⟩ := isMisusedDiv_data t d cs hm
      subst ht
      subst hd
      simp only [renameNode, hm, if_true]
      rw [render1_block (str "div") (Or.inl rfl), render1_block (str "p") (Or.inr rfl)]
      rcases h1 : renderChildren cs with ⟨body, st⟩
      rcases h2 : renderChildren (renameChildren cs) with ⟨body', st'⟩
      rw [h1, h2] at hc
      have hst : st' = st := hc.1
      subst hst
      cases st' with
      | ok =>
        refine ⟨by trivial, KeepsMatch.of_match _ _ ?_⟩
        have e : [60] ++ str "p" ++ renderAttrs attrs ++ [62] ++ body' ++ str "</" ++
            str "p" ++ [62] = [60] ++ str "p" ++ renderAttrs attrs ++ [62] ++
            (body' ++ str "</" ++ str "p" ++ [62]) := by simp
        simp only [e]
        exact match_open_tag _ attrs _ (by decide)
      | plaintextAbort =>
        exact ⟨by trivial, KeepsMatch.of_match _ _ (match_open_tag _ attrs _ (by decide))⟩
      | error =>
        exact ⟨by trivial, KeepsMatch.of_match _ _ (match_open_tag _ attrs _ (by decide))⟩
    · have hm' : isMisusedDiv t d cs = false := by simpa using hm
      simp only [renameNode, hm', Bool.false_eq_true, if_false]
      cases t with
      | ErrorNode => exact ⟨by trivial, KeepsMatch.refl _⟩
      | TextNode => exact ⟨by trivial, KeepsMatch.refl _⟩
      | DocumentNode => simpa only [render1] using hc
      | CommentNode => exact ⟨by trivial, KeepsMatch.refl _⟩
      | DoctypeNode => exact ⟨by trivial, KeepsMatch.refl _⟩
      | RawNode => exact ⟨by trivial, KeepsMatch.refl _⟩
      | ElementNode =>
        simp only [render1, renameChildren_isEmpty, initialNewline_rename]
        by_cases hv : voidElements.contains d = true
        · simp only [hv, if_true]
          by_cases he : cs.isEmpty = true
          · simp only [he, if_true]
            exact ⟨by trivial, KeepsMatch.refl _⟩
          · simp only [he, Bool.false_eq_true, if_false]
            exact ⟨by trivial, KeepsMatch.refl _⟩
        · simp only [hv, Bool.false_eq_true, if_false]
          by_cases hlit : childTextNodesAreLiteral ns d = true
          · simp only [hlit, if_true]
            rcases h1 : renderChildrenLiteral cs with ⟨body, st⟩
            rcases h2 : renderChildrenLiteral (renameChildren cs) with ⟨body', st'⟩
            rw [h1, h2] at hl
            have hst : st' = st := hl.1
            have hk : KeepsMatch body body' := hl.2
            subst hst
            cases st' with
            | ok =>
              by_cases hp : d = str "plaintext"
              · simp only [hp, if_true]
                exact ⟨by trivial, KeepsMatch.append (KeepsMatch.refl _) hk⟩
              · simp only [hp, if_false]
                refine ⟨by trivial, ?_⟩
                exact KeepsMatch.append (KeepsMatch.append (KeepsMatch.append
                  (KeepsMatch.append (KeepsMatch.refl _) hk) (KeepsMatch.refl _))
                  (KeepsMatch.refl _)) (KeepsMatch.refl _)
            | plaintextAbort => exact ⟨by trivial, KeepsMatch.append (KeepsMatch.refl _) hk⟩
            | error => exact ⟨by trivial, KeepsMatch.append (KeepsMatch.refl _) hk⟩
          · simp only [hlit, Bool.false_eq_true, if_false]
            rcases h1 : renderChildren cs with ⟨body, st⟩
            rcases h2 : renderChildren (renameChildren cs) with ⟨body', st'⟩
            rw [h1, h2] at hc
            have hst : st' = st := hc.1
            have hk : KeepsMatch body body' := hc.2
            subst hst
            cases st' with
            | ok =>
              refine ⟨by trivial, ?_⟩
              exact KeepsMatch.append (KeepsMatch.append (KeepsMatch.append
                (KeepsMatch.append (KeepsMatch.refl _) hk) (KeepsMatch.refl _))
                (KeepsMatch.refl _)) (KeepsMatch.refl _)
            | plaintextAbort => exact ⟨by trivial, KeepsMatch.append (KeepsMatch.refl _) hk⟩
            | error => exact ⟨by trivial, KeepsMatch.append (KeepsMatch.refl _) hk⟩
theorem renderChildren_rename : ∀ cs : List Node,
    (renderChildren (renameChildren cs)).2 = (renderChildren cs).2 ∧
      KeepsMatch (renderChildren cs).1 (renderChildren (renameChildren cs)).1
  | [] => ⟨by trivial, KeepsMatch.refl _⟩
  | c :: cs => by
    have h1 := render1_rename c
    have h2 := renderChildren_rename cs
    simp only [renameChildren, renderChildren]
    rcases e1 : render1 c with ⟨out, st⟩
    rcases e2 : render1 (renameNode c) with ⟨out', st'⟩
    rcases e3 : renderChildren cs with ⟨rest, rs⟩
    rcases e4 : renderChildren (renameChildren cs) with ⟨rest', rs'⟩
    rw [e1, e2] at h1
    rw [e3, e4] at h2
    have hst : st' = st := h1.1
    have hrs : rs' = rs := h2.1
    have hk1 : KeepsMatch out out' := h1.2
    have hk2 : KeepsMatch rest rest' := h2.2
    subst hst
    subst hrs
    cases st' with
    | ok => exact ⟨by trivial, KeepsMatch.append hk1 hk2⟩
    | plaintextAbort => exact ⟨by trivial, hk1⟩
    | error => exact ⟨by trivial, hk1⟩
theorem renderChildrenLiteral_rename : ∀ cs : List Node,
    (renderChildrenLiteral (renameChildren cs)).2 = (renderChildrenLiteral cs).2 ∧
      KeepsMatch (renderChildrenLiteral cs).1 (renderChildrenLiteral (renameChildren cs)).1
  | [] => ⟨by trivial, KeepsMatch.refl _⟩
  | c :: cs => by
    have h1 := render1_rename c
    have h2 := renderChildrenLiteral_rename cs
    simp only [renameChildren, renderChildrenLiteral, renameNode_type]
    have h1' : (if c.type = NodeType.TextNode then ((renameNode c).data, RenderStatus.ok)
          else render1 (renameNode c)).2 =
        (if c.type = NodeType.TextNode then (c.data, RenderStatus.ok) else render1 c).2 ∧
        KeepsMatch (if c.type = NodeType.TextNode then (c.data, RenderStatus.ok)
          else render1 c).1
          (if c.type = NodeType.TextNode then ((renameNode c).data, RenderStatus.ok)
          else render1 (renameNode c)).1 := by
      by_cases ht : c.type = NodeType.TextNode
      · have hne : c.type ≠ NodeType.ElementNode := by rw [ht]; decide
        simp only [ht, if_true, renameNode_data c hne]
        exact ⟨by trivial, KeepsMatch.refl _⟩
      · simp only [ht, if_false]
        exact h1
    rcases e1 : (if c.type = NodeType.TextNode then (c.data, RenderStatus.ok)
      else render1 c) with ⟨out, st⟩
    rcases e2 : (if c.type = NodeType.TextNode then ((renameNode c).data, RenderStatus.ok)
      else render1 (renameNode c)) with ⟨out', st'⟩
    rcases e3 : renderChildrenLiteral cs with ⟨rest, rs⟩
    rcases e4 : renderChildrenLiteral (renameChildren cs) with ⟨rest', rs'⟩
    rw [e1, e2] at h1'
    rw [e3, e4] at h2
    have hst : st' = st := h1'.1
    have hrs : rs' = rs := h2.1
    have hk1 : KeepsMatch out out' := h1'.2
    have hk2 : KeepsMatch rest rest' := h2.2
    subst hst
    subst hrs
    cases st' with
    | ok => exact ⟨by trivial, KeepsMatch.append hk1 hk2⟩
    | plaintextAbort => exact ⟨by trivial, hk1⟩
    | error => exact ⟨by trivial, hk1⟩
end

/-- The inner markup after the pass fails to serialize exactly when it failed before the
pass, and a match of the pattern before the pass gives one after it. -/
theorem htmlChildren_rename (cs : List Node) :
    (htmlChildren cs = none → htmlChildren (renameChildren cs) = none) ∧
      ∀ s, htmlChildren cs = some s →
        ∃ s', htmlChildren (renameChildren cs) = some s' ∧ KeepsMatch s s' := by
  induction cs with
  | nil =>
    refine ⟨fun h => by simp [htmlChildren] at h, fun s h => ?_⟩
    simp only [htmlChildren, Option.some.injEq] at h
    subst h
    exact ⟨[], rfl, KeepsMatch.refl _⟩
  | cons c cs ih =>
    have h1 := render1_rename c
    simp only [renameChildren, htmlChildren]
    rcases e1 : render1 c with ⟨out, st⟩
    rcases e2 : render1 (renameNode c) with ⟨out', st'⟩
    rw [e1, e2] at h1
    have hst : st' = st := h1.1
    have hk1 : KeepsMatch out out' := h1.2
    subst hst
    cases st' with
    | error => exact ⟨fun _ => rfl, fun s h => by simp at h⟩
    | ok =>
      cases e3 : htmlChildren cs with
      | none =>
        simp only [ih.1 e3]
        exact ⟨fun _ => trivial, fun s h => by simp at h⟩
      | some rest =>
        obtain ⟨rest', e4, hk2⟩ := ih.2 rest e3
        simp only [e4]
        refine ⟨fun h => by simp at h, fun s h => ?_⟩
        simp only [Option.some.injEq] at h
        subst h
        exact ⟨_, rfl, KeepsMatch.append hk1 hk2⟩
    | plaintextAbort =>
      cases e3 : htmlChildren cs with
      | none =>
        simp only [ih.1 e3]
        exact ⟨fun _ => trivial, fun s h => by simp at h⟩
      | some rest =>
        obtain ⟨rest', e4, hk2⟩ := ih.2 rest e3
        simp only [e4]
        refine ⟨fun h => by simp at h, fun s h => ?_⟩
        simp only [Option.some.injEq] at h
        subst h
        exact ⟨_, rfl, KeepsMatch.append hk1 hk2⟩

/-- A node that the pass leaves as it is stays so when its descendants are renamed. -/
theorem isMisusedDiv_rename (t : NodeType) (d : GoString) (cs : List Node)
    (h : isMisusedDiv t d cs = false) : isMisusedDiv t d (renameChildren cs) = false := by
  by_cases hd : t = NodeType.ElementNode ∧ d = str "div"
  · have hm : divToPElementsRegexpMatch ((htmlChildren cs).getD []) = true := by
      simpa [isMisusedDiv, hd.1, hd.2] using h
    cases e : htmlChildren cs with
    | none => simp [e, divToPElementsRegexpMatch] at hm
    | some s =>
      obtain ⟨s', e', hk⟩ := (htmlChildren_rename cs).2 s e
      simp only [e, Option.getD_some] at hm
      have hm' : divToPElementsRegexpMatch s' = true := by
        simpa using hk [] [] (by simpa using hm)
      simp [isMisusedDiv, e', hm']
  · simp only [isMisusedDiv, Bool.and_eq_false_imp, Bool.and_eq_true, decide_eq_true_eq]
    intro h'
    exact absurd h' hd

mutual
theorem renameNode_idem : ∀ n : Node, renameNode (renameNode n) = renameNode n
  | .mk t a d ns attrs cs => by
    have hcs := renameChildren_idem cs
    by_cases hm : isMisusedDiv t d cs = true
    · have hp : isMisusedDiv t (str "p") (renameChildren cs) = false := by
        simp only [isMisusedDiv, Bool.and_eq_false_imp, Bool.and_eq_true, decide_eq_true_eq]
        intro h
        exact absurd h.2 (by decide)
      simp only [renameNode, hm, if_true, hp, Bool.false_eq_true, if_false, hcs]
    · have hm' : isMisusedDiv t d cs = false := by simpa using hm
      simp only [renameNode, hm', Bool.false_eq_true, if_false,
        isMisusedDiv_rename t d cs hm', hcs]
theorem renameChildren_idem : ∀ cs : List Node,
    renameChildren (renameChildren cs) = renameChildren cs
  | [] => rfl
  | c :: cs => by
    simp only [renameChildren, renameNode_idem c, renameChildren_idem cs]
end

theorem renameTop_idem (cs : List Node) : renameTop (renameTop cs) = renameTop cs := by
  induction cs with
  | nil => rfl
  | cons c cs ih =>
    by_cases he : c.type = NodeType.ElementNode
    · simp only [renameTop, he, if_true, renameNode_type, renameNode_idem, ih]
    · simp only [renameTop, he, if_false, ih]

theorem renameDivs_idem (doc : Node) : renameDivs (renameDivs doc) = renameDivs doc := by
  obtain ⟨t, a, d, ns, attrs, cs⟩ := doc
  simp only [renameDivs, renameTop_idem]

/-- C15: `transformMisusedDivsIntoParagraphs` is idempotent: on every tree, a second pass
changes nothing. A `div` that the first pass keeps has a match of the pattern in its inner
markup; the renaming of its descendants turns each `<div` of that markup into `<p`, itself
a match, so the second pass keeps it, and what the first pass renamed is no longer a
`div`. -/
theorem transformMisusedDivsIntoParagraphs_idempotent (doc : Node) :
    transformMisusedDivsIntoParagraphs (transformMisusedDivsIntoParagraphs doc) =
      transformMisusedDivsIntoParagraphs doc := by
  rw [transformMisusedDivsIntoParagraphs_eq doc,
    transformMisusedDivsIntoParagraphs_eq (renameDivs doc), renameDivs_idem]

/-! ## transformMisusedDivsIntoParagraphs: which `div` elements are renamed -/

theorem renameChildren_getElem? (cs : List Node) (i : Nat) :
    (renameChildren cs)[i]? = (cs[i]?).map renameNode := by
  induction cs generalizing i with
  | nil => simp [renameChildren]
  | cons c cs ih =>
    cases i with
    | zero => simp [renameChildren]
    | succ i => simp [renameChildren, ih i]

theorem renameTop_getElem? (cs : List Node) (i : Nat) :
    (renameTop cs)[i]? =
      (cs[i]?).map (fun c => if c.type = NodeType.ElementNode then renameNode c else c) := by
  induction cs generalizing i with
  | nil => simp [renameTop]
  | cons c cs ih =>
    cases i with
    | zero => simp [renameTop]
    | succ i => simp [renameTop, ih i]

theorem get?_renameNode (n : Node) (p : Path) :
    (renameNode n).get? p = (n.get? p).map renameNode := by
  induction p generalizing n with
  | nil => simp [Node.get?]
  | cons i p ih =>
    obtain ⟨t, a, d, ns, attrs, cs⟩ := n
    simp only [renameNode]
    rw [get?_cons, get?_cons, renameChildren_getElem?]
    cases cs[i]? with
    | none => rfl
    | some c => simpa using ih c

theorem get?_renameDivs (doc : Node) (i : Nat) (p : Path) :
    (renameDivs doc).get? (i :: p) =
      (doc.children[i]?).bind (fun c =>
        if c.type = NodeType.ElementNode then (c.get? p).map renameNode else c.get? p) := by
  obtain ⟨t, a, d, ns, attrs, cs⟩ := doc
  simp only [renameDivs, Node.children]
  rw [get?_cons, renameTop_getElem?]
  cases cs[i]? with
  | none => rfl
  | some c =>
    by_cases he : c.type = NodeType.ElementNode
    · simp [he, get?_renameNode]
    · simp [he]

theorem get?_renameDivs_isSome (doc : Node) (q : Path) :
    ((renameDivs doc).get? q).isSome = (doc.get? q).isSome := by
  cases q with
  | nil => simp [Node.get?]
  | cons i p =>
    rw [get?_renameDivs]
    obtain ⟨t, a, d, ns, attrs, cs⟩ := doc
    rw [get?_cons]
    simp only [Node.children]
    cases cs[i]? with
    | none => rfl
    | some c =>
      by_cases he : c.type = NodeType.ElementNode
      · simp [he]
      · simp [he]

/-- The opening tag of a void element with a listed tag name is a match of the pattern. -/
theorem match_open_void (w : GoString) (attrs : List Attribute) (hw : w ∈ divToPElements) :
    divToPElementsRegexpMatch ([60] ++ w ++ renderAttrs attrs ++ str "/>") = true := by
  have hs : str "/>" = [47, 62] := by decide
  rw [hs]
  cases attrs with
  | nil =>
    have e : [60] ++ w ++ renderAttrs [] ++ [47, 62] = [60] ++ w ++ 47 :: [62] := by
      simp [renderAttrs]
    rw [e]
    exact match_open w 47 [62] hw (by simp)
  | cons x xs =>
    obtain ⟨tail, ht⟩ : ∃ tail, renderAttrs (x :: xs) ++ [47, 62] = 32 :: tail :=
      ⟨_, by simp [renderAttrs]; rfl⟩
    have e : [60] ++ w ++ renderAttrs (x :: xs) ++ [47, 62] =
        [60] ++ w ++ (renderAttrs (x :: xs) ++ [47, 62]) := by simp
    rw [e, ht]
    exact match_open w 32 tail hw (by simp)

/-- What `render1` writes for an element when it ends normally. -/
theorem render1_element_ok (a d ns : GoString) (attrs : List Attribute) (cs : List Node)
    (h : (render1 (.mk NodeType.ElementNode a d ns attrs cs)).2 = RenderStatus.ok) :
    (cs = [] ∧ (render1 (.mk NodeType.ElementNode a d ns attrs cs)).1 =
        [60] ++ d ++ renderAttrs attrs ++ str "/>") ∨
      ∃ body, (render1 (.mk NodeType.ElementNode a d ns attrs cs)).1 =
          [60] ++ d ++ renderAttrs attrs ++ [62] ++
            (initialNewline d cs ++ body ++ str "</" ++ d ++ [62]) ∧
        (renderChildrenLiteral cs = (body, RenderStatus.ok) ∨
          renderChildren cs = (body, RenderStatus.ok)) := by
  simp only [render1] at h ⊢
  by_cases hv : voidElements.contains d = true
  · simp only [hv, if_true] at h ⊢
    by_cases he : cs.isEmpty = true
    · simp only [he, if_true] at h ⊢
      exact Or.inl ⟨by simpa using he, trivial⟩
    · simp [he] at h
  · simp only [hv, Bool.false_eq_true, if_false] at h ⊢
    by_cases hlit : childTextNodesAreLiteral ns d = true
    · simp only [hlit, if_true] at h ⊢
      rcases h1 : renderChildrenLiteral cs with ⟨body, st⟩
      rw [h1] at h
      cases st with
      | ok =>
        by_cases hp : d = str "plaintext"
        · simp [hp] at h
        · simp only [hp, if_false]
          exact Or.inr ⟨body, by simp, Or.inl rfl⟩
      | plaintextAbort => simp at h
      | error => simp at h
    · simp only [hlit, Bool.false_eq_true, if_false] at h ⊢
      rcases h1 : renderChildren cs with ⟨body, st⟩
      rw [h1] at h
      cases st with
      | ok => exact Or.inr ⟨body, by simp, Or.inr rfl⟩
      | plaintextAbort => simp at h
      | error => simp at h

mutual
/-- In a tree of elements and text that is serialized in full, an element with a listed
tag name leaves a match of the pattern in the markup. -/
theorem render1_block_match : ∀ (n : Node) (p : Path), elementsAndText n = true →
    (render1 n).2 = RenderStatus.ok → matchAll (isTagIn divToPElements) n p ≠ [] →
    divToPElementsRegexpMatch (render1 n).1 = true
  | .mk t a d ns attrs cs, p, het, hok, hne => by
    have hc := renderChildren_block_match cs p 0
    have hl := renderChildrenLiteral_block_match cs p 0
    simp only [elementsAndText, Bool.or_eq_true, Bool.and_eq_true, decide_eq_true_eq] at het
    rcases het with ⟨ht, hcs⟩ | ⟨ht, hcs⟩
    · subst ht
      by_cases hself : divToPElements.contains d = true
      · have hw : d ∈ divToPElements := by simpa using hself
        rcases render1_element_ok a d ns attrs cs hok with ⟨_, ho⟩ | ⟨body, ho, _⟩
        · rw [ho]
          exact match_open_void d attrs hw
        · rw [ho]
          exact match_open_tag d attrs _ hw
      · have hw : d ∉ divToPElements := by simpa using hself
        have hkids : matchAllChildren (isTagIn divToPElements) cs p 0 ≠ [] := by
          have h' : d ∉ divToPElements →
              matchAllChildren (isTagIn divToPElements) cs p 0 ≠ [] := by
            simpa [matchAll, isTagIn, Node.type, Node.data] using hne
          exact h' hw
        rcases render1_element_ok a d ns attrs cs hok with ⟨hnil, _⟩ | ⟨body, ho, hb⟩
        · subst hnil
          simp [matchAllChildren] at hkids
        · rw [ho]
          have hbody : divToPElementsRegexpMatch body = true := by
            rcases hb with hb | hb
            · have := hl hcs (by rw [hb]) hkids
              rwa [hb] at this
            · have := hc hcs (by rw [hb]) hkids
              rwa [hb] at this
          have e : [60] ++ d ++ renderAttrs attrs ++ [62] ++
              (initialNewline d cs ++ body ++ str "</" ++ d ++ [62]) =
              ([60] ++ d ++ renderAttrs attrs ++ [62] ++ initialNewline d cs) ++ body ++
                (str "</" ++ d ++ [62]) := by simp
          rw [e]
          exact match_middle _ _ _ hbody
    · subst ht
      have hnil : cs = [] := by simpa using hcs
      subst hnil
      simp [matchAll, matchAllChildren, isTagIn, Node.type] at hne
theorem renderChildren_block_match : ∀ (cs : List Node) (p : Path) (i : Nat),
    elementsAndTextList cs = true → (renderChildren cs).2 = RenderStatus.ok →
    matchAllChildren (isTagIn divToPElements) cs p i ≠ [] →
    divToPElementsRegexpMatch (renderChildren cs).1 = true
  | [], p, i, _, _, hne => by simp [matchAllChildren] at hne
  | c :: cs, p, i, het, hok, hne => by
    have h1 := render1_block_match c (p ++ [i])
    have h2 := renderChildren_block_match cs p (i + 1)
    simp only [elementsAndTextList, Bool.and_eq_true] at het
    simp only [renderChildren] at hok ⊢
    rcases e1 : render1 c with ⟨out, st⟩
    rcases e2 : renderChildren cs with ⟨rest, rs⟩
    rw [e1, e2] at hok
    rw [e1] at h1
    rw [e2] at h2
    cases st with
    | ok =>
      have hrs : rs = RenderStatus.ok := hok
      subst hrs
      simp only [matchAllChildren, ne_eq, List.append_eq_nil, not_and_or] at hne
      rcases hne with hne | hne
      · exact match_append_left _ _ (h1 het.1 rfl hne)
      · exact match_append_right _ _ (h2 het.2 rfl hne)
    | plaintextAbort => simp at hok
    | error => simp at hok
theorem renderChildrenLiteral_block_match : ∀ (cs : List Node) (p : Path) (i : Nat),
    elementsAndTextList cs = true → (renderChildrenLiteral cs).2 = RenderStatus.ok →
    matchAllChildren (isTagIn divToPElements) cs p i ≠ [] →
    divToPElementsRegexpMatch (renderChildrenLiteral cs).1 = true
  | [], p, i, _, _, hne => by simp [matchAllChildren] at hne
  | c :: cs, p, i, het, hok, hne => by
    have h1 := render1_block_match c (p ++ [i])
    have h2 := renderChildrenLiteral_block_match cs p (i + 1)
    simp only [elementsAndTextList, Bool.and_eq_true] at het
    simp only [renderChildrenLiteral] at hok ⊢
    rcases e2 : renderChildrenLiteral cs with ⟨rest, rs⟩
    rw [e2] at h2
    simp only [matchAllChildren, ne_eq, List.append_eq_nil, not_and_or] at hne
    by_cases ht : c.type = NodeType.TextNode
    · simp only [ht, if_true, e2] at hok ⊢
      have hrs : rs = RenderStatus.ok := hok
      subst hrs
      have hnone : matchAll (isTagIn divToPElements) c (p ++ [i]) = [] := by
        obtain ⟨t, a, d, ns, attrs, cs'⟩ := c
        have ht' : t = NodeType.TextNode := ht
        subst ht'
        have hcs' : cs' = [] := by
          have := het.1
          simp only [elementsAndText, Bool.or_eq_true, Bool.and_eq_true,
            decide_eq_true_eq] at this
          rcases this with ⟨h, _⟩ | ⟨_, h⟩
          · exact absurd h (by decide)
          · simpa using h
        subst hcs'
        simp [matchAll, matchAllChildren, isTagIn, Node.type]
      rcases hne with hne | hne
      · exact absurd hnone hne
      · exact match_append_right _ _ (h2 het.2 rfl hne)
    · simp only [ht, if_false] at hok ⊢
      rcases e1 : render1 c with ⟨out, st⟩
      rw [e1, e2] at hok
      rw [e1] at h1
      cases st with
      | ok =>
        have hrs : rs = RenderStatus.ok := hok
        subst hrs
        rcases hne with hne | hne
        · exact match_append_left _ _ (h1 het.1 rfl hne)
        · exact match_append_right _ _ (h2 het.2 rfl hne)
      | plaintextAbort => simp at hok
      | error => simp at hok
end

/-- When the loop of `render1` over the children ends normally, `Selection.Html` returns
what it wrote. -/
theorem htmlChildren_of_ok (cs : List Node) (h : (renderChildren cs).2 = RenderStatus.ok) :
    htmlChildren cs = some (renderChildren cs).1 := by
  induction cs with
  | nil => rfl
  | cons c cs ih =>
    simp only [renderChildren, htmlChildren] at h ⊢
    rcases e1 : render1 c with ⟨out, st⟩
    rcases e2 : renderChildren cs with ⟨rest, rs⟩
    rw [e1, e2] at h
    rw [e2] at ih
    cases st with
    | ok =>
      have hrs : rs = RenderStatus.ok := h
      subst hrs
      simp only [ih rfl]
    | plaintextAbort => simp at h
    | error => simp at h

/-- A `div` with a descendant element of a listed tag is not renamed, when its content
is made of elements and text and is serialized in full. -/
theorem isMisusedDiv_of_blockDescendants (t : NodeType) (d : GoString) (cs : List Node)
    (het : elementsAndTextList cs = true) (hok : (renderChildren cs).2 = RenderStatus.ok)
    (hb : blockDescendants cs ≠ []) : isMisusedDiv t d cs = false := by
  have hm := renderChildren_block_match cs [] 0 het hok hb
  simp [isMisusedDiv, htmlChildren_of_ok cs hok, hm]

/-- C14 as stated fails: in the parse of
`<div><noscript><img src=a.png></noscript></div>`, a tree of elements and text, the `div`
has one descendant element, `noscript`, whose tag is not in the list, and yet the pass
keeps the `div`: the text of `noscript` is serialized as it is, so the inner markup has
the match `<img ` of the pattern. -/
theorem transformMisusedDivsIntoParagraphs_raw_text :
    elementsAndTextList docRawText.children = true ∧
      (docRawText.get? [0, 1, 0]).map (fun n => (n.data, blockDescendants n.children)) =
        some (str "div", []) ∧
      Selection.html docRawText [[0, 1, 0]] = str "<noscript><img src=a.png></noscript>" ∧
      ((transformMisusedDivsIntoParagraphs docRawText).get? [0, 1, 0]).map Node.data =
        some (str "div") := by
  decide

/-- C14 (amended): the pass decides on the serialized inner markup, not on the tags of the
descendants. For a node below an element child of the document node, the node at the same
path after the pass has the same type, atom, namespace and attributes; its tag name is
"p" if it was a `div` element whose inner markup, as `Selection.Html` serializes it in the
tree before the pass, has no match of `divToPElementsRegexp`, and is unchanged otherwise;
its children are the children before the pass under the same rule. The paths of the tree
are the same before and after: no node is removed or added. And a `div` with a descendant
element of a listed tag is kept, when its content is made of elements and text and is
serialized in full. -/
theorem transformMisusedDivsIntoParagraphs_renames (doc : Node) (i : Nat) (p : Path)
    (c : Node) (t : NodeType) (a d ns : GoString) (attrs : List Attribute) (cs : List Node)
    (hc : doc.children[i]? = some c) (he : c.type = NodeType.ElementNode)
    (hn : doc.get? (i :: p) = some (.mk t a d ns attrs cs)) :
    (transformMisusedDivsIntoParagraphs doc).get? (i :: p) =
        some (.mk t a
          (if t = NodeType.ElementNode ∧ d = str "div" ∧
              divToPElementsRegexpMatch (Selection.html doc [i :: p]) = false
            then str "p" else d)
          ns attrs (renameChildren cs)) ∧
      (∀ q, ((transformMisusedDivsIntoParagraphs doc).get? q).isSome = (doc.get? q).isSome) ∧
      (elementsAndTextList cs = true → (renderChildren cs).2 = RenderStatus.ok →
        blockDescendants cs ≠ [] →
        divToPElementsRegexpMatch (Selection.html doc [i :: p]) = true) := by
  have hhtml : Selection.html doc [i :: p] = (htmlChildren cs).getD [] := by
    rw [html_eq doc (i :: p) _ hn]
    rfl
  refine ⟨?_, ?_, ?_⟩
  · have hcp : c.get? p = some (.mk t a d ns attrs cs) := by
      obtain ⟨t', a', d', ns', attrs', cs'⟩ := doc
      rw [get?_cons] at hn
      simp only [Node.children] at hc
      simpa [hc] using hn
    rw [transformMisusedDivsIntoParagraphs_eq, get?_renameDivs, hc]
    simp only [Option.some_bind, he, if_true, hcp, Option.map_some', renameNode, hhtml,
      Option.some.injEq, Node.mk.injEq, true_and, and_true]
    by_cases h1 : t = NodeType.ElementNode
    · by_cases h2 : d = str "div"
      · cases h3 : divToPElementsRegexpMatch ((htmlChildren cs).getD []) <;>
          simp [isMisusedDiv, h1, h2, h3]
      · simp [isMisusedDiv, h1, h2]
    · simp [isMisusedDiv, h1]
  · intro q
    rw [transformMisusedDivsIntoParagraphs_eq]
    exact get?_renameDivs_isSome doc q
  · intro het hok hb
    have hm := isMisusedDiv_of_blockDescendants NodeType.ElementNode (str "div") cs het hok hb
    rw [hhtml]
    simpa [isMisusedDiv] using hm

/-- Witness of C14 (amended): in the parse of
`<div>inline <em>text</em></div><div><table>...</table></div>` the first `div` becomes
`p` and the `div` around the table stays `div`. -/
theorem transformMisusedDivsIntoParagraphs_renames_witness :
    ((transformMisusedDivsIntoParagraphs docInlineAndTable).get? [0, 1, 0]).map Node.data =
        some (str "p") ∧
      ((transformMisusedDivsIntoParagraphs docInlineAndTable).get? [0, 1, 1]).map Node.data =
        some (str "div") ∧
      divToPElementsRegexpMatch (Selection.html docInlineAndTable [[0, 1, 1]]) = true :=
  ⟨by
    rw [(transformMisusedDivsIntoParagraphs_renames docInlineAndTable 0 [1, 0]
      _ _ _ _ _ _ _ rfl rfl rfl).1]
    decide,
   by
    rw [(transformMisusedDivsIntoParagraphs_renames docInlineAndTable 0 [1, 1]
      _ _ _ _ _ _ _ rfl rfl rfl).1]
    decide,
   (transformMisusedDivsIntoParagraphs_renames docInlineAndTable 0 [1, 1]
      _ _ _ _ _ _ _ rfl rfl rfl).2.2 (by decide) (by decide) (by decide)⟩

/-! ## transformMisusedDivsIntoParagraphs: a `div` around a renamed `div` -/

/-- In `<div><div>inner text</div></div>` the first pass renames the inner `div` and keeps
the outer one, whose inner markup is then `<p>inner text</p>`; the second pass keeps the
outer `div` again. -/
theorem transformMisusedDivsIntoParagraphs_nested_div :
    ((transformMisusedDivsIntoParagraphs docNestedDiv).get? [0, 1, 0]).map Node.data =
        some (str "div") ∧
      ((transformMisusedDivsIntoParagraphs docNestedDiv).get? [0, 1, 0, 0]).map Node.data =
        some (str "p") ∧
      Selection.html (transformMisusedDivsIntoParagraphs docNestedDiv) [[0, 1, 0]] =
        str "<p>inner text</p>" ∧
      ((transformMisusedDivsIntoParagraphs
        (transformMisusedDivsIntoParagraphs docNestedDiv)).get? [0, 1, 0]).map Node.data =
        some (str "div") := by
  decide

end Readability

